import Mathlib

/-!
C-Stippling: weighted Voronoi partition, boundary tracing and the LBG loop.

A shallow embedding of `src/Voronoi.h` and of the LBG loop of `src/main.c`.

Conventions of the embedding.

* `float` values are exact rationals: `+`, `-`, `*`, `/` do not round and do
  not overflow, and there is no NaN or infinity.  `FLT_MAX` keeps its value.
* Where rounding or overflow decides, the partition pass is embedded a second
  time over `F32`, the binary32 numbers with the infinities and NaN: every
  operation, and the conversion of an `int`, rounds its exact result to
  nearest, ties to even (`round32`), as with `FLT_EVAL_METHOD == 0` and no
  contraction of `a * b + c`.  These definitions carry the suffix `32`.
* `sqrtf` belongs to libm, not to this repository.  Every definition that
  reaches it takes it as the parameter `sqrtf : ℚ → ℚ`; `sqrtQ` is a concrete
  stand-in used to run the code on explicit inputs.
* `int` values are unbounded integers.
* A pointer whose extent the callee does not know (`image->data`, the rows of
  `edge_map`) is a total function of the index.  The `cells` block, which
  `compute_voronoi_with_edges` allocates itself, is a list, and an access
  outside it makes the result `none`.
* `malloc` does not fail.  What it returns is not initialised: the content
  found in `cells[i].pixelCount` is the parameter `garbage i`.
* `printf`/`fprintf` and the SVG export are output only and are left out.
-/

namespace Stippling

/-! ## Data model (`Voronoi.h` 7-38, `Image.h` 5-9) -/

/-- The struct `StipplePoint`: two floats. -/
structure StipplePoint where
  x : ℚ
  y : ℚ
deriving DecidableEq

/-- The struct `StippleList`, as the list `points[0 .. count)`. -/
abbrev StippleList := List StipplePoint

/-- The struct `VoronoiCell`. -/
structure VoronoiCell where
  pixelCount : Int
  sumDensity : ℚ
  centroid : StipplePoint
deriving DecidableEq

/-- The struct `VoronoiEdge`: the stored points of one path and their number. -/
structure VoronoiEdge where
  points : List StipplePoint
  length : Int
deriving DecidableEq

/-- The struct `VoronoiDiagram`. -/
structure VoronoiDiagram where
  cells : List VoronoiCell
  count : Int
  edges : List VoronoiEdge
  edgeCount : Int
deriving DecidableEq

/-- The struct `FloatImage`; `data i` is `data[i]`. -/
structure FloatImage where
  width : Int
  height : Int
  data : Int → ℚ

/-- The constant `FLT_MAX` of `float.h`: `(2 - 2^-23) * 2^127`. -/
def FLT_MAX : ℚ := 340282346638528859811704183484516925440

/-- The C conversion `(int)f` of a float: truncation toward zero. -/
def toInt (f : ℚ) : Int := if 0 ≤ f then ⌊f⌋ else ⌈f⌉

/-- A stand-in for libm `sqrtf` on explicit inputs: the square root rounded
down to 24 fractional bits.  It is monotone (`sqrtQ_mono`) and exact on squares
of integers (`sqrtQ_sq_nat`). -/
def sqrtQ (q : ℚ) : ℚ := (Nat.sqrt (⌊q * 2 ^ 48⌋).toNat : ℚ) / 2 ^ 24

/-! ## Distances (`Voronoi.h` 46-62) -/

/-- The function `euclidean_distance`. -/
def euclidean_distance (sqrtf : ℚ → ℚ) (p1 p2 : StipplePoint) : ℚ :=
  sqrtf ((p1.x - p2.x) * (p1.x - p2.x) + (p1.y - p2.y) * (p1.y - p2.y))

/-- The function `weighted_distance`: `p1` is the pixel, `p2` the stipple. -/
def weighted_distance (sqrtf : ℚ → ℚ) (image : FloatImage) (p1 p2 : StipplePoint) : ℚ :=
  let x := toInt p1.x
  let y := toInt p1.y
  let intensity := image.data (y * image.width + x)
  euclidean_distance sqrtf p1 p2 * intensity

/-! ## Nearest-stipple scan (`Voronoi.h` 275-287, also 108-120 and 135-147) -/

/-- The loop `for (i = 0; i < stipples->count; i++)` over the stipples not yet
visited, `i` being the index of the first of them; the state is
`(min_distance, closest_stipple)`. -/
def closest_scan (sqrtf : ℚ → ℚ) (image : FloatImage) (pixel_point : StipplePoint) :
    List StipplePoint → Int → ℚ × Int → ℚ × Int
  | [], _, st => st
  | s :: rest, i, (min_distance, closest_stipple) =>
    let dist := weighted_distance sqrtf image pixel_point s
    if dist < min_distance then
      closest_scan sqrtf image pixel_point rest (i + 1) (dist, i)
    else
      closest_scan sqrtf image pixel_point rest (i + 1) (min_distance, closest_stipple)

/-- The value of `closest_stipple` after the scan for the pixel `(x, y)`,
started from `min_distance = FLT_MAX` and `closest_stipple = -1`. -/
def closest_stipple (sqrtf : ℚ → ℚ) (image : FloatImage) (stipples : StippleList)
    (x y : Int) : Int :=
  (closest_scan sqrtf image ⟨x, y⟩ stipples 0 (FLT_MAX, -1)).2

/-! ## Partition pass (`Voronoi.h` 255-306) -/

/-- Lines 256-267: the block of `count` cells as `malloc` returns it, after the
loop that resets `sumDensity` and `centroid`; `pixelCount` is not written. -/
def init_cells (garbage : Nat → Int) (count : Nat) : List VoronoiCell :=
  (List.range count).map fun i =>
    { pixelCount := garbage i, sumDensity := 0, centroid := ⟨0, 0⟩ }

/-- Lines 289-294: the update of `cells[closest]` for the pixel `(x, y)`.
An index outside the block is undefined behaviour: `none`. -/
def accumulate (image : FloatImage) (cells : List VoronoiCell) (x y : Int)
    (closest : Int) : Option (List VoronoiCell) :=
  if closest < 0 then none
  else
    match cells[closest.toNat]? with
    | none => none
    | some cell =>
      let d := image.data (y * image.width + x)
      some (cells.set closest.toNat
        { pixelCount := cell.pixelCount + 1
          sumDensity := cell.sumDensity + d
          centroid := ⟨cell.centroid.x + x * d, cell.centroid.y + y * d⟩ })

/-- Lines 272-295: the loop over `x` of one row `y`. -/
def first_pass_row (sqrtf : ℚ → ℚ) (image : FloatImage) (stipples : StippleList)
    (y : Nat) (cells : List VoronoiCell) : Option (List VoronoiCell) :=
  (List.range image.width.toNat).foldlM
    (fun cs (x : Nat) =>
      accumulate image cs x y (closest_stipple sqrtf image stipples x y))
    cells

/-- Lines 270-296: the loop over the rows. -/
def first_pass (sqrtf : ℚ → ℚ) (image : FloatImage) (stipples : StippleList)
    (cells : List VoronoiCell) : Option (List VoronoiCell) :=
  (List.range image.height.toNat).foldlM
    (fun cs (y : Nat) => first_pass_row sqrtf image stipples y cs)
    cells

/-- Lines 301-305: the body of the normalisation loop for one cell. -/
def normalize_cell (c : VoronoiCell) : VoronoiCell :=
  if c.sumDensity > 0 then
    { c with centroid := ⟨c.centroid.x / c.sumDensity, c.centroid.y / c.sumDensity⟩ }
  else c

/-- Lines 255-306: initialisation, partition pass and normalisation; the
`cells` of the diagram. -/
def voronoi_cells (sqrtf : ℚ → ℚ) (image : FloatImage) (stipples : StippleList)
    (garbage : Nat → Int) : Option (List VoronoiCell) :=
  (first_pass sqrtf image stipples (init_cells garbage stipples.length)).map
    (List.map normalize_cell)

/-! ## Boundary detection (`Voronoi.h` 101-157, 308-327) -/

/-- The arrays `dx` of `is_voronoi_edge` and `trace_edge_path`. -/
def dx : List Int := [-1, 0, 1, -1, 1, -1, 0, 1]

/-- The arrays `dy` of `is_voronoi_edge` and `trace_edge_path`. -/
def dy : List Int := [-1, -1, -1, 0, 0, 1, 1, 1]

/-- The function `is_voronoi_edge`; `List.any` is the loop over `d` with its
early `return true`. -/
def is_voronoi_edge (sqrtf : ℚ → ℚ) (x y : Int) (image : FloatImage)
    (stipples : StippleList) : Bool :=
  let closest := closest_stipple sqrtf image stipples x y
  (List.range 8).any fun d =>
    let nx := x + dx.getD d 0
    let ny := y + dy.getD d 0
    if nx < 0 ∨ nx ≥ image.width ∨ ny < 0 ∨ ny ≥ image.height then false
    else decide (closest_stipple sqrtf image stipples nx ny ≠ closest)

/-- The assignment `edge_map[y][x] = b`. -/
def mask_set (edge_map : Int → Int → Bool) (y x : Int) (b : Bool) : Int → Int → Bool :=
  fun y1 x1 => if y1 = y ∧ x1 = x then b else edge_map y1 x1

/-- Lines 309-327: the `calloc`ed mask and the counter after the second pass;
the state is `(edge_map, edge_pixel_count)`. -/
def mark_edges (sqrtf : ℚ → ℚ) (image : FloatImage) (stipples : StippleList) :
    (Int → Int → Bool) × Int :=
  (List.range image.height.toNat).foldl
    (fun st (y : Nat) =>
      (List.range image.width.toNat).foldl
        (fun st (x : Nat) =>
          if is_voronoi_edge sqrtf x y image stipples then
            (mask_set st.1 y x true, st.2 + 1)
          else st)
        st)
    (fun _ _ => false, 0)

/-! ## Path tracing (`Voronoi.h` 162-242, 348-361) -/

/-- The local variables of `trace_edge_path` that its `while` loop changes. -/
structure TraceState where
  edge_map : Int → Int → Bool
  path : List StipplePoint
  length : Int
  current_x : Int
  current_y : Int
  last_dx : Int
  last_dy : Int

/-- Lines 192-216: the loop over the eight directions; the state is
`(best_score, best_dir)`. -/
def best_dir_scan (width height : Int) (s : TraceState) : Int × Int :=
  (List.range 8).foldl
    (fun (best : Int × Int) (d : Nat) =>
      let nx := s.current_x + dx.getD d 0
      let ny := s.current_y + dy.getD d 0
      if nx < 0 ∨ nx ≥ width ∨ ny < 0 ∨ ny ≥ height then best
      else if !s.edge_map ny nx then best
      else
        let score : Int :=
          if s.length > 1 then dx.getD d 0 * s.last_dx + dy.getD d 0 * s.last_dy else 0
        if score > best.1 then (score, (d : Int)) else best)
    (-1, -1)

/-- Lines 221-228: the step taken once `best_dir` is found. -/
def trace_step (s : TraceState) (best_dir : Int) : TraceState :=
  let cx := s.current_x + dx.getD best_dir.toNat 0
  let cy := s.current_y + dy.getD best_dir.toNat 0
  { edge_map := mask_set s.edge_map cy cx false
    path := s.path ++ [⟨cx, cy⟩]
    length := s.length + 1
    current_x := cx
    current_y := cy
    last_dx := dx.getD best_dir.toNat 0
    last_dy := dy.getD best_dir.toNat 0 }

/-- Lines 190-229: the `while (length < max_path_length)` loop.  The first
argument bounds the number of iterations; `trace_edge_path` passes
`max_path_length - 1`, which the loop cannot exceed. -/
def trace_loop (width height max_path_length : Int) : Nat → TraceState → TraceState
  | 0, s => s
  | fuel + 1, s =>
    if s.length < max_path_length then
      let best_dir := (best_dir_scan width height s).2
      if best_dir = -1 then s
      else trace_loop width height max_path_length fuel (trace_step s best_dir)
    else s

/-- The function `trace_edge_path`.  The result is the mask, the `paths` array
(`*path_count` is its length) and the returned int.  A buffer of fewer than one
point cannot take the first write `path[0]`: `none`. -/
def trace_edge_path (edge_map : Int → Int → Bool) (x y width height : Int)
    (paths : List VoronoiEdge) (max_paths max_path_length : Int) :
    Option ((Int → Int → Bool) × List VoronoiEdge × Int) :=
  if (paths.length : Int) ≥ max_paths then some (edge_map, paths, 0)
  else if max_path_length < 1 then none
  else
    let s0 : TraceState :=
      { edge_map := mask_set edge_map y x false
        path := [⟨x, y⟩]
        length := 1
        current_x := x
        current_y := y
        last_dx := 0
        last_dy := 0 }
    let s := trace_loop width height max_path_length (max_path_length - 1).toNat s0
    if s.length ≥ 5 then some (s.edge_map, paths ++ [⟨s.path, s.length⟩], 1)
    else some (s.edge_map, paths, 0)

/-- Lines 349-361: the row-major scan that starts a trace at every pixel still
set in the mask; the state is `(edge_map, edges)`. -/
def trace_all (width height : Int) (edge_map : Int → Int → Bool) :
    Option ((Int → Int → Bool) × List VoronoiEdge) :=
  (List.range height.toNat).foldlM
    (fun st (y : Nat) =>
      (List.range width.toNat).foldlM
        (fun (st : (Int → Int → Bool) × List VoronoiEdge) (x : Nat) =>
          if st.1 y x then
            (trace_edge_path st.1 x y width height st.2 100000 100000).map
              fun r => (r.1, r.2.1)
          else some st)
        st)
    (edge_map, [])

/-- Lines 330-332: the capacity of the `edges` block. -/
def max_edges (edge_pixel_count : Int) : Int :=
  if edge_pixel_count / 5 < 100 then 100 else edge_pixel_count / 5

/-- The function `compute_voronoi_with_edges`. -/
def compute_voronoi_with_edges (sqrtf : ℚ → ℚ) (image : FloatImage)
    (stipples : StippleList) (garbage : Nat → Int) : Option VoronoiDiagram :=
  match voronoi_cells sqrtf image stipples garbage with
  | none => none
  | some cells =>
    match trace_all image.width image.height (mark_edges sqrtf image stipples).1 with
    | none => none
    | some (_, edges) =>
      some { cells := cells
             count := stipples.length
             edges := edges
             edgeCount := edges.length }

/-! ## The LBG loop (`main.c` 91-216) -/

/-- The function `createEmptyStippleList`. -/
def createEmptyStippleList : StippleList := []

/-- The function `addToStippleList`. -/
def addToStippleList (list : StippleList) (pt : StipplePoint) : StippleList :=
  list ++ [pt]

/-- The function `splitCell`: the block of two points it returns. -/
def splitCell (vc : VoronoiCell) : List StipplePoint :=
  [⟨vc.centroid.x + 1 / 100, vc.centroid.y⟩, ⟨vc.centroid.x - 1 / 100, vc.centroid.y⟩]

/-- The function `getSplitCount`. -/
def getSplitCount (_vc : VoronoiCell) : Nat := 2

/-- Lines 170-202 of `main.c`: the loop over the cells; the state is
`(newStippleList, changed)`. -/
def LBG_policy (Tl Tu : ℚ) : List VoronoiCell → StippleList × Int → StippleList × Int
  | [], st => st
  | vc :: rest, (newStippleList, changed) =>
    let density := vc.sumDensity
    if density < Tl then
      LBG_policy Tl Tu rest (newStippleList, changed + 1)
    else if density > Tu then
      LBG_policy Tl Tu rest
        (((splitCell vc).take (getSplitCount vc)).foldl addToStippleList newStippleList,
          changed + 1)
    else
      LBG_policy Tl Tu rest (addToStippleList newStippleList vc.centroid, changed)

/-- Lines 160-205 of `main.c`: one pass of the `do` body; the result is the new
`stippleList` and `changed`. -/
def LBG_iteration (sqrtf : ℚ → ℚ) (Tl Tu : ℚ) (img : FloatImage)
    (stippleList : StippleList) (garbage : Nat → Int) : Option (StippleList × Int) :=
  match compute_voronoi_with_edges sqrtf img stippleList garbage with
  | none => none
  | some vd => some (LBG_policy Tl Tu vd.cells (createEmptyStippleList, 0))

/-- The function `initializeStippleList`: ten points drawn from `rand()`, the
`i`-th of which is the parameter `rand i`. -/
def initializeStippleList (rand : Nat → StipplePoint) : StippleList :=
  (List.range 10).foldl (fun list i => addToStippleList list (rand i)) createEmptyStippleList

/-- Lines 158-213 of `main.c`: the `do ... while (changed > 0)` loop, run for
at most the given number of iterations from the list `stippleList`, which
`initializeStippleList` fills from `rand()`.  `garbage k` is the heap content
met by iteration `k`, `iter` the number of iterations already made.  The result
is the returned list with the total number of iterations; `none` when an
iteration is undefined or the bound is reached before `changed` is 0. -/
def LBG_loop (sqrtf : ℚ → ℚ) (Tl Tu : ℚ) (img : FloatImage) (garbage : Nat → Nat → Int) :
    Nat → StippleList → Nat → Option (StippleList × Nat)
  | 0, _, _ => none
  | fuel + 1, stippleList, iter =>
    match LBG_iteration sqrtf Tl Tu img stippleList (garbage iter) with
    | none => none
    | some (newStippleList, changed) =>
      if changed > 0 then LBG_loop sqrtf Tl Tu img garbage fuel newStippleList (iter + 1)
      else some (newStippleList, iter + 1)

/-- The function `LBG`, run for at most `fuel` iterations. -/
def LBG (sqrtf : ℚ → ℚ) (Tl Tu : ℚ) (img : FloatImage) (rand : Nat → StipplePoint)
    (garbage : Nat → Nat → Int) (fuel : Nat) : Option StippleList :=
  (LBG_loop sqrtf Tl Tu img garbage fuel (initializeStippleList rand) 0).map Prod.fst

/-! ## Vocabulary of the statements -/

/-- The pixels `(x, y)` of the image in the order in which the nested loops
`for y` / `for x` visit them. -/
def pixel_list (image : FloatImage) : List (Int × Int) :=
  (List.range image.height.toNat).flatMap fun (y : Nat) =>
    (List.range image.width.toNat).map fun (x : Nat) => ((x : Int), (y : Int))

/-- The value `image->data[y * image->width + x]` at the pixel `p = (x, y)`. -/
def density (image : FloatImage) (p : Int × Int) : ℚ :=
  image.data (p.2 * image.width + p.1)

/-- The pixels for which the scan ends with `closest_stipple == i`. -/
def assigned (sqrtf : ℚ → ℚ) (image : FloatImage) (stipples : StippleList) (i : Int) :
    List (Int × Int) :=
  (pixel_list image).filter fun p =>
    decide (closest_stipple sqrtf image stipples p.1 p.2 = i)

/-- The density mass of the pixels `A`: the sum of their densities. -/
def mass (image : FloatImage) (A : List (Int × Int)) : ℚ :=
  (A.map (density image)).sum

/-- The sum of `x * density` over the pixels `A`. -/
def moment_x (image : FloatImage) (A : List (Int × Int)) : ℚ :=
  (A.map fun p => (p.1 : ℚ) * density image p).sum

/-- The sum of `y * density` over the pixels `A`. -/
def moment_y (image : FloatImage) (A : List (Int × Int)) : ℚ :=
  (A.map fun p => (p.2 : ℚ) * density image p).sum

/-- The cell `c` after the accumulation of the pixels `A` into it. -/
def cell_plus (image : FloatImage) (c : VoronoiCell) (A : List (Int × Int)) : VoronoiCell :=
  { pixelCount := c.pixelCount + A.length
    sumDensity := c.sumDensity + mass image A
    centroid := ⟨c.centroid.x + moment_x image A, c.centroid.y + moment_y image A⟩ }

/-- The number of cells that the policy drops: `density < Tl`. -/
def n_dropped (Tl : ℚ) (cells : List VoronoiCell) : Nat :=
  (cells.filter fun vc => decide (vc.sumDensity < Tl)).length

/-- The number of cells that the policy splits: not dropped and `density > Tu`. -/
def n_split (Tl Tu : ℚ) (cells : List VoronoiCell) : Nat :=
  (cells.filter fun vc => decide (¬ vc.sumDensity < Tl ∧ vc.sumDensity > Tu)).length

/-- The number of cells that the policy keeps: neither dropped nor split. -/
def n_kept (Tl Tu : ℚ) (cells : List VoronoiCell) : Nat :=
  (cells.filter fun vc => decide (¬ vc.sumDensity < Tl ∧ ¬ vc.sumDensity > Tu)).length

/-- Two stored points are 8-neighbours: they differ by at most 1 in `x` and in
`y`, and they are not the same point. -/
def neighbour8 (p q : StipplePoint) : Prop :=
  |p.x - q.x| ≤ 1 ∧ |p.y - q.y| ≤ 1 ∧ p ≠ q

/-- The point `p` is a pixel position inside `[0, width) x [0, height)`. -/
def in_image (width height : Int) (p : StipplePoint) : Prop :=
  ∃ x y : Int, p = ⟨x, y⟩ ∧ (0 ≤ x ∧ x < width) ∧ (0 ≤ y ∧ y < height)

/-- What the `while` loop of `trace_edge_path` maintains: the path ends at the
current pixel, `length` is its number of points, consecutive points are
8-neighbours, and every point is inside the mask. -/
def trace_inv (width height : Int) (s : TraceState) : Prop :=
  s.path.getLast? = some ⟨s.current_x, s.current_y⟩ ∧
  (s.path.length : Int) = s.length ∧
  List.Chain' neighbour8 s.path ∧
  ∀ p ∈ s.path, in_image width height p

/-- The replacement sites of one cell in the words of the policy: nothing below
`Tl`; the two sites `(centroid.x + 0.01, centroid.y)`, `(centroid.x - 0.01, centroid.y)`
for a mass `>= Tl` and `> Tu`; the centroid otherwise. -/
def policy_sites (Tl Tu : ℚ) (vc : VoronoiCell) : List StipplePoint :=
  if vc.sumDensity < Tl then []
  else if vc.sumDensity ≥ Tl ∧ vc.sumDensity > Tu then
    [⟨vc.centroid.x + 1 / 100, vc.centroid.y⟩, ⟨vc.centroid.x - 1 / 100, vc.centroid.y⟩]
  else [vc.centroid]

/-- The pixel `(x, y)` is a boundary pixel of the assignment map `a` (`a x y` is
the index stored for the pixel): some 8-neighbour inside `[0, width) x [0, height)`
has another index. -/
def boundary_in_map (a : Int → Int → Int) (width height x y : Int) : Prop :=
  ∃ nx ny : Int, (|nx - x| ≤ 1 ∧ |ny - y| ≤ 1 ∧ ¬ (nx = x ∧ ny = y)) ∧
    (0 ≤ nx ∧ nx < width) ∧ (0 ≤ ny ∧ ny < height) ∧ a nx ny ≠ a x y

/-- The score that the loop over the directions gives to direction `d`: 0 at
the first step, afterwards the dot product with the last move. -/
def step_score (s : TraceState) (d : Nat) : Int :=
  if s.length > 1 then dx.getD d 0 * s.last_dx + dy.getD d 0 * s.last_dy else 0

/-- The neighbour of the current pixel in direction `d` is inside
`[0, width) x [0, height)` and still set in the mask. -/
def candidate (width height : Int) (s : TraceState) (d : Nat) : Prop :=
  (0 ≤ s.current_x + dx.getD d 0 ∧ s.current_x + dx.getD d 0 < width) ∧
  (0 ≤ s.current_y + dy.getD d 0 ∧ s.current_y + dy.getD d 0 < height) ∧
  s.edge_map (s.current_y + dy.getD d 0) (s.current_x + dx.getD d 0) = true

/-- The body of the loop over the directions, as in `best_dir_scan`. -/
def best_dir_step (width height : Int) (s : TraceState) (best : Int × Int) (d : Nat) :
    Int × Int :=
  let nx := s.current_x + dx.getD d 0
  let ny := s.current_y + dy.getD d 0
  if nx < 0 ∨ nx ≥ width ∨ ny < 0 ∨ ny ≥ height then best
  else if !s.edge_map ny nx then best
  else
    let score : Int :=
      if s.length > 1 then dx.getD d 0 * s.last_dx + dy.getD d 0 * s.last_dy else 0
    if score > best.1 then (score, (d : Int)) else best

/-- The state of `trace_edge_path` when it enters its `while` loop. -/
def trace_start (edge_map : Int → Int → Bool) (x y : Int) : TraceState :=
  { edge_map := mask_set edge_map y x false
    path := [⟨x, y⟩]
    length := 1
    current_x := x
    current_y := y
    last_dx := 0
    last_dy := 0 }

/-- The number of pixels of `[0, width) x [0, height)` that are set in the mask:
the value of `edge_pixel_count` for this mask. -/
def active_count (width height : Int) (edge_map : Int → Int → Bool) : Nat :=
  ((pixel_list ⟨width, height, fun _ => 0⟩).filter fun p => edge_map p.2 p.1).length

/-- What the `while` loop of `trace_edge_path` maintains with respect to the
mask `m` it was entered with: every point of the path is a pixel inside the mask
that was set in `m` and is cleared now, no point occurs twice, and the loop only
clears pixels. -/
def path_inv (m : Int → Int → Bool) (width height : Int) (s : TraceState) : Prop :=
  (∀ p ∈ s.path, ∃ x y : Int, p = ⟨x, y⟩ ∧ (0 ≤ x ∧ x < width) ∧ (0 ≤ y ∧ y < height) ∧
    m y x = true ∧ s.edge_map y x = false) ∧
  s.path.Nodup ∧
  ∀ y x : Int, s.edge_map y x = true → m y x = true

/-- What the row-major tracing scan maintains with respect to the mask `m0` it
started from, its state being `(edge_map, edges)`: every point of a stored path
is a pixel inside the mask that was set in `m0` and is cleared now, no point
occurs twice in the stored paths taken together, the scan only clears pixels, and
every stored path has at least 5 points. -/
def scan_inv (m0 : Int → Int → Bool) (width height : Int)
    (st : (Int → Int → Bool) × List VoronoiEdge) : Prop :=
  (∀ e ∈ st.2, ∀ p ∈ e.points,
    ∃ x y : Int, p = ⟨x, y⟩ ∧ (0 ≤ x ∧ x < width) ∧ (0 ≤ y ∧ y < height) ∧
      m0 y x = true ∧ st.1 y x = false) ∧
  (st.2.flatMap VoronoiEdge.points).Nodup ∧
  (∀ y x : Int, st.1 y x = true → m0 y x = true) ∧
  ∀ e ∈ st.2, 5 ≤ e.points.length

/-! ## Binary32 arithmetic (`float`) -/

/-- A value of the C type `float` (IEEE 754 binary32): a finite number, an
infinity or a NaN.  The two zeros are one value: the code divides only by a
`sumDensity > 0`, and no other operation it uses tells them apart. -/
inductive F32 where
  | fin (q : ℚ)
  | pinf
  | ninf
  | nan
deriving DecidableEq

/-- The nearest integer to `q`, the even one of the two in a tie. -/
def round_even (q : ℚ) : Int :=
  if q - ⌊q⌋ < 1 / 2 then ⌊q⌋
  else if 1 / 2 < q - ⌊q⌋ then ⌊q⌋ + 1
  else if ⌊q⌋ % 2 = 0 then ⌊q⌋ else ⌊q⌋ + 1

/-- The distance between neighbouring binary32 numbers around `q`:
`2^(e - 23)` for `2^e <= |q| < 2^(e+1)`, and `2^-149` below `2^-126`. -/
def ulp32 (q : ℚ) : ℚ := (2 : ℚ) ^ (max (Int.log 2 |q|) (-126) - 23)

/-- Rounding of an exact result to binary32: to the nearest number of 24
significant bits, ties to even; a rounded magnitude of `2^128` or more
overflows to an infinity. -/
def round32 (q : ℚ) : F32 :=
  let r := (round_even (q / ulp32 q) : ℚ) * ulp32 q
  if (2 : ℚ) ^ 128 ≤ r then F32.pinf
  else if r ≤ -(2 : ℚ) ^ 128 then F32.ninf
  else F32.fin r

/-- Unary minus. -/
def F32.neg : F32 → F32
  | .fin q => .fin (-q)
  | .pinf => .ninf
  | .ninf => .pinf
  | .nan => .nan

/-- The operation `+` on floats. -/
def F32.add : F32 → F32 → F32
  | .fin a, .fin b => round32 (a + b)
  | .fin _, .pinf => .pinf
  | .fin _, .ninf => .ninf
  | .pinf, .fin _ => .pinf
  | .pinf, .pinf => .pinf
  | .ninf, .fin _ => .ninf
  | .ninf, .ninf => .ninf
  | _, _ => .nan

/-- The operation `-` on floats. -/
def F32.sub (a b : F32) : F32 := a.add b.neg

/-- The operation `*` on floats. -/
def F32.mul : F32 → F32 → F32
  | .fin a, .fin b => round32 (a * b)
  | .fin a, .pinf => if 0 < a then .pinf else if a < 0 then .ninf else .nan
  | .fin a, .ninf => if 0 < a then .ninf else if a < 0 then .pinf else .nan
  | .pinf, .fin b => if 0 < b then .pinf else if b < 0 then .ninf else .nan
  | .ninf, .fin b => if 0 < b then .ninf else if b < 0 then .pinf else .nan
  | .pinf, .pinf => .pinf
  | .ninf, .ninf => .pinf
  | .pinf, .ninf => .ninf
  | .ninf, .pinf => .ninf
  | _, _ => .nan

/-- The operation `/` on floats; the zero divisor is taken as `+0`. -/
def F32.div : F32 → F32 → F32
  | .fin a, .fin b =>
    if b = 0 then (if 0 < a then .pinf else if a < 0 then .ninf else .nan)
    else round32 (a / b)
  | .fin _, .pinf => .fin 0
  | .fin _, .ninf => .fin 0
  | .pinf, .fin b => if 0 ≤ b then .pinf else .ninf
  | .ninf, .fin b => if 0 ≤ b then .ninf else .pinf
  | _, _ => .nan

/-- The comparison `<` on floats: false whenever a NaN is involved. -/
def F32.lt : F32 → F32 → Bool
  | .fin a, .fin b => decide (a < b)
  | .fin _, .pinf => true
  | .ninf, .fin _ => true
  | .ninf, .pinf => true
  | _, _ => false

/-- The conversion of an `int` to `float`. -/
def F32.ofInt (n : Int) : F32 := round32 n

/-- The conversion `(int)f`: truncation toward zero.  For an infinity or a NaN
it is undefined; the pass applies it to pixel coordinates only. -/
def F32.toInt : F32 → Int
  | .fin q => Stippling.toInt q
  | _ => 0

/-- A stand-in for libm `sqrtf` on explicit inputs: `sqrtQ` rounded to binary32,
with the values of `sqrtf` at the infinities, NaN and negative numbers. -/
def sqrt32 : F32 → F32
  | .fin q => if q < 0 then .nan else round32 (sqrtQ q)
  | .pinf => .pinf
  | _ => .nan

/-! ## The partition pass in binary32 (`Voronoi.h` 46-62, 255-327) -/

/-- The struct `StipplePoint` with binary32 fields. -/
structure StipplePoint32 where
  x : F32
  y : F32
deriving DecidableEq

/-- The struct `VoronoiCell` with binary32 fields. -/
structure VoronoiCell32 where
  pixelCount : Int
  sumDensity : F32
  centroid : StipplePoint32
deriving DecidableEq

/-- The struct `VoronoiDiagram` with binary32 cells.  The points of the paths
are pixel coordinates. -/
structure VoronoiDiagram32 where
  cells : List VoronoiCell32
  count : Int
  edges : List VoronoiEdge
  edgeCount : Int
deriving DecidableEq

/-- The struct `FloatImage` with binary32 data. -/
structure FloatImage32 where
  width : Int
  height : Int
  data : Int → F32

/-- The function `euclidean_distance`, every operation rounded to binary32. -/
def euclidean_distance32 (sqrtf : F32 → F32) (p1 p2 : StipplePoint32) : F32 :=
  sqrtf (((p1.x.sub p2.x).mul (p1.x.sub p2.x)).add ((p1.y.sub p2.y).mul (p1.y.sub p2.y)))

/-- The function `weighted_distance` in binary32: `p1` is the pixel, `p2` the
stipple. -/
def weighted_distance32 (sqrtf : F32 → F32) (image : FloatImage32)
    (p1 p2 : StipplePoint32) : F32 :=
  let x := p1.x.toInt
  let y := p1.y.toInt
  let intensity := image.data (y * image.width + x)
  (euclidean_distance32 sqrtf p1 p2).mul intensity

/-- The loop `for (i = 0; i < stipples->count; i++)` of the scan in binary32;
the state is `(min_distance, closest_stipple)`. -/
def closest_scan32 (sqrtf : F32 → F32) (image : FloatImage32) (pixel_point : StipplePoint32) :
    List StipplePoint32 → Int → F32 × Int → F32 × Int
  | [], _, st => st
  | s :: rest, i, (min_distance, closest_stipple) =>
    let dist := weighted_distance32 sqrtf image pixel_point s
    if dist.lt min_distance then
      closest_scan32 sqrtf image pixel_point rest (i + 1) (dist, i)
    else
      closest_scan32 sqrtf image pixel_point rest (i + 1) (min_distance, closest_stipple)

/-- The value of `closest_stipple` after the scan for the pixel `(x, y)` in
binary32: `pixel_point = {x, y}` converts the coordinates, and the scan starts
from `min_distance = FLT_MAX` and `closest_stipple = -1`. -/
def closest_stipple32 (sqrtf : F32 → F32) (image : FloatImage32)
    (stipples : List StipplePoint32) (x y : Int) : Int :=
  (closest_scan32 sqrtf image ⟨F32.ofInt x, F32.ofInt y⟩ stipples 0 (F32.fin FLT_MAX, -1)).2

/-- Lines 256-267 in binary32: the block of cells after the reset loop;
`pixelCount` is not written. -/
def init_cells32 (garbage : Nat → Int) (count : Nat) : List VoronoiCell32 :=
  (List.range count).map fun i =>
    { pixelCount := garbage i, sumDensity := F32.fin 0, centroid := ⟨F32.fin 0, F32.fin 0⟩ }

/-- Lines 289-294 in binary32: the update of `cells[closest]` for the pixel
`(x, y)`; in `x * data[..]` the `int` is converted to `float`.  An index outside
the block is undefined behaviour: `none`. -/
def accumulate32 (image : FloatImage32) (cells : List VoronoiCell32) (x y : Int)
    (closest : Int) : Option (List VoronoiCell32) :=
  if closest < 0 then none
  else
    match cells[closest.toNat]? with
    | none => none
    | some cell =>
      let d := image.data (y * image.width + x)
      some (cells.set closest.toNat
        { pixelCount := cell.pixelCount + 1
          sumDensity := cell.sumDensity.add d
          centroid := ⟨cell.centroid.x.add ((F32.ofInt x).mul d),
            cell.centroid.y.add ((F32.ofInt y).mul d)⟩ })

/-- Lines 272-295 in binary32: the loop over `x` of one row `y`. -/
def first_pass_row32 (sqrtf : F32 → F32) (image : FloatImage32)
    (stipples : List StipplePoint32) (y : Nat) (cells : List VoronoiCell32) :
    Option (List VoronoiCell32) :=
  (List.range image.width.toNat).foldlM
    (fun cs (x : Nat) =>
      accumulate32 image cs x y (closest_stipple32 sqrtf image stipples x y))
    cells

/-- Lines 270-296 in binary32: the loop over the rows. -/
def first_pass32 (sqrtf : F32 → F32) (image : FloatImage32)
    (stipples : List StipplePoint32) (cells : List VoronoiCell32) :
    Option (List VoronoiCell32) :=
  (List.range image.height.toNat).foldlM
    (fun cs (y : Nat) => first_pass_row32 sqrtf image stipples y cs)
    cells

/-- Lines 301-305 in binary32: the body of the normalisation loop for one
cell. -/
def normalize_cell32 (c : VoronoiCell32) : VoronoiCell32 :=
  if (F32.fin 0).lt c.sumDensity then
    { c with centroid := ⟨c.centroid.x.div c.sumDensity, c.centroid.y.div c.sumDensity⟩ }
  else c

/-- Lines 255-306 in binary32: initialisation, partition pass and
normalisation; the `cells` of the diagram. -/
def voronoi_cells32 (sqrtf : F32 → F32) (image : FloatImage32)
    (stipples : List StipplePoint32) (garbage : Nat → Int) : Option (List VoronoiCell32) :=
  (first_pass32 sqrtf image stipples (init_cells32 garbage stipples.length)).map
    (List.map normalize_cell32)

/-- The function `is_voronoi_edge` in binary32. -/
def is_voronoi_edge32 (sqrtf : F32 → F32) (x y : Int) (image : FloatImage32)
    (stipples : List StipplePoint32) : Bool :=
  let closest := closest_stipple32 sqrtf image stipples x y
  (List.range 8).any fun d =>
    let nx := x + dx.getD d 0
    let ny := y + dy.getD d 0
    if nx < 0 ∨ nx ≥ image.width ∨ ny < 0 ∨ ny ≥ image.height then false
    else decide (closest_stipple32 sqrtf image stipples nx ny ≠ closest)

/-- Lines 309-327 in binary32: the mask and the counter after the second
pass. -/
def mark_edges32 (sqrtf : F32 → F32) (image : FloatImage32)
    (stipples : List StipplePoint32) : (Int → Int → Bool) × Int :=
  (List.range image.height.toNat).foldl
    (fun st (y : Nat) =>
      (List.range image.width.toNat).foldl
        (fun st (x : Nat) =>
          if is_voronoi_edge32 sqrtf x y image stipples then
            (mask_set st.1 y x true, st.2 + 1)
          else st)
        st)
    (fun _ _ => false, 0)

/-- The function `compute_voronoi_with_edges` in binary32. -/
def compute_voronoi_with_edges32 (sqrtf : F32 → F32) (image : FloatImage32)
    (stipples : List StipplePoint32) (garbage : Nat → Int) : Option VoronoiDiagram32 :=
  match voronoi_cells32 sqrtf image stipples garbage with
  | none => none
  | some cells =>
    match trace_all image.width image.height (mark_edges32 sqrtf image stipples).1 with
    | none => none
    | some (_, edges) =>
      some { cells := cells
             count := stipples.length
             edges := edges
             edgeCount := edges.length }


/-- No sum of a cell compares below zero. -/
def cells_not_neg (cells : List VoronoiCell32) : Prop :=
  ∀ c ∈ cells, c.sumDensity.lt (F32.fin 0) = false ∧
    c.centroid.x.lt (F32.fin 0) = false ∧ c.centroid.y.lt (F32.fin 0) = false


/-! ## The densities that `loadImage` computes (`Image.h` 32) -/

/-- The line `img.data[i] = 1 - (data[i] / 255.0f)` of `loadImage` for the value
`g` of `data[i]`, in binary32. -/
def loadImage_density (g : Int) : F32 :=
  (F32.ofInt 1).sub ((F32.ofInt g).div (F32.fin 255))

/-! ## Explicit inputs -/

/-- A 1x1 image whose only pixel has density 1 (a black pixel). -/
def image_1x1 : FloatImage := ⟨1, 1, fun _ => 1⟩

/-- One stipple at `(FLT_MAX, 0)`; `FLT_MAX` is a float. -/
def stipples_far : StippleList := [⟨FLT_MAX, 0⟩]

/-- The 2x2 image with rows `[0, 0]` and `[1, 1]`. -/
def image_2x2 : FloatImage := ⟨2, 2, fun i => if i = 2 ∨ i = 3 then 1 else 0⟩

/-- The stipples `(0, 0)` and `(0, 1)`. -/
def stipples_2x2 : StippleList := [⟨0, 0⟩, ⟨0, 1⟩]

/-- The 10x10 image of constant density 0.5. -/
def image_10x10 : FloatImage := ⟨10, 10, fun _ => 1 / 2⟩

/-- The 4x1 image with the row `[3/4, 1/4, 1/4, 1/4]`. -/
def image_4x1 : FloatImage := ⟨4, 1, fun i => if i = 0 then 3 / 4 else 1 / 4⟩

/-- Two cells with the masses 5 and 2. -/
def cells_5_2 : List VoronoiCell := [⟨1, 5, ⟨1, 1⟩⟩, ⟨1, 2, ⟨3, 3⟩⟩]

/-- A mask of width 6 and height 1 with every pixel set. -/
def mask_row6 : Int → Int → Bool := fun y x => decide (y = 0 ∧ 0 ≤ x ∧ x < 6)

/-- An image of width 0 and height 3: it has no pixel. -/
def image_0x3 : FloatImage := ⟨0, 3, fun _ => 1⟩

/-- A mask of width 2 and height 3 with the pixels `(1, 2)`, `(1, 1)`, `(1, 0)` and
`(0, 0)` set. -/
def mask_turn : Int → Int → Bool :=
  fun y x => decide ((x = 1 ∧ (y = 2 ∨ y = 1 ∨ y = 0)) ∨ (x = 0 ∧ y = 0))

/-- A mask of width 2 and height 2 with the pixels `(0, 0)`, `(1, 0)` and `(0, 1)`
set. -/
def mask_corner : Int → Int → Bool :=
  fun y x => decide ((y = 0 ∧ (x = 0 ∨ x = 1)) ∨ (y = 1 ∧ x = 0))

/-- The image that `loadImage` builds from a grayscale picture of width 8421759
and height 1 whose pixels are white (255) but for the last one, whose value
is 1. -/
def image32_row : FloatImage32 :=
  ⟨8421759, 1, fun i => if i = 8421758 then loadImage_density 1 else loadImage_density 255⟩

/-- The 1x1 image with a pixel of density 1, in binary32. -/
def image32_1x1 : FloatImage32 := ⟨1, 1, fun _ => F32.fin 1⟩

/-- One stipple at `(2^64, 0)`; `2^64` is a binary32 number. -/
def stipples32_far : List StipplePoint32 := [⟨F32.fin 18446744073709551616, F32.fin 0⟩]
/-! ## Square root stand-in and `FLT_MAX` -/

theorem sqrtQ_sq_nat (n : ℕ) : sqrtQ ((n : ℚ) * (n : ℚ)) = n := by
  unfold sqrtQ
  have h1 : ((n : ℚ) * (n : ℚ)) * 2 ^ 48 = (((n * 2 ^ 24) * (n * 2 ^ 24) : ℕ) : ℚ) := by
    push_cast; ring
  have h2 : (⌊((n : ℚ) * (n : ℚ)) * 2 ^ 48⌋).toNat = (n * 2 ^ 24) * (n * 2 ^ 24) := by
    rw [h1]
    have : ((( (n * 2 ^ 24) * (n * 2 ^ 24) : ℕ) : ℚ)) = ((((n * 2 ^ 24) * (n * 2 ^ 24) : ℕ) : ℤ) : ℚ) := by
      push_cast; ring
    rw [this, Int.floor_intCast, Int.toNat_natCast]
  rw [h2, Nat.sqrt_eq]
  push_cast
  norm_num

theorem sqrtQ_le (q : ℚ) (hq : 0 ≤ q) : sqrtQ q ≤ q * 2 ^ 24 := by
  unfold sqrtQ
  rw [div_le_iff₀ (by positivity)]
  have h0 : (0 : ℚ) ≤ q * 2 ^ 48 := by positivity
  have hfl : (0 : ℤ) ≤ ⌊q * 2 ^ 48⌋ := Int.floor_nonneg.2 h0
  calc ((Nat.sqrt (⌊q * 2 ^ 48⌋).toNat : ℕ) : ℚ) ≤ ((⌊q * 2 ^ 48⌋).toNat : ℚ) := by
        exact_mod_cast Nat.sqrt_le_self _
    _ = ((⌊q * 2 ^ 48⌋ : ℤ) : ℚ) := by
        have := Int.toNat_of_nonneg hfl
        exact_mod_cast this
    _ ≤ q * 2 ^ 48 := Int.floor_le _
    _ = q * 2 ^ 24 * 2 ^ 24 := by ring

theorem sqrtQ_nonneg (q : ℚ) : 0 ≤ sqrtQ q := by
  unfold sqrtQ; positivity

theorem sqrtQ_two : 1 < sqrtQ 2 := by
  unfold sqrtQ
  rw [lt_div_iff₀ (by positivity)]
  have h2 : (⌊(2 : ℚ) * 2 ^ 48⌋).toNat = 2 ^ 49 := by
    have : ((2 : ℚ) * 2 ^ 48) = (((2 ^ 49 : ℕ) : ℤ) : ℚ) := by norm_num
    rw [this, Int.floor_intCast, Int.toNat_natCast]
  rw [h2]
  have : 2 ^ 24 + 1 ≤ Nat.sqrt (2 ^ 49) := Nat.le_sqrt.2 (by norm_num)
  have h3 : ((2 ^ 24 + 1 : ℕ) : ℚ) ≤ (Nat.sqrt (2 ^ 49) : ℚ) := by exact_mod_cast this
  have h4 : ((2 ^ 24 + 1 : ℕ) : ℚ) = 1 * 2 ^ 24 + 1 := by norm_num
  rw [h4] at h3
  linarith

theorem sqrtQ_zero : sqrtQ 0 = 0 := by
  have := sqrtQ_sq_nat 0
  simpa using this

theorem sqrtQ_one : sqrtQ 1 = 1 := by
  have := sqrtQ_sq_nat 1
  simpa using this

theorem FLT_MAX_pos : (0 : ℚ) < FLT_MAX := by rw [FLT_MAX]; norm_num

theorem one_lt_FLT_MAX : (1 : ℚ) < FLT_MAX := by rw [FLT_MAX]; norm_num

theorem sqrtQ_FLT_MAX : sqrtQ (FLT_MAX * FLT_MAX) = FLT_MAX := by
  have := sqrtQ_sq_nat 340282346638528859811704183484516925440
  rw [FLT_MAX]
  simpa using this

theorem sqrtQ_four : sqrtQ 4 = 2 := by
  have := sqrtQ_sq_nat 2
  norm_num at this
  exact this

theorem sqrtQ_nine : sqrtQ 9 = 3 := by
  have := sqrtQ_sq_nat 3
  norm_num at this
  exact this

theorem sqrtQ_quarter : sqrtQ (1 / 4) = 1 / 2 := by
  rw [sqrtQ]
  have h2 : (⌊(1 / 4 : ℚ) * 2 ^ 48⌋).toNat = 2 ^ 23 * 2 ^ 23 := by
    have : ((1 / 4 : ℚ) * 2 ^ 48) = (((2 ^ 23 * 2 ^ 23 : ℕ) : ℤ) : ℚ) := by norm_num
    rw [this, Int.floor_intCast, Int.toNat_natCast]
  rw [h2, Nat.sqrt_eq]
  norm_num

theorem sqrtQ_mono (a b : ℚ) (h : a ≤ b) : sqrtQ a ≤ sqrtQ b := by
  unfold sqrtQ
  apply div_le_div_of_nonneg_right _ (by positivity)
  have h1 : ⌊a * 2 ^ 48⌋ ≤ ⌊b * 2 ^ 48⌋ :=
    Int.floor_mono (mul_le_mul_of_nonneg_right h (by positivity))
  have h2 : (⌊a * 2 ^ 48⌋).toNat ≤ (⌊b * 2 ^ 48⌋).toNat := Int.toNat_le_toNat h1
  exact_mod_cast Nat.sqrt_le_sqrt h2

/-- The stand-in rounds down: below the square of a natural number it stays
below that number. -/
theorem sqrtQ_lt_of_lt_sq (q : ℚ) (N : ℕ) (hq : 0 ≤ q) (h : q < (N : ℚ) * N) :
    sqrtQ q < N := by
  unfold sqrtQ
  rw [div_lt_iff₀ (by positivity)]
  have h0 : (0 : ℚ) ≤ q * 2 ^ 48 := by positivity
  have hfl : (0 : ℤ) ≤ ⌊q * 2 ^ 48⌋ := Int.floor_nonneg.2 h0
  have hn : (((⌊q * 2 ^ 48⌋).toNat : ℕ) : ℚ) ≤ q * 2 ^ 48 := by
    have h1 : (((⌊q * 2 ^ 48⌋).toNat : ℕ) : ℚ) = ((⌊q * 2 ^ 48⌋ : ℤ) : ℚ) := by
      have := Int.toNat_of_nonneg hfl
      exact_mod_cast this
    rw [h1]
    exact Int.floor_le _
  have hlt : (((⌊q * 2 ^ 48⌋).toNat : ℕ) : ℚ) < (((N * 2 ^ 24) * (N * 2 ^ 24) : ℕ) : ℚ) := by
    push_cast
    have : q * 2 ^ 48 < (N : ℚ) * N * 2 ^ 48 := mul_lt_mul_of_pos_right h (by positivity)
    calc (((⌊q * 2 ^ 48⌋).toNat : ℕ) : ℚ) ≤ q * 2 ^ 48 := hn
      _ < (N : ℚ) * N * 2 ^ 48 := this
      _ = (N : ℚ) * 2 ^ 24 * ((N : ℚ) * 2 ^ 24) := by ring
  have hlt2 : (⌊q * 2 ^ 48⌋).toNat < (N * 2 ^ 24) * (N * 2 ^ 24) := by exact_mod_cast hlt
  have hs : Nat.sqrt (⌊q * 2 ^ 48⌋).toNat < N * 2 ^ 24 := Nat.sqrt_lt.2 hlt2
  have : ((Nat.sqrt (⌊q * 2 ^ 48⌋).toNat : ℕ) : ℚ) < ((N * 2 ^ 24 : ℕ) : ℚ) := by
    exact_mod_cast hs
  push_cast at this
  exact this

theorem sqrtQ_lt_two_FLT_MAX (q : ℚ) (hq : 0 ≤ q) (h : q < 4 * (FLT_MAX * FLT_MAX)) :
    sqrtQ q < 2 * FLT_MAX := by
  have := sqrtQ_lt_of_lt_sq q (2 * 340282346638528859811704183484516925440) hq (by
    rw [FLT_MAX] at h
    push_cast
    linarith)
  rw [FLT_MAX]
  push_cast at this
  have hnum : (2 : ℚ) * 340282346638528859811704183484516925440 =
      680564693277057719623408366969033850880 := by norm_num
  rw [hnum]
  exact this

/-! ## Nearest-stipple scan -/

theorem toInt_intCast (n : Int) : toInt (n : ℚ) = n := by
  unfold toInt
  split <;> simp

theorem weighted_distance_pixel (sqrtf : ℚ → ℚ) (image : FloatImage) (x y : Int)
    (s : StipplePoint) :
    weighted_distance sqrtf image ⟨x, y⟩ s =
      euclidean_distance sqrtf ⟨x, y⟩ s * image.data (y * image.width + x) := by
  simp [weighted_distance, toInt_intCast]

/-- The scan from the state `(m, c)`: either no stipple is below `m` and the state
is unchanged, or the result is the first stipple of least weighted distance. -/
theorem closest_scan_spec (sqrtf : ℚ → ℚ) (image : FloatImage) (p : StipplePoint)
    (l : List StipplePoint) :
    ∀ (i : Int) (m : ℚ) (c : Int),
      (closest_scan sqrtf image p l i (m, c) = (m, c) ∧
        ∀ s ∈ l, m ≤ weighted_distance sqrtf image p s) ∨
      ∃ (k : Nat) (h : k < l.length),
        closest_scan sqrtf image p l i (m, c) =
          (weighted_distance sqrtf image p l[k], i + k) ∧
        weighted_distance sqrtf image p l[k] < m ∧
        (∀ (j : Nat) (hj : j < l.length),
          weighted_distance sqrtf image p l[k] ≤ weighted_distance sqrtf image p l[j]) ∧
        ∀ (j : Nat) (hj : j < l.length), j < k →
          weighted_distance sqrtf image p l[k] < weighted_distance sqrtf image p l[j] := by
  induction l with
  | nil => intro i m c; left; simp [closest_scan]
  | cons s rest ih =>
    intro i m c
    by_cases hlt : weighted_distance sqrtf image p s < m
    · have hstep : closest_scan sqrtf image p (s :: rest) i (m, c) =
          closest_scan sqrtf image p rest (i + 1) (weighted_distance sqrtf image p s, i) := by
        simp [closest_scan, hlt]
      right
      rcases ih (i + 1) (weighted_distance sqrtf image p s) i with ⟨heq, hall⟩ | ⟨k, hk, heq, hlt2, hmin, hfirst⟩
      · refine ⟨0, by simp, ?_, ?_, ?_, ?_⟩
        · rw [hstep, heq]; simp
        · simpa using hlt
        · intro j hj
          cases j with
          | zero => simp
          | succ j =>
            simp only [List.getElem_cons_succ, List.getElem_cons_zero]
            exact hall _ (List.getElem_mem _)
        · intro j hj hjk; omega
      · refine ⟨k + 1, by simpa using hk, ?_, ?_, ?_, ?_⟩
        · rw [hstep, heq]; simp; ring
        · simp only [List.getElem_cons_succ]; exact lt_trans hlt2 hlt
        · intro j hj
          cases j with
          | zero => simp only [List.getElem_cons_succ, List.getElem_cons_zero]; exact le_of_lt hlt2
          | succ j => simp only [List.getElem_cons_succ]; exact hmin j (by simpa using hj)
        · intro j hj hjk
          cases j with
          | zero => simp only [List.getElem_cons_succ, List.getElem_cons_zero]; exact hlt2
          | succ j =>
            simp only [List.getElem_cons_succ]
            exact hfirst j (by simpa using hj) (by omega)
    · have hstep : closest_scan sqrtf image p (s :: rest) i (m, c) =
          closest_scan sqrtf image p rest (i + 1) (m, c) := by
        simp [closest_scan, hlt]
      rcases ih (i + 1) m c with ⟨heq, hall⟩ | ⟨k, hk, heq, hlt2, hmin, hfirst⟩
      · left
        refine ⟨by rw [hstep, heq], ?_⟩
        intro t ht
        rcases List.mem_cons.1 ht with rfl | ht
        · exact not_lt.1 hlt
        · exact hall t ht
      · right
        refine ⟨k + 1, by simpa using hk, ?_, ?_, ?_, ?_⟩
        · rw [hstep, heq]; simp; ring
        · simpa using hlt2
        · intro j hj
          cases j with
          | zero =>
            simp only [List.getElem_cons_succ, List.getElem_cons_zero]
            exact le_trans (le_of_lt hlt2) (not_lt.1 hlt)
          | succ j => simp only [List.getElem_cons_succ]; exact hmin j (by simpa using hj)
        · intro j hj hjk
          cases j with
          | zero =>
            simp only [List.getElem_cons_succ, List.getElem_cons_zero]
            exact lt_of_lt_of_le hlt2 (not_lt.1 hlt)
          | succ j =>
            simp only [List.getElem_cons_succ]
            exact hfirst j (by simpa using hj) (by omega)

/-- The scan of `compute_voronoi_with_edges`: -1 when no stipple is below
`FLT_MAX`, otherwise the first index of least weighted distance. -/
theorem closest_stipple_spec (sqrtf : ℚ → ℚ) (image : FloatImage) (stipples : StippleList)
    (x y : Int) :
    (closest_stipple sqrtf image stipples x y = -1 ∧
      ∀ s ∈ stipples, FLT_MAX ≤ weighted_distance sqrtf image ⟨x, y⟩ s) ∨
    ∃ (k : Nat) (_ : k < stipples.length),
      closest_stipple sqrtf image stipples x y = k ∧
      weighted_distance sqrtf image ⟨x, y⟩ stipples[k] < FLT_MAX ∧
      (∀ (j : Nat) (_ : j < stipples.length),
        weighted_distance sqrtf image ⟨x, y⟩ stipples[k] ≤
          weighted_distance sqrtf image ⟨x, y⟩ stipples[j]) ∧
      ∀ (j : Nat) (_ : j < stipples.length), j < k →
        weighted_distance sqrtf image ⟨x, y⟩ stipples[k] <
          weighted_distance sqrtf image ⟨x, y⟩ stipples[j] := by
  unfold closest_stipple
  rcases closest_scan_spec sqrtf image ⟨x, y⟩ stipples 0 FLT_MAX (-1) with
    ⟨heq, hall⟩ | ⟨k, hk, heq, hlt, hmin, hfirst⟩
  · left; rw [heq]; exact ⟨rfl, hall⟩
  · right
    refine ⟨k, hk, ?_, hlt, hmin, hfirst⟩
    rw [heq]; simp

theorem closest_stipple_range (sqrtf : ℚ → ℚ) (image : FloatImage) (stipples : StippleList)
    (x y : Int)
    (hnear : ∃ s ∈ stipples, weighted_distance sqrtf image ⟨x, y⟩ s < FLT_MAX) :
    0 ≤ closest_stipple sqrtf image stipples x y ∧
      closest_stipple sqrtf image stipples x y < stipples.length := by
  rcases closest_stipple_spec sqrtf image stipples x y with
    ⟨_, hall⟩ | ⟨k, hk, heq, _, _, _⟩
  · obtain ⟨s, hs, hlt⟩ := hnear
    exact absurd hlt (not_lt.2 (hall s hs))
  · rw [heq]; omega

theorem closest_single (sqrtf : ℚ → ℚ) (image : FloatImage) (s : StipplePoint) (x y : Int)
    (h : weighted_distance sqrtf image ⟨x, y⟩ s < FLT_MAX) :
    closest_stipple sqrtf image [s] x y = 0 := by
  simp [closest_stipple, closest_scan, h]

theorem closest_none_near (sqrtf : ℚ → ℚ) (image : FloatImage) (stipples : StippleList)
    (x y : Int)
    (h : ∀ s ∈ stipples, FLT_MAX ≤ weighted_distance sqrtf image ⟨x, y⟩ s) :
    closest_stipple sqrtf image stipples x y = -1 := by
  rcases closest_stipple_spec sqrtf image stipples x y with ⟨heq, _⟩ | ⟨k, hk, _, hlt, _, _⟩
  · exact heq
  · exact absurd hlt (not_lt.2 (h _ (List.getElem_mem _)))

/-! ## Partition pass -/

theorem cell_plus_cons (image : FloatImage) (c : VoronoiCell) (p : Int × Int)
    (A : List (Int × Int)) :
    cell_plus image
        { pixelCount := c.pixelCount + 1
          sumDensity := c.sumDensity + image.data (p.2 * image.width + p.1)
          centroid := ⟨c.centroid.x + p.1 * image.data (p.2 * image.width + p.1),
                       c.centroid.y + p.2 * image.data (p.2 * image.width + p.1)⟩ } A =
      cell_plus image c (p :: A) := by
  simp only [cell_plus, mass, moment_x, moment_y, density, List.map_cons, List.sum_cons,
    List.length_cons]
  congr 1
  · push_cast; ring
  · ring
  · congr 1 <;> ring

theorem cell_plus_nil (image : FloatImage) (c : VoronoiCell) : cell_plus image c [] = c := by
  simp [cell_plus, mass, moment_x, moment_y]

theorem mass_cons (image : FloatImage) (p : Int × Int) (A : List (Int × Int)) :
    mass image (p :: A) = density image p + mass image A := by
  simp [mass]

theorem moment_x_cons (image : FloatImage) (p : Int × Int) (A : List (Int × Int)) :
    moment_x image (p :: A) = (p.1 : ℚ) * density image p + moment_x image A := by
  simp [moment_x]

theorem moment_y_cons (image : FloatImage) (p : Int × Int) (A : List (Int × Int)) :
    moment_y image (p :: A) = (p.2 : ℚ) * density image p + moment_y image A := by
  simp [moment_y]

/-- Accumulating the pixels `ps` with indices inside the block adds to every
cell the pixels that carry its index. -/
theorem fold_accumulate_some (image : FloatImage) (f : Int × Int → Int)
    (ps : List (Int × Int)) :
    ∀ cs : List VoronoiCell, (∀ p ∈ ps, 0 ≤ f p ∧ f p < cs.length) →
      ∃ cs1, ps.foldlM (fun cs p => accumulate image cs p.1 p.2 (f p)) cs = some cs1 ∧
        ∀ i : Nat, cs1[i]? =
          (cs[i]?).map fun c => cell_plus image c (ps.filter fun p => decide (f p = i)) := by
  induction ps with
  | nil =>
    intro cs _
    refine ⟨cs, rfl, fun i => ?_⟩
    cases h : cs[i]? <;> simp [cell_plus_nil]
  | cons p ps ih =>
    intro cs hall
    obtain ⟨h0, hlt⟩ := hall p (List.mem_cons_self _ _)
    have hk : (f p).toNat < cs.length := by omega
    have hacc : accumulate image cs p.1 p.2 (f p) = some (cs.set (f p).toNat
        { pixelCount := cs[(f p).toNat].pixelCount + 1
          sumDensity := cs[(f p).toNat].sumDensity + image.data (p.2 * image.width + p.1)
          centroid := ⟨cs[(f p).toNat].centroid.x + p.1 * image.data (p.2 * image.width + p.1),
                       cs[(f p).toNat].centroid.y + p.2 * image.data (p.2 * image.width + p.1)⟩ }) := by
      unfold accumulate
      rw [if_neg (not_lt.2 h0), List.getElem?_eq_getElem hk]
    obtain ⟨cs1, hfold, hspec⟩ := ih (cs.set (f p).toNat _) (by
      intro q hq
      have := hall q (List.mem_cons_of_mem _ hq)
      rw [List.length_set]
      exact this)
    refine ⟨cs1, ?_, fun i => ?_⟩
    · rw [List.foldlM_cons, hacc]; exact hfold
    · rw [hspec i, List.getElem?_set]
      by_cases hik : (f p).toNat = i
      · have hfi : f p = (i : Int) := by omega
        have hfilter : (p :: ps).filter (fun q => decide (f q = i)) =
            p :: ps.filter (fun q => decide (f q = i)) := by
          simp [List.filter_cons, hfi]
        rw [hfilter]
        subst hik
        rw [if_pos rfl, if_pos hk, List.getElem?_eq_getElem hk]
        simp only [Option.map_some']
        rw [cell_plus_cons]
      · have hfi : f p ≠ (i : Int) := by omega
        rw [if_neg hik]
        simp [List.filter_cons, hfi]

/-- One index outside the block makes the accumulation undefined. -/
theorem fold_accumulate_none (image : FloatImage) (f : Int × Int → Int)
    (ps : List (Int × Int)) :
    ∀ cs : List VoronoiCell, (∃ p ∈ ps, ¬ (0 ≤ f p ∧ f p < cs.length)) →
      ps.foldlM (fun cs p => accumulate image cs p.1 p.2 (f p)) cs = none := by
  induction ps with
  | nil => intro cs h; simp at h
  | cons p ps ih =>
    intro cs hex
    rw [List.foldlM_cons]
    by_cases hp : 0 ≤ f p ∧ f p < cs.length
    · obtain ⟨q, hq, hbad⟩ := hex
      have hq2 : q ∈ ps := by
        rcases List.mem_cons.1 hq with rfl | h
        · exact absurd hp hbad
        · exact h
      have hk : (f p).toNat < cs.length := by omega
      unfold accumulate
      rw [if_neg (not_lt.2 hp.1), List.getElem?_eq_getElem hk]
      simp only [Option.bind_eq_bind, Option.some_bind]
      apply ih
      exact ⟨q, hq2, by simpa using hbad⟩
    · unfold accumulate
      by_cases h0 : f p < 0
      · simp [h0]
      · have hk : cs.length ≤ (f p).toNat := by
          have : ¬ f p < cs.length := fun h => hp ⟨not_lt.1 h0, h⟩
          omega
        rw [if_neg h0, List.getElem?_eq_none hk]
        rfl

theorem foldlM_flatMap {α β σ : Type} (g : α → List β) (h : σ → β → Option σ)
    (L : List α) : ∀ s : σ,
    (L.flatMap g).foldlM h s = L.foldlM (fun s a => (g a).foldlM h s) s := by
  induction L with
  | nil => intro s; rfl
  | cons a L ih =>
    intro s
    rw [List.flatMap_cons, List.foldlM_append, List.foldlM_cons]
    cases hga : (g a).foldlM h s with
    | none => rfl
    | some s1 => simpa using ih s1

/-- The two nested loops visit the pixels of `pixel_list` in order. -/
theorem first_pass_eq (sqrtf : ℚ → ℚ) (image : FloatImage) (stipples : StippleList)
    (cells : List VoronoiCell) :
    first_pass sqrtf image stipples cells =
      (pixel_list image).foldlM
        (fun cs p => accumulate image cs p.1 p.2
          (closest_stipple sqrtf image stipples p.1 p.2)) cells := by
  unfold first_pass pixel_list
  rw [foldlM_flatMap]
  congr 1
  funext cs y
  unfold first_pass_row
  rw [List.foldlM_map]

theorem mem_pixel_list (image : FloatImage) (p : Int × Int) :
    p ∈ pixel_list image ↔
      (0 ≤ p.1 ∧ p.1 < image.width) ∧ (0 ≤ p.2 ∧ p.2 < image.height) := by
  unfold pixel_list
  simp only [List.mem_flatMap, List.mem_map, List.mem_range]
  constructor
  · rintro ⟨y, hy, x, hx, rfl⟩
    simp only
    omega
  · rintro ⟨⟨hx0, hx1⟩, hy0, hy1⟩
    refine ⟨p.2.toNat, by omega, p.1.toNat, by omega, ?_⟩
    ext
    · simp [Int.toNat_of_nonneg hx0]
    · simp [Int.toNat_of_nonneg hy0]

theorem length_pixel_list (image : FloatImage) :
    (pixel_list image).length = image.height.toNat * image.width.toNat := by
  unfold pixel_list
  generalize image.height.toNat = h
  induction h with
  | zero => simp
  | succ n ih =>
    rw [List.range_succ, List.flatMap_append, List.length_append, ih]
    simp
    ring

theorem getElem?_init_cells (garbage : Nat → Int) (count i : Nat) :
    (init_cells garbage count)[i]? =
      if i < count then some { pixelCount := garbage i, sumDensity := 0, centroid := ⟨0, 0⟩ }
      else none := by
  unfold init_cells
  by_cases h : i < count
  · simp [h, List.getElem?_range]
  · simp [h]
    omega

theorem length_init_cells (garbage : Nat → Int) (count : Nat) :
    (init_cells garbage count).length = count := by
  simp [init_cells]

/-- The cell of stipple `i` in terms of the pixels assigned to it, before normalisation. -/
theorem first_pass_some (sqrtf : ℚ → ℚ) (image : FloatImage) (stipples : StippleList)
    (garbage : Nat → Int)
    (hrange : ∀ p ∈ pixel_list image,
      0 ≤ closest_stipple sqrtf image stipples p.1 p.2 ∧
        closest_stipple sqrtf image stipples p.1 p.2 < stipples.length) :
    ∃ cells, first_pass sqrtf image stipples (init_cells garbage stipples.length) = some cells ∧
      cells.length = stipples.length ∧
      ∀ i : Nat, i < stipples.length →
        cells[i]? = some (cell_plus image
          { pixelCount := garbage i, sumDensity := 0, centroid := ⟨0, 0⟩ }
          (assigned sqrtf image stipples i)) := by
  obtain ⟨cells, hfold, hspec⟩ := fold_accumulate_some image
    (fun p => closest_stipple sqrtf image stipples p.1 p.2) (pixel_list image)
    (init_cells garbage stipples.length) (by simpa [length_init_cells] using hrange)
  have hget : ∀ i : Nat, i < stipples.length →
      cells[i]? = some (cell_plus image
        { pixelCount := garbage i, sumDensity := 0, centroid := ⟨0, 0⟩ }
        (assigned sqrtf image stipples i)) := by
    intro i hi
    rw [hspec i, getElem?_init_cells, if_pos hi]
    rfl
  refine ⟨cells, by rw [first_pass_eq]; exact hfold, ?_, hget⟩
  apply le_antisymm
  · have h := hspec stipples.length
    rw [getElem?_init_cells, if_neg (lt_irrefl _)] at h
    simpa using h
  · by_contra hlt
    have h := hget cells.length (not_le.1 hlt)
    rw [List.getElem?_eq_none (le_refl _)] at h
    cases h

theorem first_pass_none (sqrtf : ℚ → ℚ) (image : FloatImage) (stipples : StippleList)
    (garbage : Nat → Int)
    (hbad : ∃ p ∈ pixel_list image,
      ¬ (0 ≤ closest_stipple sqrtf image stipples p.1 p.2 ∧
        closest_stipple sqrtf image stipples p.1 p.2 < stipples.length)) :
    first_pass sqrtf image stipples (init_cells garbage stipples.length) = none := by
  rw [first_pass_eq]
  exact fold_accumulate_none image
    (fun p => closest_stipple sqrtf image stipples p.1 p.2) (pixel_list image)
    (init_cells garbage stipples.length) (by simpa [length_init_cells] using hbad)

theorem first_pass_range (sqrtf : ℚ → ℚ) (image : FloatImage) (stipples : StippleList)
    (garbage : Nat → Int) (cells : List VoronoiCell)
    (h : first_pass sqrtf image stipples (init_cells garbage stipples.length) = some cells) :
    ∀ p ∈ pixel_list image,
      0 ≤ closest_stipple sqrtf image stipples p.1 p.2 ∧
        closest_stipple sqrtf image stipples p.1 p.2 < stipples.length := by
  by_contra hne
  push_neg at hne
  obtain ⟨p, hp, hbad⟩ := hne
  have := first_pass_none sqrtf image stipples garbage ⟨p, hp, fun hc => by
    have := hbad hc.1
    omega⟩
  rw [this] at h
  cases h

/-- Indices in `[0, n)` split a list into `n` classes whose sizes add up. -/
theorem sum_filter_length {α : Type} (f : α → Int) (n : Nat) (ps : List α)
    (hrange : ∀ p ∈ ps, 0 ≤ f p ∧ f p < n) :
    ∑ i in Finset.range n, ((ps.filter fun p => decide (f p = (i : Int))).length : Int) =
      ps.length := by
  induction ps with
  | nil => simp
  | cons p ps ih =>
    have ih1 := ih (fun q hq => hrange q (List.mem_cons_of_mem _ hq))
    obtain ⟨h0, hlt⟩ := hrange p (List.mem_cons_self _ _)
    have hsplit : ∀ i : Nat,
        (((p :: ps).filter fun q => decide (f q = (i : Int))).length : Int) =
          ((ps.filter fun q => decide (f q = (i : Int))).length : Int) +
            (if i = (f p).toNat then 1 else 0) := by
      intro i
      by_cases hi : f p = (i : Int)
      · have : i = (f p).toNat := by omega
        simp [List.filter_cons, hi, ← this]
      · have : ¬ i = (f p).toNat := by omega
        simp [List.filter_cons, hi, this]
    simp only [hsplit, Finset.sum_add_distrib, ih1]
    have hmem : (f p).toNat ∈ Finset.range n := by
      rw [Finset.mem_range]; omega
    simp [Finset.sum_ite_eq', hmem]

theorem voronoi_cells_total (sqrtf : ℚ → ℚ) (image : FloatImage) (stipples : StippleList)
    (garbage : Nat → Int)
    (hrange : ∀ p ∈ pixel_list image,
      0 ≤ closest_stipple sqrtf image stipples p.1 p.2 ∧
        closest_stipple sqrtf image stipples p.1 p.2 < stipples.length) :
    ∃ cells, voronoi_cells sqrtf image stipples garbage = some cells := by
  obtain ⟨cells, h, _⟩ := first_pass_some sqrtf image stipples garbage hrange
  exact ⟨cells.map normalize_cell, by simp [voronoi_cells, h]⟩

/-- What `compute_voronoi_with_edges` leaves in `cells[i]`, in terms of the
pixels assigned to `i` and of the content `garbage i` the block came with. -/
theorem voronoi_cells_spec (sqrtf : ℚ → ℚ) (image : FloatImage) (stipples : StippleList)
    (garbage : Nat → Int) (cells : List VoronoiCell)
    (h : voronoi_cells sqrtf image stipples garbage = some cells) :
    cells.length = stipples.length ∧
    (∀ p ∈ pixel_list image,
      0 ≤ closest_stipple sqrtf image stipples p.1 p.2 ∧
        closest_stipple sqrtf image stipples p.1 p.2 < stipples.length) ∧
    ∀ i : Nat, i < stipples.length →
      ∃ c, cells[i]? = some c ∧
        c.pixelCount = garbage i + (assigned sqrtf image stipples i).length ∧
        c.sumDensity = mass image (assigned sqrtf image stipples i) ∧
        (c.sumDensity > 0 →
          c.centroid =
            ⟨moment_x image (assigned sqrtf image stipples i) / c.sumDensity,
             moment_y image (assigned sqrtf image stipples i) / c.sumDensity⟩) ∧
        (¬ c.sumDensity > 0 →
          c.centroid =
            ⟨moment_x image (assigned sqrtf image stipples i),
             moment_y image (assigned sqrtf image stipples i)⟩) := by
  unfold voronoi_cells at h
  cases hf : first_pass sqrtf image stipples (init_cells garbage stipples.length) with
  | none => rw [hf] at h; cases h
  | some raw =>
    rw [hf] at h
    simp only [Option.map_some', Option.some.injEq] at h
    have hrange := first_pass_range sqrtf image stipples garbage raw hf
    obtain ⟨raw1, hraw1, hlen, hget⟩ := first_pass_some sqrtf image stipples garbage hrange
    rw [hf] at hraw1
    cases hraw1
    subst h
    refine ⟨by simpa using hlen, hrange, fun i hi => ?_⟩
    refine ⟨normalize_cell (cell_plus image
      { pixelCount := garbage i, sumDensity := 0, centroid := ⟨0, 0⟩ }
      (assigned sqrtf image stipples i)), ?_, ?_⟩
    · rw [List.getElem?_map, hget i hi]; rfl
    · unfold normalize_cell
      split
      · rename_i hpos
        simp only [cell_plus, zero_add] at hpos
        refine ⟨rfl, ?_, fun _ => ?_, fun hn => absurd ?_ hn⟩
        · simp [cell_plus]
        · simp [cell_plus]
        · simpa [cell_plus] using hpos
      · rename_i hpos
        simp only [cell_plus, zero_add] at hpos
        refine ⟨rfl, ?_, fun hp => absurd ?_ hpos, fun _ => ?_⟩
        · simp [cell_plus]
        · simpa [cell_plus] using hp
        · simp [cell_plus]

theorem assigned_single (sqrtf : ℚ → ℚ) (image : FloatImage) (s : StipplePoint)
    (h : ∀ p ∈ pixel_list image, weighted_distance sqrtf image ⟨p.1, p.2⟩ s < FLT_MAX) :
    assigned sqrtf image [s] 0 = pixel_list image := by
  unfold assigned
  rw [List.filter_eq_self]
  intro p hp
  simp [closest_single sqrtf image s p.1 p.2 (h p hp)]

theorem assigned_congr (sqrtf : ℚ → ℚ) (image : FloatImage) (S T : StippleList) (i : Int)
    (h : ∀ p ∈ pixel_list image,
      closest_stipple sqrtf image T p.1 p.2 = closest_stipple sqrtf image S p.1 p.2) :
    assigned sqrtf image T i = assigned sqrtf image S i := by
  unfold assigned
  apply List.filter_congr
  intro p hp
  rw [h p hp]

/-- With a single stipple within `FLT_MAX` of every pixel, the one cell
collects the whole image. -/
theorem cells_single (sqrtf : ℚ → ℚ) (image : FloatImage) (s : StipplePoint)
    (garbage : Nat → Int)
    (h : ∀ p ∈ pixel_list image, weighted_distance sqrtf image ⟨p.1, p.2⟩ s < FLT_MAX) :
    voronoi_cells sqrtf image [s] garbage =
      some [normalize_cell (cell_plus image
        { pixelCount := garbage 0, sumDensity := 0, centroid := ⟨0, 0⟩ }
        (pixel_list image))] := by
  have hrange : ∀ p ∈ pixel_list image,
      0 ≤ closest_stipple sqrtf image [s] p.1 p.2 ∧
        closest_stipple sqrtf image [s] p.1 p.2 < ([s] : StippleList).length := by
    intro p hp
    rw [closest_single sqrtf image s p.1 p.2 (h p hp)]
    simp
  obtain ⟨cells, hfp, hlen, hget⟩ := first_pass_some sqrtf image [s] garbage hrange
  have h0 := hget 0 (by simp)
  rw [Nat.cast_zero, assigned_single sqrtf image s h] at h0
  have hcells : cells = [cell_plus image
      { pixelCount := garbage 0, sumDensity := 0, centroid := ⟨0, 0⟩ } (pixel_list image)] := by
    match cells, hlen, h0 with
    | [c], _, h0 => simpa using h0
  rw [voronoi_cells, hfp, hcells]
  rfl

theorem stats_const (image : FloatImage) (c : ℚ) (hc : ∀ i, image.data i = c)
    (A : List (Int × Int)) :
    mass image A = c * A.length ∧
    moment_x image A = c * (((A.map fun p => p.1).sum : Int) : ℚ) ∧
    moment_y image A = c * (((A.map fun p => p.2).sum : Int) : ℚ) := by
  induction A with
  | nil => simp [mass, moment_x, moment_y]
  | cons p A ih =>
    obtain ⟨h1, h2, h3⟩ := ih
    rw [mass_cons, moment_x_cons, moment_y_cons, h1, h2, h3]
    simp only [density, hc, List.map_cons, List.sum_cons, List.length_cons]
    push_cast
    exact ⟨by ring, by ring, by ring⟩

/-- For pixels inside the image with non-negative densities the moments lie
between 0 and `(width - 1) * mass`, `(height - 1) * mass`. -/
theorem moment_bounds (image : FloatImage) (A : List (Int × Int))
    (hA : ∀ p ∈ A, (0 ≤ p.1 ∧ p.1 < image.width) ∧ (0 ≤ p.2 ∧ p.2 < image.height))
    (hd : ∀ p ∈ A, 0 ≤ density image p) :
    0 ≤ mass image A ∧
    (0 ≤ moment_x image A ∧ moment_x image A ≤ ((image.width : ℚ) - 1) * mass image A) ∧
    (0 ≤ moment_y image A ∧ moment_y image A ≤ ((image.height : ℚ) - 1) * mass image A) := by
  induction A with
  | nil => simp [mass, moment_x, moment_y]
  | cons p A ih =>
    obtain ⟨hm, ⟨hx0, hx1⟩, hy0, hy1⟩ := ih
      (fun q hq => hA q (List.mem_cons_of_mem _ hq))
      (fun q hq => hd q (List.mem_cons_of_mem _ hq))
    obtain ⟨⟨px0, px1⟩, py0, py1⟩ := hA p (List.mem_cons_self _ _)
    have hdp := hd p (List.mem_cons_self _ _)
    have px0q : (0 : ℚ) ≤ (p.1 : ℚ) := by exact_mod_cast px0
    have py0q : (0 : ℚ) ≤ (p.2 : ℚ) := by exact_mod_cast py0
    have px1q : (p.1 : ℚ) ≤ (image.width : ℚ) - 1 := by
      have : p.1 ≤ image.width - 1 := by omega
      exact_mod_cast this
    have py1q : (p.2 : ℚ) ≤ (image.height : ℚ) - 1 := by
      have : p.2 ≤ image.height - 1 := by omega
      exact_mod_cast this
    rw [mass_cons, moment_x_cons, moment_y_cons]
    refine ⟨by positivity, ⟨by positivity, ?_⟩, by positivity, ?_⟩
    · have := mul_le_mul_of_nonneg_right px1q hdp
      linarith
    · have := mul_le_mul_of_nonneg_right py1q hdp
      linarith

/-! ## The diagram: the edge passes leave the cells alone -/

theorem foldlM_isSome {α σ : Type} (f : σ → α → Option σ)
    (hf : ∀ s a, (f s a).isSome) (l : List α) : ∀ s, (l.foldlM f s).isSome := by
  induction l with
  | nil => intro s; rfl
  | cons a l ih =>
    intro s
    rw [List.foldlM_cons]
    cases h : f s a with
    | none => have := hf s a; rw [h] at this; cases this
    | some s1 => exact ih s1

theorem trace_edge_path_isSome (edge_map : Int → Int → Bool) (x y width height : Int)
    (paths : List VoronoiEdge) (max_paths max_path_length : Int)
    (h : 1 ≤ max_path_length) :
    (trace_edge_path edge_map x y width height paths max_paths max_path_length).isSome := by
  unfold trace_edge_path
  split
  · rfl
  · rw [if_neg (not_lt.2 h)]
    simp only
    split <;> rfl

theorem trace_all_isSome (width height : Int) (edge_map : Int → Int → Bool) :
    (trace_all width height edge_map).isSome := by
  unfold trace_all
  apply foldlM_isSome
  intro st y
  apply foldlM_isSome
  intro st x
  split
  · have := trace_edge_path_isSome st.1 x y width height st.2 100000 100000 (by norm_num)
    simpa using this
  · rfl

/-- The diagram's `cells` are those of the partition pass: the edge passes
always complete and do not touch them. -/
theorem compute_cells_eq (sqrtf : ℚ → ℚ) (image : FloatImage) (stipples : StippleList)
    (garbage : Nat → Int) :
    (compute_voronoi_with_edges sqrtf image stipples garbage).map VoronoiDiagram.cells =
      voronoi_cells sqrtf image stipples garbage := by
  unfold compute_voronoi_with_edges
  cases hc : voronoi_cells sqrtf image stipples garbage with
  | none => rfl
  | some cells =>
    have hs := trace_all_isSome image.width image.height (mark_edges sqrtf image stipples).1
    cases ht : trace_all image.width image.height (mark_edges sqrtf image stipples).1 with
    | none => rw [ht] at hs; cases hs
    | some r => rfl

theorem compute_of_cells (sqrtf : ℚ → ℚ) (image : FloatImage) (stipples : StippleList)
    (garbage : Nat → Int) (cells : List VoronoiCell)
    (h : voronoi_cells sqrtf image stipples garbage = some cells) :
    ∃ vd, compute_voronoi_with_edges sqrtf image stipples garbage = some vd ∧
      vd.cells = cells := by
  have := compute_cells_eq sqrtf image stipples garbage
  rw [h] at this
  cases hc : compute_voronoi_with_edges sqrtf image stipples garbage with
  | none => rw [hc] at this; cases this
  | some vd =>
    rw [hc] at this
    exact ⟨vd, rfl, by simpa using this⟩

theorem cells_of_compute (sqrtf : ℚ → ℚ) (image : FloatImage) (stipples : StippleList)
    (garbage : Nat → Int) (vd : VoronoiDiagram)
    (h : compute_voronoi_with_edges sqrtf image stipples garbage = some vd) :
    voronoi_cells sqrtf image stipples garbage = some vd.cells := by
  have := compute_cells_eq sqrtf image stipples garbage
  rw [h] at this
  exact this.symm

theorem compute_none_of_cells (sqrtf : ℚ → ℚ) (image : FloatImage) (stipples : StippleList)
    (garbage : Nat → Int) (h : voronoi_cells sqrtf image stipples garbage = none) :
    compute_voronoi_with_edges sqrtf image stipples garbage = none := by
  have := compute_cells_eq sqrtf image stipples garbage
  rw [h] at this
  simpa using this

/-! ## Path tracing -/

theorem foldl_invariant {α β : Type} (P : β → Prop) (f : β → α → β) (l : List α) :
    ∀ b : β, P b → (∀ b a, a ∈ l → P b → P (f b a)) → P (l.foldl f b) := by
  induction l with
  | nil => intro b hb _; exact hb
  | cons a l ih =>
    intro b hb hstep
    rw [List.foldl_cons]
    exact ih (f b a) (hstep b a (List.mem_cons_self _ _) hb)
      (fun b1 a1 ha1 hb1 => hstep b1 a1 (List.mem_cons_of_mem _ ha1) hb1)

/-- The direction found by the scan is -1 or the index of a neighbour that is
inside the mask and still set. -/
theorem best_dir_scan_spec (width height : Int) (s : TraceState) :
    (best_dir_scan width height s).2 = -1 ∨
    ∃ d : Nat, d < 8 ∧ (best_dir_scan width height s).2 = d ∧
      (0 ≤ s.current_x + dx.getD d 0 ∧ s.current_x + dx.getD d 0 < width) ∧
      (0 ≤ s.current_y + dy.getD d 0 ∧ s.current_y + dy.getD d 0 < height) ∧
      s.edge_map (s.current_y + dy.getD d 0) (s.current_x + dx.getD d 0) = true := by
  unfold best_dir_scan
  apply foldl_invariant
    (fun best : Int × Int => best.2 = -1 ∨
      ∃ d : Nat, d < 8 ∧ best.2 = d ∧
        (0 ≤ s.current_x + dx.getD d 0 ∧ s.current_x + dx.getD d 0 < width) ∧
        (0 ≤ s.current_y + dy.getD d 0 ∧ s.current_y + dy.getD d 0 < height) ∧
        s.edge_map (s.current_y + dy.getD d 0) (s.current_x + dx.getD d 0) = true)
  · left; rfl
  · intro best d hd hbest
    have hd8 : d < 8 := List.mem_range.1 hd
    simp only
    split
    · exact hbest
    · rename_i hin
      split
      · exact hbest
      · rename_i hmask
        have key : ∀ score : Int,
            (if score > best.1 then (score, (d : Int)) else best).2 = -1 ∨
            ∃ e : Nat, e < 8 ∧ (if score > best.1 then (score, (d : Int)) else best).2 = e ∧
              (0 ≤ s.current_x + dx.getD e 0 ∧ s.current_x + dx.getD e 0 < width) ∧
              (0 ≤ s.current_y + dy.getD e 0 ∧ s.current_y + dy.getD e 0 < height) ∧
              s.edge_map (s.current_y + dy.getD e 0) (s.current_x + dx.getD e 0) = true := by
          intro score
          split
          · right
            refine ⟨d, hd8, rfl, ?_, ?_, ?_⟩
            · constructor <;> omega
            · constructor <;> omega
            · simpa using hmask
          · exact hbest
        exact key _

theorem dir_step (d : Nat) (hd : d < 8) :
    (dx.getD d 0 = -1 ∨ dx.getD d 0 = 0 ∨ dx.getD d 0 = 1) ∧
    (dy.getD d 0 = -1 ∨ dy.getD d 0 = 0 ∨ dy.getD d 0 = 1) ∧
    ¬ (dx.getD d 0 = 0 ∧ dy.getD d 0 = 0) := by
  interval_cases d <;> simp [dx, dy]

theorem neighbour8_step (cx cy : Int) (d : Nat) (hd : d < 8) :
    neighbour8 ⟨cx, cy⟩ ⟨((cx + dx.getD d 0 : Int) : ℚ), ((cy + dy.getD d 0 : Int) : ℚ)⟩ := by
  obtain ⟨hx, hy, hne⟩ := dir_step d hd
  refine ⟨?_, ?_, ?_⟩
  · simp only
    push_cast
    rw [abs_le]
    rcases hx with h | h | h <;> rw [h] <;> constructor <;> norm_num
  · simp only
    push_cast
    rw [abs_le]
    rcases hy with h | h | h <;> rw [h] <;> constructor <;> norm_num
  · intro heq
    injection heq with h1 h2
    have h1' : cx = cx + dx.getD d 0 := by exact_mod_cast h1
    have h2' : cy = cy + dy.getD d 0 := by exact_mod_cast h2
    exact hne ⟨by omega, by omega⟩

theorem trace_step_inv (width height : Int) (s : TraceState) (d : Nat) (hd : d < 8)
    (hx : 0 ≤ s.current_x + dx.getD d 0 ∧ s.current_x + dx.getD d 0 < width)
    (hy : 0 ≤ s.current_y + dy.getD d 0 ∧ s.current_y + dy.getD d 0 < height)
    (h : trace_inv width height s) :
    trace_inv width height (trace_step s (d : Int)) := by
  obtain ⟨hlast, hlen, hchain, hin⟩ := h
  unfold trace_step trace_inv
  simp only [Int.toNat_natCast]
  refine ⟨?_, ?_, ?_, ?_⟩
  · simp
  · rw [List.length_append, List.length_singleton]
    push_cast
    rw [hlen]
  · rw [List.chain'_append]
    refine ⟨hchain, List.chain'_singleton _, ?_⟩
    intro p hp q hq
    rw [hlast] at hp
    simp only [Option.mem_def, Option.some.injEq] at hp
    simp only [List.head?_cons, Option.mem_def, Option.some.injEq] at hq
    subst hp
    subst hq
    exact neighbour8_step s.current_x s.current_y d hd
  · intro p hp
    rcases List.mem_append.1 hp with hp | hp
    · exact hin p hp
    · rw [List.mem_singleton] at hp
      exact ⟨_, _, hp, hx, hy⟩

/-- The `while` loop maintains `trace_inv`. -/
theorem trace_loop_inv (width height max_path_length : Int) (fuel : Nat) :
    ∀ s : TraceState, trace_inv width height s →
      trace_inv width height (trace_loop width height max_path_length fuel s) := by
  induction fuel with
  | zero => intro s h; exact h
  | succ n ih =>
    intro s h
    rw [trace_loop]
    split
    · simp only
      split
      · exact h
      · rename_i hne
        rcases best_dir_scan_spec width height s with hm | ⟨d, hd, heq, hx, hy, _⟩
        · exact absurd hm hne
        · rw [heq]
          exact ih _ (trace_step_inv width height s d hd hx hy h)
    · exact h

theorem trace_step_length (s : TraceState) (best_dir : Int) :
    (trace_step s best_dir).length = s.length + 1 := rfl

/-- The bound passed to `trace_loop` is never what stops it: started with at
least `max_path_length - length` iterations allowed, the loop ends because
`length < max_path_length` fails or because no direction was found. -/
theorem trace_loop_exit (width height max_path_length : Int) (fuel : Nat) :
    ∀ s : TraceState, (max_path_length - s.length).toNat ≤ fuel →
      ¬ (trace_loop width height max_path_length fuel s).length < max_path_length ∨
      (best_dir_scan width height
        (trace_loop width height max_path_length fuel s)).2 = -1 := by
  induction fuel with
  | zero =>
    intro s h
    left
    rw [trace_loop]
    omega
  | succ n ih =>
    intro s h
    rw [trace_loop]
    split
    · simp only
      split
      · rename_i hm
        right
        exact hm
      · apply ih
        rw [trace_step_length]
        omega
    · rename_i hlen
      left
      exact hlen

/-! ## LBG policy and loop -/

theorem counts_cons_dropped (Tl Tu : ℚ) (vc : VoronoiCell) (rest : List VoronoiCell)
    (hd : vc.sumDensity < Tl) :
    n_dropped Tl (vc :: rest) = n_dropped Tl rest + 1 ∧
    n_split Tl Tu (vc :: rest) = n_split Tl Tu rest ∧
    n_kept Tl Tu (vc :: rest) = n_kept Tl Tu rest := by
  unfold n_dropped n_split n_kept
  rw [List.filter_cons_of_pos (by simpa using hd),
    List.filter_cons_of_neg (by simp [hd]), List.filter_cons_of_neg (by simp [hd])]
  simp

theorem counts_cons_split (Tl Tu : ℚ) (vc : VoronoiCell) (rest : List VoronoiCell)
    (hd : ¬ vc.sumDensity < Tl) (hs : vc.sumDensity > Tu) :
    n_dropped Tl (vc :: rest) = n_dropped Tl rest ∧
    n_split Tl Tu (vc :: rest) = n_split Tl Tu rest + 1 ∧
    n_kept Tl Tu (vc :: rest) = n_kept Tl Tu rest := by
  unfold n_dropped n_split n_kept
  rw [List.filter_cons_of_neg (by simpa using hd),
    List.filter_cons_of_pos (by simp [hd, hs]), List.filter_cons_of_neg (by simp [hd, hs])]
  simp

theorem counts_cons_kept (Tl Tu : ℚ) (vc : VoronoiCell) (rest : List VoronoiCell)
    (hd : ¬ vc.sumDensity < Tl) (hs : ¬ vc.sumDensity > Tu) :
    n_dropped Tl (vc :: rest) = n_dropped Tl rest ∧
    n_split Tl Tu (vc :: rest) = n_split Tl Tu rest ∧
    n_kept Tl Tu (vc :: rest) = n_kept Tl Tu rest + 1 := by
  unfold n_dropped n_split n_kept
  rw [List.filter_cons_of_neg (by simpa using hd),
    List.filter_cons_of_neg (by simp [hd, hs]), List.filter_cons_of_pos (by simp [hd, hs])]
  simp

theorem LBG_policy_dropped (Tl Tu : ℚ) (vc : VoronoiCell) (rest : List VoronoiCell)
    (acc : StippleList) (ch : Int) (hd : vc.sumDensity < Tl) :
    LBG_policy Tl Tu (vc :: rest) (acc, ch) = LBG_policy Tl Tu rest (acc, ch + 1) := by
  simp [LBG_policy, hd]

theorem LBG_policy_split (Tl Tu : ℚ) (vc : VoronoiCell) (rest : List VoronoiCell)
    (acc : StippleList) (ch : Int) (hd : ¬ vc.sumDensity < Tl) (hs : vc.sumDensity > Tu) :
    LBG_policy Tl Tu (vc :: rest) (acc, ch) =
      LBG_policy Tl Tu rest (acc ++ splitCell vc, ch + 1) := by
  simp [LBG_policy, hd, hs, splitCell, getSplitCount, addToStippleList]

theorem LBG_policy_kept (Tl Tu : ℚ) (vc : VoronoiCell) (rest : List VoronoiCell)
    (acc : StippleList) (ch : Int) (hd : ¬ vc.sumDensity < Tl) (hs : ¬ vc.sumDensity > Tu) :
    LBG_policy Tl Tu (vc :: rest) (acc, ch) =
      LBG_policy Tl Tu rest (acc ++ [vc.centroid], ch) := by
  simp [LBG_policy, hd, hs, addToStippleList]

/-- The policy loop adds one stipple per kept cell and two per split cell, and
counts one change per dropped or split cell. -/
theorem LBG_policy_counts (Tl Tu : ℚ) (cells : List VoronoiCell) :
    ∀ (acc : StippleList) (ch : Int),
      (LBG_policy Tl Tu cells (acc, ch)).1.length =
        acc.length + n_kept Tl Tu cells + 2 * n_split Tl Tu cells ∧
      (LBG_policy Tl Tu cells (acc, ch)).2 =
        ch + n_dropped Tl cells + n_split Tl Tu cells := by
  induction cells with
  | nil => intro acc ch; simp [LBG_policy, n_kept, n_split, n_dropped]
  | cons vc rest ih =>
    intro acc ch
    by_cases hd : vc.sumDensity < Tl
    · obtain ⟨c1, c2, c3⟩ := counts_cons_dropped Tl Tu vc rest hd
      obtain ⟨h1, h2⟩ := ih acc (ch + 1)
      rw [LBG_policy_dropped Tl Tu vc rest acc ch hd, h1, h2, c1, c2, c3]
      push_cast
      exact ⟨rfl, by ring⟩
    · by_cases hs : vc.sumDensity > Tu
      · obtain ⟨c1, c2, c3⟩ := counts_cons_split Tl Tu vc rest hd hs
        obtain ⟨h1, h2⟩ := ih (acc ++ splitCell vc) (ch + 1)
        rw [LBG_policy_split Tl Tu vc rest acc ch hd hs, h1, h2, c1, c2, c3]
        push_cast
        refine ⟨?_, by ring⟩
        simp [splitCell]
        ring
      · obtain ⟨c1, c2, c3⟩ := counts_cons_kept Tl Tu vc rest hd hs
        obtain ⟨h1, h2⟩ := ih (acc ++ [vc.centroid]) ch
        rw [LBG_policy_kept Tl Tu vc rest acc ch hd hs, h1, h2, c1, c2, c3]
        refine ⟨?_, rfl⟩
        simp
        ring

theorem counts_total (Tl Tu : ℚ) (cells : List VoronoiCell) :
    cells.length = n_dropped Tl cells + n_split Tl Tu cells + n_kept Tl Tu cells := by
  induction cells with
  | nil => simp [n_kept, n_split, n_dropped]
  | cons vc rest ih =>
    by_cases hd : vc.sumDensity < Tl
    · obtain ⟨c1, c2, c3⟩ := counts_cons_dropped Tl Tu vc rest hd
      rw [c1, c2, c3, List.length_cons, ih]; ring
    · by_cases hs : vc.sumDensity > Tu
      · obtain ⟨c1, c2, c3⟩ := counts_cons_split Tl Tu vc rest hd hs
        rw [c1, c2, c3, List.length_cons, ih]; ring
      · obtain ⟨c1, c2, c3⟩ := counts_cons_kept Tl Tu vc rest hd hs
        rw [c1, c2, c3, List.length_cons, ih]; ring

theorem LBG_policy_all_dropped (Tl Tu : ℚ) (cells : List VoronoiCell)
    (h : ∀ c ∈ cells, c.sumDensity < Tl) :
    ∀ (acc : StippleList) (ch : Int),
      LBG_policy Tl Tu cells (acc, ch) = (acc, ch + cells.length) := by
  induction cells with
  | nil => intro acc ch; simp [LBG_policy]
  | cons vc rest ih =>
    intro acc ch
    rw [LBG_policy_dropped Tl Tu vc rest acc ch (h vc (List.mem_cons_self _ _)),
      ih (fun c hc => h c (List.mem_cons_of_mem _ hc))]
    simp
    ring

theorem LBG_policy_all_kept (Tl Tu : ℚ) (cells : List VoronoiCell)
    (h : ∀ c ∈ cells, Tl ≤ c.sumDensity ∧ c.sumDensity ≤ Tu) :
    ∀ (acc : StippleList) (ch : Int),
      LBG_policy Tl Tu cells (acc, ch) = (acc ++ cells.map VoronoiCell.centroid, ch) := by
  induction cells with
  | nil => intro acc ch; simp [LBG_policy]
  | cons vc rest ih =>
    intro acc ch
    obtain ⟨h1, h2⟩ := h vc (List.mem_cons_self _ _)
    rw [LBG_policy_kept Tl Tu vc rest acc ch (not_lt.2 h1) (not_lt.2 h2),
      ih (fun c hc => h c (List.mem_cons_of_mem _ hc))]
    simp

/-- No change in the policy loop means that every cell was kept. -/
theorem LBG_policy_unchanged (Tl Tu : ℚ) (cells : List VoronoiCell) (acc : StippleList)
    (ch : Int) (h : (LBG_policy Tl Tu cells (acc, ch)).2 = ch) :
    ∀ c ∈ cells, Tl ≤ c.sumDensity ∧ c.sumDensity ≤ Tu := by
  have hc := (LBG_policy_counts Tl Tu cells acc ch).2
  rw [h] at hc
  have hd0 : n_dropped Tl cells = 0 := by omega
  have hs0 : n_split Tl Tu cells = 0 := by omega
  intro c hcm
  unfold n_dropped at hd0
  unfold n_split at hs0
  rw [List.length_eq_zero, List.filter_eq_nil_iff] at hd0 hs0
  have h1 := hd0 c hcm
  have h2 := hs0 c hcm
  simp only [decide_eq_true_eq] at h1 h2
  constructor
  · exact not_lt.1 h1
  · by_contra hgt
    exact h2 ⟨h1, not_le.1 hgt⟩

/-- One iteration is the policy loop run on the cells of the partition pass. -/
theorem LBG_iteration_eq (sqrtf : ℚ → ℚ) (Tl Tu : ℚ) (img : FloatImage)
    (stippleList : StippleList) (garbage : Nat → Int) :
    LBG_iteration sqrtf Tl Tu img stippleList garbage =
      (voronoi_cells sqrtf img stippleList garbage).map
        fun cells => LBG_policy Tl Tu cells ([], 0) := by
  unfold LBG_iteration
  cases hc : compute_voronoi_with_edges sqrtf img stippleList garbage with
  | none =>
    have := compute_cells_eq sqrtf img stippleList garbage
    rw [hc] at this
    rw [← this]
    rfl
  | some vd =>
    rw [cells_of_compute sqrtf img stippleList garbage vd hc]
    rfl

theorem LBG_loop_iter_lt (sqrtf : ℚ → ℚ) (Tl Tu : ℚ) (img : FloatImage)
    (garbage : Nat → Nat → Int) (fuel : Nat) :
    ∀ (l : StippleList) (iter : Nat) (r : StippleList × Nat),
      LBG_loop sqrtf Tl Tu img garbage fuel l iter = some r → iter < r.2 := by
  induction fuel with
  | zero => intro l iter r h; simp [LBG_loop] at h
  | succ n ih =>
    intro l iter r h
    rw [LBG_loop] at h
    cases hit : LBG_iteration sqrtf Tl Tu img l (garbage iter) with
    | none => rw [hit] at h; cases h
    | some res =>
      obtain ⟨new, changed⟩ := res
      rw [hit] at h
      simp only at h
      split at h
      · have := ih new (iter + 1) r h
        omega
      · cases h
        simp

theorem LBG_loop_stop (sqrtf : ℚ → ℚ) (Tl Tu : ℚ) (img : FloatImage)
    (garbage : Nat → Nat → Int) (fuel : Nat) (l new : StippleList) (iter : Nat)
    (h : LBG_iteration sqrtf Tl Tu img l (garbage iter) = some (new, 0)) :
    LBG_loop sqrtf Tl Tu img garbage (fuel + 1) l iter = some (new, iter + 1) := by
  rw [LBG_loop, h]
  simp

theorem LBG_loop_continue (sqrtf : ℚ → ℚ) (Tl Tu : ℚ) (img : FloatImage)
    (garbage : Nat → Nat → Int) (fuel : Nat) (l new : StippleList) (iter : Nat) (changed : Int)
    (h : LBG_iteration sqrtf Tl Tu img l (garbage iter) = some (new, changed))
    (hch : changed > 0) :
    LBG_loop sqrtf Tl Tu img garbage (fuel + 1) l iter =
      LBG_loop sqrtf Tl Tu img garbage fuel new (iter + 1) := by
  rw [LBG_loop, h]
  simp [hch]

theorem LBG_loop_not_after_one (sqrtf : ℚ → ℚ) (Tl Tu : ℚ) (img : FloatImage)
    (garbage : Nat → Nat → Int) (l new : StippleList) (changed : Int)
    (h : LBG_iteration sqrtf Tl Tu img l (garbage 0) = some (new, changed))
    (hch : changed > 0) :
    ∀ (fuel : Nat) (S : StippleList),
      LBG_loop sqrtf Tl Tu img garbage fuel l 0 ≠ some (S, 1) := by
  intro fuel S hS
  cases fuel with
  | zero => simp [LBG_loop] at hS
  | succ n =>
    rw [LBG_loop_continue sqrtf Tl Tu img garbage n l new 0 changed h hch] at hS
    have := LBG_loop_iter_lt sqrtf Tl Tu img garbage n new 1 (S, 1) hS
    simp at this

/-! ## The code on the explicit inputs -/

theorem range_one : List.range 1 = [0] := by decide

theorem range_two : List.range 2 = [0, 1] := by decide

theorem range_four : List.range 4 = [0, 1, 2, 3] := by decide

/-- The scan on the 2x2 example, for any `sqrtf` with the three values used. -/
theorem closest_2x2 (sqrtf : ℚ → ℚ) (h0 : sqrtf 0 = 0) (h1 : sqrtf 1 = 1)
    (h2 : 1 < sqrtf 2) :
    closest_stipple sqrtf image_2x2 stipples_2x2 0 0 = 0 ∧
    closest_stipple sqrtf image_2x2 stipples_2x2 1 0 = 0 ∧
    closest_stipple sqrtf image_2x2 stipples_2x2 0 1 = 1 ∧
    closest_stipple sqrtf image_2x2 stipples_2x2 1 1 = 1 := by
  have hF := FLT_MAX_pos
  have hF1 := one_lt_FLT_MAX
  refine ⟨?_, ?_, ?_, ?_⟩
  · simp only [closest_stipple, stipples_2x2, closest_scan, weighted_distance_pixel,
      euclidean_distance, image_2x2]
    norm_num [h0, h1, hF]
  · simp only [closest_stipple, stipples_2x2, closest_scan, weighted_distance_pixel,
      euclidean_distance, image_2x2]
    norm_num [h0, h1, hF]
  · simp only [closest_stipple, stipples_2x2, closest_scan, weighted_distance_pixel,
      euclidean_distance, image_2x2]
    norm_num [h0, h1, hF, hF1]
  · simp only [closest_stipple, stipples_2x2, closest_scan, weighted_distance_pixel,
      euclidean_distance, image_2x2]
    norm_num [h0, h1, hF, hF1]
    simp [h2]

theorem cells_2x2 (sqrtf : ℚ → ℚ) (h0 : sqrtf 0 = 0) (h1 : sqrtf 1 = 1)
    (h2 : 1 < sqrtf 2) (garbage : Nat → Int) :
    voronoi_cells sqrtf image_2x2 stipples_2x2 garbage =
      some [⟨garbage 0 + 2, 0, ⟨0, 0⟩⟩, ⟨garbage 1 + 2, 2, ⟨1 / 2, 1⟩⟩] := by
  obtain ⟨c00, c10, c01, c11⟩ := closest_2x2 sqrtf h0 h1 h2
  have hw : image_2x2.width.toNat = 2 := rfl
  have hh : image_2x2.height.toNat = 2 := rfl
  have hl : stipples_2x2.length = 2 := rfl
  simp only [voronoi_cells, first_pass, first_pass_row, hw, hh, hl, range_two, init_cells,
    List.foldlM_cons, List.foldlM_nil, List.map_cons, List.map_nil, Nat.cast_zero,
    Nat.cast_one, c00, c10, c01, c11]
  simp [accumulate, image_2x2, normalize_cell]
  exact ⟨by omega, by omega, by norm_num⟩

theorem near_2x2 (sqrtf : ℚ → ℚ) (h0 : sqrtf 0 = 0) (h1 : sqrtf 1 = 1) :
    ∀ x y : Int, 0 ≤ x → x < image_2x2.width → 0 ≤ y → y < image_2x2.height →
      ∃ s ∈ stipples_2x2, weighted_distance sqrtf image_2x2 ⟨x, y⟩ s < FLT_MAX := by
  intro x y hx0 hx1 hy0 hy1
  have hF := FLT_MAX_pos
  have hF1 := one_lt_FLT_MAX
  have hw : image_2x2.width = 2 := rfl
  have hh : image_2x2.height = 2 := rfl
  rw [hw] at hx1
  rw [hh] at hy1
  refine ⟨⟨0, y⟩, ?_, ?_⟩
  · interval_cases y <;> simp [stipples_2x2]
  · rw [weighted_distance_pixel]
    interval_cases x <;> interval_cases y <;>
      norm_num [euclidean_distance, image_2x2, h0, h1, hF, hF1]

/-- The scan on the 2x2 example after the stipples moved to the centroids. -/
theorem closest_2x2_relaxed (sqrtf : ℚ → ℚ) (hq : sqrtf (1 / 4) = 1 / 2) (h1 : sqrtf 1 = 1)
    (h2 : 1 < sqrtf 2) :
    closest_stipple sqrtf image_2x2 [⟨0, 0⟩, ⟨1 / 2, 1⟩] 0 0 = 0 ∧
    closest_stipple sqrtf image_2x2 [⟨0, 0⟩, ⟨1 / 2, 1⟩] 1 0 = 0 ∧
    closest_stipple sqrtf image_2x2 [⟨0, 0⟩, ⟨1 / 2, 1⟩] 0 1 = 1 ∧
    closest_stipple sqrtf image_2x2 [⟨0, 0⟩, ⟨1 / 2, 1⟩] 1 1 = 1 := by
  have hF := FLT_MAX_pos
  have hF1 := one_lt_FLT_MAX
  refine ⟨?_, ?_, ?_, ?_⟩
  · simp only [closest_stipple, closest_scan, weighted_distance_pixel,
      euclidean_distance, image_2x2]
    norm_num [hF]
  · simp only [closest_stipple, closest_scan, weighted_distance_pixel,
      euclidean_distance, image_2x2]
    norm_num [hF]
  · simp only [closest_stipple, closest_scan, weighted_distance_pixel,
      euclidean_distance, image_2x2]
    norm_num [h1, hq, hF1]
  · simp only [closest_stipple, closest_scan, weighted_distance_pixel,
      euclidean_distance, image_2x2]
    norm_num [h1, hq, hF1]
    have hlt : (1 / 2 : ℚ) < sqrtf 2 := by linarith
    have hlt2 : (1 / 2 : ℚ) < FLT_MAX := by linarith
    split_ifs <;> simp_all

theorem same_closest_2x2 (sqrtf : ℚ → ℚ) (h0 : sqrtf 0 = 0) (hq : sqrtf (1 / 4) = 1 / 2)
    (h1 : sqrtf 1 = 1) (h2 : 1 < sqrtf 2) :
    ∀ x y : Int, 0 ≤ x → x < image_2x2.width → 0 ≤ y → y < image_2x2.height →
      closest_stipple sqrtf image_2x2 [⟨0, 0⟩, ⟨1 / 2, 1⟩] x y =
        closest_stipple sqrtf image_2x2 stipples_2x2 x y := by
  intro x y hx0 hx1 hy0 hy1
  obtain ⟨a0, a1, a2, a3⟩ := closest_2x2 sqrtf h0 h1 h2
  obtain ⟨b0, b1, b2, b3⟩ := closest_2x2_relaxed sqrtf hq h1 h2
  have hw : image_2x2.width = 2 := rfl
  have hh : image_2x2.height = 2 := rfl
  rw [hw] at hx1
  rw [hh] at hy1
  interval_cases x <;> interval_cases y
  · rw [a0, b0]
  · rw [a2, b2]
  · rw [a1, b1]
  · rw [a3, b3]

/-- The scan on a black pixel with one stipple at distance `FLT_MAX`. -/
theorem closest_far (sqrtf : ℚ → ℚ) (h : sqrtf (FLT_MAX * FLT_MAX) = FLT_MAX) :
    closest_stipple sqrtf image_1x1 stipples_far 0 0 = -1 := by
  apply closest_none_near
  intro s hs
  rw [stipples_far, List.mem_singleton] at hs
  subst hs
  rw [weighted_distance_pixel]
  have harg : (((0 : Int) : ℚ) - FLT_MAX) * (((0 : Int) : ℚ) - FLT_MAX) +
      (((0 : Int) : ℚ) - 0) * (((0 : Int) : ℚ) - 0) = FLT_MAX * FLT_MAX := by
    push_cast; ring
  simp only [euclidean_distance, harg, h, image_1x1, mul_one, le_refl]

theorem voronoi_cells_far (sqrtf : ℚ → ℚ) (h : sqrtf (FLT_MAX * FLT_MAX) = FLT_MAX)
    (garbage : Nat → Int) :
    voronoi_cells sqrtf image_1x1 stipples_far garbage = none := by
  have hbad := first_pass_none sqrtf image_1x1 stipples_far garbage
    ⟨(0, 0), by rw [mem_pixel_list]; simp [image_1x1], by
      rw [closest_far sqrtf h]; omega⟩
  simp [voronoi_cells, hbad]

theorem pixel_list_1x1 : pixel_list image_1x1 = [(0, 0)] := by decide

theorem near_1x1_origin (sqrtf : ℚ → ℚ) (h0 : sqrtf 0 = 0) :
    ∀ p ∈ pixel_list image_1x1,
      weighted_distance sqrtf image_1x1 ⟨p.1, p.2⟩ ⟨0, 0⟩ < FLT_MAX := by
  intro p hp
  have hF := FLT_MAX_pos
  rw [pixel_list_1x1, List.mem_singleton] at hp
  subst hp
  rw [weighted_distance_pixel]
  norm_num [euclidean_distance, image_1x1, h0, hF]

theorem cells_1x1 (sqrtf : ℚ → ℚ) (h0 : sqrtf 0 = 0) (garbage : Nat → Int) :
    voronoi_cells sqrtf image_1x1 [⟨0, 0⟩] garbage = some [⟨garbage 0 + 1, 1, ⟨0, 0⟩⟩] := by
  have hF := FLT_MAX_pos
  rw [cells_single sqrtf image_1x1 ⟨0, 0⟩ garbage (by
    intro p hp
    rw [pixel_list_1x1, List.mem_singleton] at hp
    subst hp
    rw [weighted_distance_pixel]
    norm_num [euclidean_distance, image_1x1, h0, hF])]
  rw [pixel_list_1x1]
  simp [normalize_cell, cell_plus, mass, moment_x, moment_y, density, image_1x1]

set_option maxRecDepth 8000 in
theorem pixels_10x10 :
    (pixel_list image_10x10).length = 100 ∧
    ((pixel_list image_10x10).map fun p => p.1).sum = 450 ∧
    ((pixel_list image_10x10).map fun p => p.2).sum = 450 := by
  decide

theorem stats_10x10 :
    mass image_10x10 (pixel_list image_10x10) = 50 ∧
    moment_x image_10x10 (pixel_list image_10x10) = 225 ∧
    moment_y image_10x10 (pixel_list image_10x10) = 225 := by
  obtain ⟨h1, h2, h3⟩ := stats_const image_10x10 (1 / 2) (fun _ => rfl) (pixel_list image_10x10)
  obtain ⟨g1, g2, g3⟩ := pixels_10x10
  rw [h1, h2, h3, g1, g2, g3]
  norm_num

theorem near_10x10_origin (sqrtf : ℚ → ℚ) (hle : ∀ q : ℚ, 0 ≤ q → sqrtf q ≤ q * 2 ^ 24) :
    ∀ p ∈ pixel_list image_10x10,
      weighted_distance sqrtf image_10x10 ⟨p.1, p.2⟩ ⟨0, 0⟩ < FLT_MAX := by
  intro p hp
  rw [mem_pixel_list] at hp
  obtain ⟨⟨hx0, hx1⟩, hy0, hy1⟩ := hp
  have hw : image_10x10.width = 10 := rfl
  have hh : image_10x10.height = 10 := rfl
  rw [hw] at hx1
  rw [hh] at hy1
  rw [weighted_distance_pixel]
  simp only [euclidean_distance, image_10x10, sub_zero]
  have hx0q : (0 : ℚ) ≤ (p.1 : ℚ) := by exact_mod_cast hx0
  have hy0q : (0 : ℚ) ≤ (p.2 : ℚ) := by exact_mod_cast hy0
  have hx1q : (p.1 : ℚ) ≤ 9 := by exact_mod_cast (by omega : p.1 ≤ 9)
  have hy1q : (p.2 : ℚ) ≤ 9 := by exact_mod_cast (by omega : p.2 ≤ 9)
  have hq0 : (0 : ℚ) ≤ (p.1 : ℚ) * p.1 + (p.2 : ℚ) * p.2 := by positivity
  have hq1 : (p.1 : ℚ) * p.1 + (p.2 : ℚ) * p.2 ≤ 162 := by nlinarith
  have := hle _ hq0
  rw [FLT_MAX]
  linarith

theorem cells_10x10_origin (sqrtf : ℚ → ℚ) (hle : ∀ q : ℚ, 0 ≤ q → sqrtf q ≤ q * 2 ^ 24)
    (garbage : Nat → Int) :
    voronoi_cells sqrtf image_10x10 [⟨0, 0⟩] garbage =
      some [⟨garbage 0 + 100, 50, ⟨9 / 2, 9 / 2⟩⟩] := by
  rw [cells_single sqrtf image_10x10 ⟨0, 0⟩ garbage (near_10x10_origin sqrtf hle)]
  obtain ⟨h1, h2, h3⟩ := stats_10x10
  obtain ⟨g1, _, _⟩ := pixels_10x10
  simp only [normalize_cell, cell_plus, h1, h2, h3, g1]
  norm_num

/-- The uniform 10x10 image with one stipple anywhere in the range of `float`:
the cell has mass 50 and centroid `(4.5, 4.5)`, and `pixelCount` is 100 more than
the content the block came with. -/
theorem cells_10x10_any_site (sqrtf : ℚ → ℚ)
    (hb : ∀ q : ℚ, 0 ≤ q → q < 4 * (FLT_MAX * FLT_MAX) → sqrtf q < 2 * FLT_MAX)
    (s : StipplePoint) (hsx : |s.x| ≤ FLT_MAX) (hsy : |s.y| ≤ FLT_MAX)
    (garbage : Nat → Int) :
    voronoi_cells sqrtf image_10x10 [s] garbage =
      some [⟨garbage 0 + 100, 50, ⟨9 / 2, 9 / 2⟩⟩] := by
  have hnear : ∀ p ∈ pixel_list image_10x10,
      weighted_distance sqrtf image_10x10 ⟨p.1, p.2⟩ s < FLT_MAX := by
    intro p hp
    rw [mem_pixel_list] at hp
    obtain ⟨⟨hx0, hx1⟩, hy0, hy1⟩ := hp
    have hw : image_10x10.width = 10 := rfl
    have hh : image_10x10.height = 10 := rfl
    rw [hw] at hx1
    rw [hh] at hy1
    rw [weighted_distance_pixel]
    simp only [euclidean_distance, image_10x10]
    have hx0q : (0 : ℚ) ≤ (p.1 : ℚ) := by exact_mod_cast hx0
    have hy0q : (0 : ℚ) ≤ (p.2 : ℚ) := by exact_mod_cast hy0
    have hx1q : (p.1 : ℚ) ≤ 9 := by exact_mod_cast (by omega : p.1 ≤ 9)
    have hy1q : (p.2 : ℚ) ≤ 9 := by exact_mod_cast (by omega : p.2 ≤ 9)
    obtain ⟨sx0, sx1⟩ := abs_le.1 hsx
    obtain ⟨sy0, sy1⟩ := abs_le.1 hsy
    have hF : (100 : ℚ) ≤ FLT_MAX := by rw [FLT_MAX]; norm_num
    have ha : |(p.1 : ℚ) - s.x| ≤ FLT_MAX + 9 := by rw [abs_le]; constructor <;> linarith
    have hc : |(p.2 : ℚ) - s.y| ≤ FLT_MAX + 9 := by rw [abs_le]; constructor <;> linarith
    have ha2 : ((p.1 : ℚ) - s.x) * ((p.1 : ℚ) - s.x) ≤ (FLT_MAX + 9) * (FLT_MAX + 9) := by
      rw [← abs_mul_abs_self ((p.1 : ℚ) - s.x)]
      exact mul_le_mul ha ha (abs_nonneg _) (by linarith)
    have hc2 : ((p.2 : ℚ) - s.y) * ((p.2 : ℚ) - s.y) ≤ (FLT_MAX + 9) * (FLT_MAX + 9) := by
      rw [← abs_mul_abs_self ((p.2 : ℚ) - s.y)]
      exact mul_le_mul hc hc (abs_nonneg _) (by linarith)
    have hq0 : (0 : ℚ) ≤ ((p.1 : ℚ) - s.x) * ((p.1 : ℚ) - s.x) +
        ((p.2 : ℚ) - s.y) * ((p.2 : ℚ) - s.y) :=
      add_nonneg (mul_self_nonneg _) (mul_self_nonneg _)
    have hq1 : ((p.1 : ℚ) - s.x) * ((p.1 : ℚ) - s.x) +
        ((p.2 : ℚ) - s.y) * ((p.2 : ℚ) - s.y) < 4 * (FLT_MAX * FLT_MAX) := by
      nlinarith
    have := hb _ hq0 hq1
    linarith
  rw [cells_single sqrtf image_10x10 s garbage hnear]
  obtain ⟨h1, h2, h3⟩ := stats_10x10
  obtain ⟨g1, _, _⟩ := pixels_10x10
  simp only [normalize_cell, cell_plus, h1, h2, h3, g1]
  norm_num

theorem closest_4x1_first (sqrtf : ℚ → ℚ) (h0 : sqrtf 0 = 0) (h1 : sqrtf 1 = 1)
    (h4 : sqrtf 4 = 2) (h9 : sqrtf 9 = 3) :
    closest_stipple sqrtf image_4x1 [⟨0, 0⟩, ⟨1, 0⟩] 0 0 = 0 ∧
    closest_stipple sqrtf image_4x1 [⟨0, 0⟩, ⟨1, 0⟩] 1 0 = 1 ∧
    closest_stipple sqrtf image_4x1 [⟨0, 0⟩, ⟨1, 0⟩] 2 0 = 1 ∧
    closest_stipple sqrtf image_4x1 [⟨0, 0⟩, ⟨1, 0⟩] 3 0 = 1 := by
  have hF := FLT_MAX_pos
  have hF1 := one_lt_FLT_MAX
  refine ⟨?_, ?_, ?_, ?_⟩ <;>
    simp only [closest_stipple, closest_scan, weighted_distance_pixel,
      euclidean_distance, image_4x1] <;>
    norm_num [h0, h1, h4, h9, hF] <;>
    rw [if_pos (by linarith)]

theorem closest_4x1_second (sqrtf : ℚ → ℚ) (h0 : sqrtf 0 = 0) (h1 : sqrtf 1 = 1)
    (h4 : sqrtf 4 = 2) (h9 : sqrtf 9 = 3) :
    closest_stipple sqrtf image_4x1 [⟨0, 0⟩, ⟨2, 0⟩] 0 0 = 0 ∧
    closest_stipple sqrtf image_4x1 [⟨0, 0⟩, ⟨2, 0⟩] 1 0 = 0 ∧
    closest_stipple sqrtf image_4x1 [⟨0, 0⟩, ⟨2, 0⟩] 2 0 = 1 ∧
    closest_stipple sqrtf image_4x1 [⟨0, 0⟩, ⟨2, 0⟩] 3 0 = 1 := by
  have hF := FLT_MAX_pos
  have hF1 := one_lt_FLT_MAX
  refine ⟨?_, ?_, ?_, ?_⟩ <;>
    simp only [closest_stipple, closest_scan, weighted_distance_pixel,
      euclidean_distance, image_4x1] <;>
    norm_num [h0, h1, h4, h9, hF] <;>
    rw [if_pos (by linarith)]

theorem cells_4x1_first (sqrtf : ℚ → ℚ) (h0 : sqrtf 0 = 0) (h1 : sqrtf 1 = 1)
    (h4 : sqrtf 4 = 2) (h9 : sqrtf 9 = 3) (garbage : Nat → Int) :
    voronoi_cells sqrtf image_4x1 [⟨0, 0⟩, ⟨1, 0⟩] garbage =
      some [⟨garbage 0 + 1, 3 / 4, ⟨0, 0⟩⟩, ⟨garbage 1 + 3, 3 / 4, ⟨2, 0⟩⟩] := by
  obtain ⟨c0, c1, c2, c3⟩ := closest_4x1_first sqrtf h0 h1 h4 h9
  have hw : image_4x1.width.toNat = 4 := rfl
  have hh : image_4x1.height.toNat = 1 := rfl
  simp only [voronoi_cells, first_pass, first_pass_row, hw, hh, range_four, range_one,
    init_cells, List.length_cons, List.length_nil, zero_add, Nat.reduceAdd, range_two,
    List.foldlM_cons, List.foldlM_nil, List.map_cons, List.map_nil, Nat.cast_zero,
    Nat.cast_one, Nat.cast_ofNat, c0, c1, c2, c3]
  simp [accumulate, image_4x1, normalize_cell]
  norm_num
  omega

theorem cells_4x1_second (sqrtf : ℚ → ℚ) (h0 : sqrtf 0 = 0) (h1 : sqrtf 1 = 1)
    (h4 : sqrtf 4 = 2) (h9 : sqrtf 9 = 3) (garbage : Nat → Int) :
    voronoi_cells sqrtf image_4x1 [⟨0, 0⟩, ⟨2, 0⟩] garbage =
      some [⟨garbage 0 + 2, 1, ⟨1 / 4, 0⟩⟩, ⟨garbage 1 + 2, 1 / 2, ⟨5 / 2, 0⟩⟩] := by
  obtain ⟨c0, c1, c2, c3⟩ := closest_4x1_second sqrtf h0 h1 h4 h9
  have hw : image_4x1.width.toNat = 4 := rfl
  have hh : image_4x1.height.toNat = 1 := rfl
  simp only [voronoi_cells, first_pass, first_pass_row, hw, hh, range_four, range_one,
    init_cells, List.length_cons, List.length_nil, zero_add, Nat.reduceAdd, range_two,
    List.foldlM_cons, List.foldlM_nil, List.map_cons, List.map_nil, Nat.cast_zero,
    Nat.cast_one, Nat.cast_ofNat, c0, c1, c2, c3]
  simp [accumulate, image_4x1, normalize_cell]
  norm_num
  omega


theorem LBG_policy_changed_nonneg (Tl Tu : ℚ) (cells : List VoronoiCell) :
    0 ≤ (LBG_policy Tl Tu cells (createEmptyStippleList, 0)).2 := by
  rw [(LBG_policy_counts Tl Tu cells createEmptyStippleList 0).2]
  omega



/-- A cell that gets no pixel keeps what the initialisation left: the content
`garbage i` in `pixelCount`, mass 0 and centroid `(0, 0)`; a lower threshold
above 0 drops it. -/
theorem empty_cell_spec (sqrtf : ℚ → ℚ) (image : FloatImage) (stipples : StippleList)
    (garbage : Nat → Int) (cells : List VoronoiCell)
    (h : voronoi_cells sqrtf image stipples garbage = some cells)
    (i : Nat) (hi : i < stipples.length) (hempty : assigned sqrtf image stipples i = []) :
    cells[i]? = some ⟨garbage i, 0, ⟨0, 0⟩⟩ ∧
    ∀ Tl Tu : ℚ, 0 < Tl → policy_sites Tl Tu ⟨garbage i, 0, ⟨0, 0⟩⟩ = [] := by
  obtain ⟨_, _, hget⟩ := voronoi_cells_spec sqrtf image stipples garbage cells h
  obtain ⟨c, hc, hpc, hm, _, hcen⟩ := hget i hi
  rw [hempty] at hpc hm hcen
  have hm0 : c.sumDensity = 0 := by rw [hm]; rfl
  have hcen0 : c.centroid = ⟨0, 0⟩ := by
    rw [hcen (by rw [hm0]; exact lt_irrefl 0)]
    rfl
  have hpc0 : c.pixelCount = garbage i := by rw [hpc]; simp
  constructor
  · rw [hc]
    congr 1
    cases c
    simp only at hm0 hcen0 hpc0
    rw [hm0, hcen0, hpc0]
  · intro Tl Tu hTl
    simp [policy_sites, hTl]

/-- The scan on the 1x1 image with the stipples `(0, 0)` and `(1, 0)`. -/
theorem closest_1x1_two (sqrtf : ℚ → ℚ) (h0 : sqrtf 0 = 0) (h1 : sqrtf 1 = 1) :
    closest_stipple sqrtf image_1x1 [⟨0, 0⟩, ⟨1, 0⟩] 0 0 = 0 := by
  have hF := FLT_MAX_pos
  simp only [closest_stipple, closest_scan, weighted_distance_pixel,
    euclidean_distance, image_1x1]
  norm_num [h0, h1, hF]

theorem cells_1x1_two (sqrtf : ℚ → ℚ) (h0 : sqrtf 0 = 0) (h1 : sqrtf 1 = 1)
    (garbage : Nat → Int) :
    voronoi_cells sqrtf image_1x1 [⟨0, 0⟩, ⟨1, 0⟩] garbage =
      some [⟨garbage 0 + 1, 1, ⟨0, 0⟩⟩, ⟨garbage 1, 0, ⟨0, 0⟩⟩] := by
  have c0 := closest_1x1_two sqrtf h0 h1
  have hw : image_1x1.width.toNat = 1 := rfl
  have hh : image_1x1.height.toNat = 1 := rfl
  simp only [voronoi_cells, first_pass, first_pass_row, hw, hh, range_one, range_two,
    init_cells, List.length_cons, List.length_nil, zero_add, Nat.reduceAdd,
    List.foldlM_cons, List.foldlM_nil, List.map_cons, List.map_nil, Nat.cast_zero, c0]
  simp [accumulate, image_1x1, normalize_cell]

theorem assigned_1x1_two (sqrtf : ℚ → ℚ) (h0 : sqrtf 0 = 0) (h1 : sqrtf 1 = 1) :
    assigned sqrtf image_1x1 [⟨0, 0⟩, ⟨1, 0⟩] 1 = [] := by
  have c0 := closest_1x1_two sqrtf h0 h1
  rw [assigned, pixel_list_1x1]
  simp [c0]




theorem foldl_const_step {α σ : Type} (l : List α) (s : σ) :
    l.foldl (fun st _ => st) s = s := by
  induction l with
  | nil => rfl
  | cons a l ih => rw [List.foldl_cons, ih]

theorem foldlM_const_step {α σ : Type} (l : List α) (s : σ) :
    l.foldlM (fun (st : σ) (_ : α) => (some st : Option σ)) s = some s := by
  induction l with
  | nil => rfl
  | cons a l ih => rw [List.foldlM_cons]; exact ih

theorem pixel_list_no_pixels (image : FloatImage)
    (hdim : image.width ≤ 0 ∨ image.height ≤ 0) : pixel_list image = [] := by
  rw [List.eq_nil_iff_forall_not_mem]
  intro p hp
  rw [mem_pixel_list] at hp
  omega

theorem normalize_init_cells (garbage : Nat → Int) (count : Nat) :
    (init_cells garbage count).map normalize_cell = init_cells garbage count := by
  unfold init_cells
  rw [List.map_map]
  apply List.map_congr_left
  intro i _
  simp [normalize_cell]

theorem voronoi_cells_no_pixels (sqrtf : ℚ → ℚ) (image : FloatImage)
    (stipples : StippleList) (garbage : Nat → Int)
    (hdim : image.width ≤ 0 ∨ image.height ≤ 0) :
    voronoi_cells sqrtf image stipples garbage =
      some (init_cells garbage stipples.length) := by
  rw [voronoi_cells, first_pass_eq, pixel_list_no_pixels image hdim]
  simp only [List.foldlM_nil]
  show some ((init_cells garbage stipples.length).map normalize_cell) = _
  rw [normalize_init_cells]

theorem mark_edges_no_pixels (sqrtf : ℚ → ℚ) (image : FloatImage)
    (stipples : StippleList) (hdim : image.width ≤ 0 ∨ image.height ≤ 0) :
    mark_edges sqrtf image stipples = (fun _ _ => false, 0) := by
  unfold mark_edges
  rcases hdim with hw | hh
  · have h0 : image.width.toNat = 0 := by omega
    simp only [h0, List.range_zero, List.foldl_nil]
    exact foldl_const_step _ _
  · have h0 : image.height.toNat = 0 := by omega
    simp only [h0, List.range_zero, List.foldl_nil]

theorem trace_all_no_pixels (width height : Int) (edge_map : Int → Int → Bool)
    (hdim : width ≤ 0 ∨ height ≤ 0) :
    trace_all width height edge_map = some (edge_map, []) := by
  unfold trace_all
  rcases hdim with hw | hh
  · have h0 : width.toNat = 0 := by omega
    simp only [h0, List.range_zero, List.foldlM_nil]
    exact foldlM_const_step _ _
  · have h0 : height.toNat = 0 := by omega
    simp only [h0, List.range_zero, List.foldlM_nil]
    rfl

/-- On an image without pixels `compute_voronoi_with_edges` returns a diagram:
the cells as the initialisation left them and no path. -/
theorem compute_no_pixels (sqrtf : ℚ → ℚ) (image : FloatImage)
    (stipples : StippleList) (garbage : Nat → Int)
    (hdim : image.width ≤ 0 ∨ image.height ≤ 0) :
    compute_voronoi_with_edges sqrtf image stipples garbage =
      some { cells := init_cells garbage stipples.length
             count := stipples.length
             edges := []
             edgeCount := 0 } := by
  unfold compute_voronoi_with_edges
  rw [voronoi_cells_no_pixels sqrtf image stipples garbage hdim,
    mark_edges_no_pixels sqrtf image stipples hdim,
    trace_all_no_pixels image.width image.height _ hdim]
  rfl



/-- Every offset of an 8-neighbour is one of the eight directions. -/
theorem dir_of_offset (a b : Int) (ha : -1 ≤ a ∧ a ≤ 1) (hb : -1 ≤ b ∧ b ≤ 1)
    (hne : ¬ (a = 0 ∧ b = 0)) :
    ∃ d : Nat, d < 8 ∧ dx.getD d 0 = a ∧ dy.getD d 0 = b := by
  have ha3 : a = -1 ∨ a = 0 ∨ a = 1 := by omega
  have hb3 : b = -1 ∨ b = 0 ∨ b = 1 := by omega
  rcases ha3 with rfl | rfl | rfl <;> rcases hb3 with rfl | rfl | rfl
  · exact ⟨0, by decide, by decide, by decide⟩
  · exact ⟨3, by decide, by decide, by decide⟩
  · exact ⟨5, by decide, by decide, by decide⟩
  · exact ⟨1, by decide, by decide, by decide⟩
  · exact absurd ⟨rfl, rfl⟩ hne
  · exact ⟨6, by decide, by decide, by decide⟩
  · exact ⟨2, by decide, by decide, by decide⟩
  · exact ⟨4, by decide, by decide, by decide⟩
  · exact ⟨7, by decide, by decide, by decide⟩



theorem best_dir_scan_eq (width height : Int) (s : TraceState) :
    best_dir_scan width height s =
      (List.range 8).foldl (best_dir_step width height s) (-1, -1) := rfl

theorem trace_edge_path_eq (edge_map : Int → Int → Bool) (x y width height : Int)
    (paths : List VoronoiEdge) (max_paths max_path_length : Int)
    (h1 : ¬ (paths.length : Int) ≥ max_paths) (h2 : ¬ max_path_length < 1) :
    trace_edge_path edge_map x y width height paths max_paths max_path_length =
      if (trace_loop width height max_path_length (max_path_length - 1).toNat
          (trace_start edge_map x y)).length ≥ 5 then
        some ((trace_loop width height max_path_length (max_path_length - 1).toNat
            (trace_start edge_map x y)).edge_map,
          paths ++ [⟨(trace_loop width height max_path_length (max_path_length - 1).toNat
              (trace_start edge_map x y)).path,
            (trace_loop width height max_path_length (max_path_length - 1).toNat
              (trace_start edge_map x y)).length⟩], 1)
      else
        some ((trace_loop width height max_path_length (max_path_length - 1).toNat
            (trace_start edge_map x y)).edge_map, paths, 0) := by
  rw [trace_edge_path, if_neg h1, if_neg h2]
  rfl

theorem best_dir_step_candidate (width height : Int) (s : TraceState) (best : Int × Int)
    (d : Nat) (hc : candidate width height s d) :
    best_dir_step width height s best d =
      if step_score s d > best.1 then (step_score s d, (d : Int)) else best := by
  obtain ⟨hx, hy, hm⟩ := hc
  unfold best_dir_step step_score
  simp only
  rw [if_neg (by omega), hm]
  simp

theorem best_dir_step_not_candidate (width height : Int) (s : TraceState)
    (best : Int × Int) (d : Nat) (hc : ¬ candidate width height s d) :
    best_dir_step width height s best d = best := by
  unfold best_dir_step
  simp only
  by_cases hout : s.current_x + dx.getD d 0 < 0 ∨ s.current_x + dx.getD d 0 ≥ width ∨
      s.current_y + dy.getD d 0 < 0 ∨ s.current_y + dy.getD d 0 ≥ height
  · rw [if_pos hout]
  · rw [if_neg hout]
    have hm : s.edge_map (s.current_y + dy.getD d 0) (s.current_x + dx.getD d 0) = false := by
      by_contra hne
      apply hc
      refine ⟨by omega, by omega, ?_⟩
      simpa using hne
    rw [hm]
    simp

/-- The loop over the first `k` directions: either no candidate among them
scores above -1 and the state is still `(-1, -1)`, or the state is the first
candidate of greatest score, which is above -1. -/
theorem best_dir_prefix_spec (width height : Int) (s : TraceState) (k : Nat) :
    ((List.range k).foldl (best_dir_step width height s) (-1, -1) = (-1, -1) ∧
      ∀ e : Nat, e < k → candidate width height s e → step_score s e ≤ -1) ∨
    ∃ d : Nat, d < k ∧
      (List.range k).foldl (best_dir_step width height s) (-1, -1) =
        (step_score s d, (d : Int)) ∧
      candidate width height s d ∧ -1 < step_score s d ∧
      (∀ e : Nat, e < k → candidate width height s e → step_score s e ≤ step_score s d) ∧
      ∀ e : Nat, e < d → candidate width height s e → step_score s e < step_score s d := by
  induction k with
  | zero =>
    left
    exact ⟨rfl, fun e he => absurd he (Nat.not_lt_zero e)⟩
  | succ k ih =>
    rw [List.range_succ, List.foldl_append, List.foldl_cons, List.foldl_nil]
    by_cases hc : candidate width height s k
    · rcases ih with ⟨heq, hall⟩ | ⟨d, hd, heq, hcd, hpos, hmax, hfirst⟩
      · rw [heq, best_dir_step_candidate width height s _ k hc]
        by_cases hsc : step_score s k > -1
        · right
          refine ⟨k, by omega, by rw [if_pos hsc], hc, hsc, ?_, ?_⟩
          · intro e he hce
            rcases Nat.lt_succ_iff_lt_or_eq.1 he with h | h
            · have := hall e h hce
              omega
            · rw [h]
          · intro e he hce
            have := hall e he hce
            omega
        · left
          refine ⟨by rw [if_neg hsc], ?_⟩
          intro e he hce
          rcases Nat.lt_succ_iff_lt_or_eq.1 he with h | h
          · exact hall e h hce
          · rw [h]; omega
      · rw [heq, best_dir_step_candidate width height s _ k hc]
        right
        by_cases hsc : step_score s k > step_score s d
        · refine ⟨k, by omega, by rw [if_pos hsc], hc, by omega, ?_, ?_⟩
          · intro e he hce
            rcases Nat.lt_succ_iff_lt_or_eq.1 he with h | h
            · have := hmax e h hce
              omega
            · rw [h]
          · intro e he hce
            have := hmax e he hce
            omega
        · refine ⟨d, by omega, by rw [if_neg hsc], hcd, hpos, ?_, hfirst⟩
          intro e he hce
          rcases Nat.lt_succ_iff_lt_or_eq.1 he with h | h
          · exact hmax e h hce
          · rw [h]; omega
    · rw [best_dir_step_not_candidate width height s _ k hc]
      rcases ih with ⟨heq, hall⟩ | ⟨d, hd, heq, hcd, hpos, hmax, hfirst⟩
      · left
        refine ⟨heq, ?_⟩
        intro e he hce
        rcases Nat.lt_succ_iff_lt_or_eq.1 he with h | h
        · exact hall e h hce
        · rw [h] at hce; exact absurd hce hc
      · right
        refine ⟨d, by omega, heq, hcd, hpos, ?_, hfirst⟩
        intro e he hce
        rcases Nat.lt_succ_iff_lt_or_eq.1 he with h | h
        · exact hmax e h hce
        · rw [h] at hce; exact absurd hce hc

/-- The direction found by `best_dir_scan`: -1 when no candidate scores above -1,
otherwise the first candidate of greatest score. -/
theorem best_dir_scan_max (width height : Int) (s : TraceState) :
    ((best_dir_scan width height s).2 = -1 ∧
      ∀ e : Nat, e < 8 → candidate width height s e → step_score s e ≤ -1) ∨
    ∃ d : Nat, d < 8 ∧ (best_dir_scan width height s).2 = (d : Int) ∧
      candidate width height s d ∧ -1 < step_score s d ∧
      (∀ e : Nat, e < 8 → candidate width height s e → step_score s e ≤ step_score s d) ∧
      ∀ e : Nat, e < d → candidate width height s e → step_score s e < step_score s d := by
  rw [best_dir_scan_eq]
  rcases best_dir_prefix_spec width height s 8 with
    ⟨heq, hall⟩ | ⟨d, hd, heq, hcd, hpos, hmax, hfirst⟩
  · left
    exact ⟨by rw [heq], hall⟩
  · right
    exact ⟨d, hd, by rw [heq], hcd, hpos, hmax, hfirst⟩



/-- The loop stops for want of a direction exactly when no candidate scores
above -1. -/
theorem best_dir_none_iff (width height : Int) (s : TraceState) :
    (best_dir_scan width height s).2 = -1 ↔
      ∀ e : Nat, e < 8 → candidate width height s e → step_score s e ≤ -1 := by
  rcases best_dir_scan_max width height s with ⟨hm, hall⟩ | ⟨d, hd, heq, hc, hpos, _, _⟩
  · exact ⟨fun _ => hall, fun _ => hm⟩
  · constructor
    · intro h
      rw [heq] at h
      omega
    · intro hall
      have := hall d hd hc
      omega

theorem point_eq (x y x1 y1 : Int)
    (h : (⟨(x : ℚ), (y : ℚ)⟩ : StipplePoint) = ⟨(x1 : ℚ), (y1 : ℚ)⟩) :
    x = x1 ∧ y = y1 := by
  injection h with h1 h2
  exact ⟨by exact_mod_cast h1, by exact_mod_cast h2⟩

theorem mask_set_false_of_false (m : Int → Int → Bool) (y x y1 x1 : Int)
    (h : m y1 x1 = false) : mask_set m y x false y1 x1 = false := by
  unfold mask_set
  split
  · rfl
  · exact h

theorem mask_set_true (m : Int → Int → Bool) (y x y1 x1 : Int)
    (h : mask_set m y x false y1 x1 = true) : m y1 x1 = true := by
  unfold mask_set at h
  split at h
  · cases h
  · exact h

theorem mask_set_self (m : Int → Int → Bool) (y x : Int) (b : Bool) :
    mask_set m y x b y x = b := by
  simp [mask_set]

theorem path_inv_start (m : Int → Int → Bool) (width height x y : Int)
    (hx : 0 ≤ x ∧ x < width) (hy : 0 ≤ y ∧ y < height) (hm : m y x = true) :
    path_inv m width height (trace_start m x y) := by
  refine ⟨?_, ?_, ?_⟩
  · intro p hp
    simp only [trace_start, List.mem_singleton] at hp
    exact ⟨x, y, hp, hx, hy, hm, mask_set_self m y x false⟩
  · simp [trace_start]
  · intro y1 x1 h
    exact mask_set_true m y x y1 x1 h

theorem path_inv_step (m : Int → Int → Bool) (width height : Int) (s : TraceState)
    (d : Nat)
    (hx : 0 ≤ s.current_x + dx.getD d 0 ∧ s.current_x + dx.getD d 0 < width)
    (hy : 0 ≤ s.current_y + dy.getD d 0 ∧ s.current_y + dy.getD d 0 < height)
    (hm : s.edge_map (s.current_y + dy.getD d 0) (s.current_x + dx.getD d 0) = true)
    (h : path_inv m width height s) :
    path_inv m width height (trace_step s (d : Int)) := by
  obtain ⟨hpts, hnodup, hsub⟩ := h
  unfold trace_step path_inv
  simp only [Int.toNat_natCast]
  refine ⟨?_, ?_, ?_⟩
  · intro p hp
    rcases List.mem_append.1 hp with hp | hp
    · obtain ⟨x, y, hpe, hbx, hby, hmt, hcl⟩ := hpts p hp
      exact ⟨x, y, hpe, hbx, hby, hmt, mask_set_false_of_false _ _ _ _ _ hcl⟩
    · rw [List.mem_singleton] at hp
      exact ⟨_, _, hp, hx, hy, hsub _ _ hm, mask_set_self _ _ _ false⟩
  · rw [List.nodup_append]
    refine ⟨hnodup, List.nodup_singleton _, ?_⟩
    intro p hp hq
    rw [List.mem_singleton] at hq
    obtain ⟨x, y, hpe, _, _, _, hcl⟩ := hpts p hp
    rw [hpe] at hq
    obtain ⟨h1, h2⟩ := point_eq _ _ _ _ hq
    rw [h1, h2, hm] at hcl
    cases hcl
  · intro y1 x1 h1
    exact hsub y1 x1 (mask_set_true _ _ _ _ _ h1)

theorem path_inv_loop (m : Int → Int → Bool) (width height max_path_length : Int)
    (fuel : Nat) :
    ∀ s : TraceState, path_inv m width height s →
      path_inv m width height (trace_loop width height max_path_length fuel s) := by
  induction fuel with
  | zero => intro s h; exact h
  | succ n ih =>
    intro s h
    rw [trace_loop]
    split
    · simp only
      split
      · exact h
      · rename_i hne
        rcases best_dir_scan_spec width height s with hm | ⟨d, _, heq, hx, hy, hmask⟩
        · exact absurd hm hne
        · rw [heq]
          exact ih _ (path_inv_step m width height s d hx hy hmask h)
    · exact h

theorem trace_inv_start (edge_map : Int → Int → Bool) (width height x y : Int)
    (hx : 0 ≤ x ∧ x < width) (hy : 0 ≤ y ∧ y < height) :
    trace_inv width height (trace_start edge_map x y) := by
  refine ⟨rfl, rfl, List.chain'_singleton _, ?_⟩
  intro p hp
  simp only [trace_start, List.mem_singleton] at hp
  exact ⟨x, y, hp, hx, hy⟩



theorem foldlM_invariant {α σ : Type} (P : σ → Prop) (f : σ → α → Option σ) (l : List α) :
    ∀ s : σ, P s → (∀ s a s1, a ∈ l → P s → f s a = some s1 → P s1) →
      ∀ r, l.foldlM f s = some r → P r := by
  induction l with
  | nil =>
    intro s hs _ r hr
    simp only [List.foldlM_nil] at hr
    cases hr
    exact hs
  | cons a l ih =>
    intro s hs hstep r hr
    rw [List.foldlM_cons] at hr
    cases hf : f s a with
    | none => rw [hf] at hr; cases hr
    | some s1 =>
      rw [hf] at hr
      exact ih s1 (hstep s a s1 (List.mem_cons_self _ _) hs hf)
        (fun s2 a2 s3 ha2 hs2 h2 => hstep s2 a2 s3 (List.mem_cons_of_mem _ ha2) hs2 h2) r hr

/-- One call of `trace_edge_path` from a pixel that is set keeps `scan_inv`. -/
theorem scan_inv_trace (m0 : Int → Int → Bool) (width height : Int)
    (edge_map : Int → Int → Bool) (paths : List VoronoiEdge) (x y : Int)
    (max_paths max_path_length : Int)
    (hx : 0 ≤ x ∧ x < width) (hy : 0 ≤ y ∧ y < height) (hset : edge_map y x = true)
    (h : scan_inv m0 width height (edge_map, paths))
    (r : (Int → Int → Bool) × List VoronoiEdge × Int)
    (hr : trace_edge_path edge_map x y width height paths max_paths max_path_length = some r) :
    scan_inv m0 width height (r.1, r.2.1) := by
  obtain ⟨hpts, hnodup, hsub, hfive⟩ := h
  by_cases h1 : (paths.length : Int) ≥ max_paths
  · rw [trace_edge_path, if_pos h1] at hr
    cases hr
    exact ⟨hpts, hnodup, hsub, hfive⟩
  · by_cases h2 : max_path_length < 1
    · rw [trace_edge_path, if_neg h1, if_pos h2] at hr
      cases hr
    · rw [trace_edge_path_eq edge_map x y width height paths max_paths max_path_length h1 h2]
        at hr
      have hJ := path_inv_loop edge_map width height max_path_length
        (max_path_length - 1).toNat _ (path_inv_start edge_map width height x y hx hy hset)
      have hT := trace_loop_inv width height max_path_length
        (max_path_length - 1).toNat _ (trace_inv_start edge_map width height x y hx hy)
      obtain ⟨hJpts, hJnodup, hJsub⟩ := hJ
      obtain ⟨_, hTlen, _, _⟩ := hT
      have hold : ∀ e ∈ paths, ∀ p ∈ e.points,
          ∃ x1 y1 : Int, p = ⟨x1, y1⟩ ∧ (0 ≤ x1 ∧ x1 < width) ∧ (0 ≤ y1 ∧ y1 < height) ∧
            m0 y1 x1 = true ∧
            (trace_loop width height max_path_length (max_path_length - 1).toNat
              (trace_start edge_map x y)).edge_map y1 x1 = false := by
        intro e he p hp
        obtain ⟨x1, y1, hpe, hbx, hby, hm, hcl⟩ := hpts e he p hp
        refine ⟨x1, y1, hpe, hbx, hby, hm, ?_⟩
        by_contra hne
        have ht : (trace_loop width height max_path_length (max_path_length - 1).toNat
            (trace_start edge_map x y)).edge_map y1 x1 = true := by simpa using hne
        have := hJsub y1 x1 ht
        simp only at hcl
        rw [hcl] at this
        cases this
      have hsub1 : ∀ y1 x1 : Int,
          (trace_loop width height max_path_length (max_path_length - 1).toNat
            (trace_start edge_map x y)).edge_map y1 x1 = true → m0 y1 x1 = true :=
        fun y1 x1 ht => hsub y1 x1 (hJsub y1 x1 ht)
      split at hr
      · rename_i h5
        cases hr
        refine ⟨?_, ?_, hsub1, ?_⟩
        · intro e he p hp
          rcases List.mem_append.1 he with he | he
          · exact hold e he p hp
          · rw [List.mem_singleton] at he
            subst he
            obtain ⟨x1, y1, hpe, hbx, hby, hm, hcl⟩ := hJpts p hp
            exact ⟨x1, y1, hpe, hbx, hby, hsub y1 x1 hm, hcl⟩
        · simp only [List.flatMap_append, List.flatMap_cons, List.flatMap_nil,
            List.append_nil]
          rw [List.nodup_append]
          refine ⟨hnodup, hJnodup, ?_⟩
          intro p hp hq
          rw [List.mem_flatMap] at hp
          obtain ⟨e, he, hpe⟩ := hp
          obtain ⟨x1, y1, hp1, _, _, _, hcl⟩ := hpts e he p hpe
          obtain ⟨x2, y2, hp2, _, _, hm2, _⟩ := hJpts p hq
          rw [hp1] at hp2
          obtain ⟨e1, e2⟩ := point_eq _ _ _ _ hp2
          simp only at hcl
          rw [e1, e2, hm2] at hcl
          cases hcl
        · intro e he
          rcases List.mem_append.1 he with he | he
          · exact hfive e he
          · rw [List.mem_singleton] at he
            subst he
            simp only
            omega
      · cases hr
        exact ⟨hold, hnodup, hsub1, hfive⟩

/-- The tracing scan ends in a state with `scan_inv`. -/
theorem trace_all_inv (width height : Int) (m0 : Int → Int → Bool)
    (r : (Int → Int → Bool) × List VoronoiEdge)
    (hr : trace_all width height m0 = some r) : scan_inv m0 width height r := by
  unfold trace_all at hr
  refine foldlM_invariant (scan_inv m0 width height) _ _ (m0, []) ?_ ?_ r hr
  · refine ⟨?_, ?_, fun _ _ h => h, ?_⟩
    · intro e he; cases he
    · simp
    · intro e he; cases he
  · intro st y st1 hy hst hrow
    have hyb : 0 ≤ (y : Int) ∧ (y : Int) < height := by
      rw [List.mem_range] at hy
      omega
    refine foldlM_invariant (scan_inv m0 width height) _ _ st hst ?_ st1 hrow
    intro st2 x st3 hxm hst2 hcell
    have hxb : 0 ≤ (x : Int) ∧ (x : Int) < width := by
      rw [List.mem_range] at hxm
      omega
    simp only at hcell
    split at hcell
    · rename_i hset
      cases ht : trace_edge_path st2.1 x y width height st2.2 100000 100000 with
      | none => rw [ht] at hcell; cases hcell
      | some r1 =>
        rw [ht] at hcell
        simp only [Option.map_some', Option.some.injEq] at hcell
        rw [← hcell]
        exact scan_inv_trace m0 width height st2.1 st2.2 x y 100000 100000 hxb hyb hset
          hst2 r1 ht
    · cases hcell
      exact hst2



theorem foldl_flatMap_nested {α β σ : Type} (g : α → List β) (h : σ → β → σ)
    (L : List α) : ∀ s : σ,
    (L.flatMap g).foldl h s = L.foldl (fun s a => (g a).foldl h s) s := by
  induction L with
  | nil => intro s; rfl
  | cons a L ih =>
    intro s
    rw [List.flatMap_cons, List.foldl_append, List.foldl_cons]
    exact ih _

/-- Marking the pixels `ps` that pass the test `e`: the counter grows by their
number, and the mask gains exactly these pixels. -/
theorem mark_fold_spec (e : Int × Int → Bool) (ps : List (Int × Int)) :
    ∀ st : (Int → Int → Bool) × Int,
      (ps.foldl (fun st p => if e p then (mask_set st.1 p.2 p.1 true, st.2 + 1) else st) st).2 =
        st.2 + (ps.filter e).length ∧
      ∀ y x : Int,
        (ps.foldl (fun st p => if e p then (mask_set st.1 p.2 p.1 true, st.2 + 1) else st)
          st).1 y x = (st.1 y x || (decide ((x, y) ∈ ps) && e (x, y))) := by
  induction ps with
  | nil => intro st; simp
  | cons p ps ih =>
    intro st
    rw [List.foldl_cons]
    by_cases hp : e p = true
    · rw [if_pos hp]
      obtain ⟨h1, h2⟩ := ih (mask_set st.1 p.2 p.1 true, st.2 + 1)
      constructor
      · rw [h1, List.filter_cons_of_pos hp]
        simp only [List.length_cons]
        push_cast
        ring
      · intro y x
        rw [h2]
        by_cases hxy : (x, y) = p
        · subst hxy
          simp [mask_set, hp]
        · have hne : ¬ (y = p.2 ∧ x = p.1) := by
            rintro ⟨rfl, rfl⟩
            exact hxy rfl
          simp [mask_set, hne, hxy]
    · rw [if_neg hp]
      have hpf : e p = false := by simpa using hp
      obtain ⟨h1, h2⟩ := ih st
      constructor
      · rw [h1, List.filter_cons_of_neg hp]
      · intro y x
        rw [h2]
        by_cases hxy : (x, y) = p
        · subst hxy
          simp [hpf]
        · simp [hxy]

theorem mark_edges_eq (sqrtf : ℚ → ℚ) (image : FloatImage) (stipples : StippleList) :
    mark_edges sqrtf image stipples =
      (pixel_list image).foldl
        (fun st p =>
          if (fun q : Int × Int => is_voronoi_edge sqrtf q.1 q.2 image stipples) p then
            (mask_set st.1 p.2 p.1 true, st.2 + 1)
          else st)
        (fun _ _ => false, 0) := by
  unfold mark_edges pixel_list
  rw [foldl_flatMap_nested]
  congr 1
  funext st y
  rw [List.foldl_map]

/-- The mask left by the second pass holds exactly the pixels of the image for
which `is_voronoi_edge` is true, and `edge_pixel_count` is their number. -/
theorem mark_edges_spec (sqrtf : ℚ → ℚ) (image : FloatImage) (stipples : StippleList) :
    (∀ y x : Int, (mark_edges sqrtf image stipples).1 y x = true ↔
      ((0 ≤ x ∧ x < image.width) ∧ (0 ≤ y ∧ y < image.height)) ∧
        is_voronoi_edge sqrtf x y image stipples = true) ∧
    (mark_edges sqrtf image stipples).2 =
      active_count image.width image.height (mark_edges sqrtf image stipples).1 := by
  obtain ⟨h1, h2⟩ := mark_fold_spec
    (fun q : Int × Int => is_voronoi_edge sqrtf q.1 q.2 image stipples) (pixel_list image)
    (fun _ _ => false, 0)
  rw [← mark_edges_eq] at h1 h2
  have hmask : ∀ y x : Int, (mark_edges sqrtf image stipples).1 y x = true ↔
      ((0 ≤ x ∧ x < image.width) ∧ (0 ≤ y ∧ y < image.height)) ∧
        is_voronoi_edge sqrtf x y image stipples = true := by
    intro y x
    rw [h2]
    simp only [Bool.false_or, Bool.and_eq_true, decide_eq_true_eq]
    rw [mem_pixel_list]
  refine ⟨hmask, ?_⟩
  rw [h1, active_count]
  simp only [zero_add]
  congr 2
  have hpl : pixel_list (⟨image.width, image.height, fun _ => 0⟩ : FloatImage) =
      pixel_list image := rfl
  rw [hpl]
  apply List.filter_congr
  intro p hp
  have hin := (mem_pixel_list image p).1 hp
  cases hm : (mark_edges sqrtf image stipples).1 p.2 p.1 with
  | true => exact ((hmask p.2 p.1).1 hm).2
  | false =>
    cases he : is_voronoi_edge sqrtf p.1 p.2 image stipples with
    | false => rfl
    | true =>
      have := (hmask p.2 p.1).2 ⟨hin, he⟩
      rw [hm] at this
      cases this

theorem compute_edges (sqrtf : ℚ → ℚ) (image : FloatImage) (stipples : StippleList)
    (garbage : Nat → Int) (vd : VoronoiDiagram)
    (h : compute_voronoi_with_edges sqrtf image stipples garbage = some vd) :
    (∃ m, trace_all image.width image.height (mark_edges sqrtf image stipples).1 =
      some (m, vd.edges)) ∧ vd.edgeCount = vd.edges.length := by
  unfold compute_voronoi_with_edges at h
  cases hc : voronoi_cells sqrtf image stipples garbage with
  | none => rw [hc] at h; cases h
  | some cells =>
    rw [hc] at h
    cases ht : trace_all image.width image.height (mark_edges sqrtf image stipples).1 with
    | none => rw [ht] at h; cases h
    | some r =>
      obtain ⟨m, edges⟩ := r
      rw [ht] at h
      simp only [Option.some.injEq] at h
      subst h
      exact ⟨⟨m, rfl⟩, rfl⟩

theorem five_le_flatMap (paths : List VoronoiEdge) (h : ∀ e ∈ paths, 5 ≤ e.points.length) :
    5 * paths.length ≤ (paths.flatMap VoronoiEdge.points).length := by
  induction paths with
  | nil => simp
  | cons e rest ih =>
    rw [List.flatMap_cons, List.length_append, List.length_cons]
    have h1 := h e (List.mem_cons_self _ _)
    have h2 := ih (fun e1 he1 => h e1 (List.mem_cons_of_mem _ he1))
    omega

/-- In a state with `scan_inv` the stored paths hold at most as many points as
the mask had pixels set, and so there are at most a fifth as many paths. -/
theorem scan_inv_count (m0 : Int → Int → Bool) (width height : Int)
    (st : (Int → Int → Bool) × List VoronoiEdge) (h : scan_inv m0 width height st) :
    5 * st.2.length ≤ active_count width height m0 := by
  obtain ⟨hpts, hnodup, _, hfive⟩ := h
  have hsub : st.2.flatMap VoronoiEdge.points ⊆
      (((pixel_list ⟨width, height, fun _ => 0⟩).filter fun p => m0 p.2 p.1).map
        fun p => (⟨(p.1 : ℚ), (p.2 : ℚ)⟩ : StipplePoint)) := by
    intro p hp
    rw [List.mem_flatMap] at hp
    obtain ⟨e, he, hpe⟩ := hp
    obtain ⟨x, y, hxy, hx, hy, hm, _⟩ := hpts e he p hpe
    rw [List.mem_map]
    refine ⟨(x, y), ?_, hxy.symm⟩
    rw [List.mem_filter, mem_pixel_list]
    exact ⟨⟨hx, hy⟩, hm⟩
  have hle := (List.Nodup.subperm hnodup hsub).length_le
  rw [List.length_map] at hle
  have h5 := five_le_flatMap st.2 hfive
  unfold active_count
  omega



/-- What `scan_inv` says of the stored paths alone. -/
theorem scan_inv_paths (m0 : Int → Int → Bool) (width height : Int)
    (st : (Int → Int → Bool) × List VoronoiEdge) (h : scan_inv m0 width height st) :
    (∀ e ∈ st.2, e.points.Nodup) ∧
    List.Pairwise (fun e1 e2 => List.Disjoint e1.points e2.points) st.2 ∧
    (st.2.flatMap VoronoiEdge.points).Nodup ∧
    ∀ e ∈ st.2, ∀ p ∈ e.points, ∃ x y : Int, p = ⟨x, y⟩ ∧
      (0 ≤ x ∧ x < width) ∧ (0 ≤ y ∧ y < height) ∧ m0 y x = true := by
  obtain ⟨hpts, hnodup, _, _⟩ := h
  have h2 := List.nodup_flatMap.1 hnodup
  refine ⟨h2.1, h2.2, hnodup, ?_⟩
  intro e he p hp
  obtain ⟨x, y, hxy, hx, hy, hm, _⟩ := hpts e he p hp
  exact ⟨x, y, hxy, hx, hy, hm⟩

theorem trace_all_row6 :
    (trace_all 6 1 mask_row6).map (fun r => r.2) =
      some [⟨[⟨0, 0⟩, ⟨1, 0⟩, ⟨2, 0⟩, ⟨3, 0⟩, ⟨4, 0⟩, ⟨5, 0⟩], 6⟩] := by
  decide

theorem active_count_row6 : active_count 6 1 mask_row6 = 6 := by
  decide



/-! ## Rounding to binary32 -/

theorem round_even_of_near (q : ℚ) (n : Int) (h : |q - n| < 1 / 2) : round_even q = n := by
  rw [abs_lt] at h
  obtain ⟨h1, h2⟩ := h
  unfold round_even
  by_cases hq : (n : ℚ) ≤ q
  · have hfl : ⌊q⌋ = n := by
      rw [Int.floor_eq_iff]
      constructor
      · exact hq
      · linarith
    rw [hfl, if_pos (by linarith)]
  · push_neg at hq
    have hfl : ⌊q⌋ = n - 1 := by
      rw [Int.floor_eq_iff]
      push_cast
      constructor <;> linarith
    rw [hfl]
    push_cast
    rw [if_neg (by linarith), if_pos (by linarith)]
    ring

theorem round_even_le (q : ℚ) (M : Int) (h : q ≤ M) : round_even q ≤ M := by
  have hfl : ⌊q⌋ ≤ M := by
    have := Int.floor_le q
    exact_mod_cast (Int.floor_le q).trans h |> fun h1 => (Int.cast_le (R := ℚ)).1 h1
  have hlt : q - ⌊q⌋ < 1 / 2 ∨ ⌊q⌋ + 1 ≤ M := by
    by_cases hc : ⌊q⌋ = M
    · left
      rw [hc]
      linarith
    · right
      omega
  unfold round_even
  split
  · exact hfl
  · rcases hlt with h1 | h1
    · contradiction
    · split
      · exact h1
      · split
        · exact hfl
        · exact h1

theorem le_round_even (q : ℚ) (M : Int) (h : (M : ℚ) ≤ q) : M ≤ round_even q := by
  have hfl : M ≤ ⌊q⌋ := Int.le_floor.2 h
  unfold round_even
  split
  · exact hfl
  · split
    · omega
    · split
      · exact hfl
      · omega

theorem ulp32_pos (q : ℚ) : 0 < ulp32 q := by
  unfold ulp32
  positivity

theorem round32_zero : round32 0 = F32.fin 0 := by
  have h : round_even ((0 : ℚ) / ulp32 0) = 0 := by
    apply round_even_of_near
    simp
  unfold round32
  simp only [h]
  norm_num

/-- A value between 0 and a power of two `2^k <= 2^127` rounds to a finite
value in the same range. -/
theorem round32_bound (q : ℚ) (k : ℤ) (hk : k ≤ 127) (h0 : 0 ≤ q)
    (h : q ≤ (2 : ℚ) ^ k) (hk0 : -126 ≤ k) :
    ∃ r, round32 q = F32.fin r ∧ 0 ≤ r ∧ r ≤ (2 : ℚ) ^ k := by
  rcases h0.eq_or_lt with h0 | h0
  · subst h0
    exact ⟨0, round32_zero, le_refl _, by positivity⟩
  have hlog : Int.log 2 |q| ≤ k := by
    rw [abs_of_pos h0]
    have h1 := Int.zpow_log_le_self (b := 2) (by norm_num) h0
    have h2 : ((2 : ℕ) : ℚ) ^ Int.log 2 q ≤ ((2 : ℕ) : ℚ) ^ k := by
      push_cast
      push_cast at h1
      exact h1.trans h
    push_cast at h2
    exact (zpow_le_zpow_iff_right₀ (by norm_num : (1 : ℚ) < 2)).1 h2
  have hE : max (Int.log 2 |q|) (-126) ≤ k := max_le hlog hk0
  obtain ⟨m, hm⟩ : ∃ m : ℕ, k - max (Int.log 2 |q|) (-126) + 23 = m :=
    ⟨(k - max (Int.log 2 |q|) (-126) + 23).toNat, by omega⟩
  have hu : ulp32 q * (2 : ℚ) ^ (m : ℤ) = (2 : ℚ) ^ k := by
    unfold ulp32
    rw [← zpow_add₀ (by norm_num : (2 : ℚ) ≠ 0), ← hm]
    congr 1
    ring
  have hupos := ulp32_pos q
  have hdiv : q / ulp32 q ≤ (((2 : ℤ) ^ m : ℤ) : ℚ) := by
    rw [div_le_iff₀ hupos]
    push_cast
    rw [← zpow_natCast, mul_comm, hu]
    exact h
  have hn1 := round_even_le _ _ hdiv
  have hn0 : (0 : ℤ) ≤ round_even (q / ulp32 q) := by
    apply le_round_even
    push_cast
    positivity
  have hr0 : (0 : ℚ) ≤ (round_even (q / ulp32 q) : ℚ) * ulp32 q := by
    have : (0 : ℚ) ≤ (round_even (q / ulp32 q) : ℚ) := by exact_mod_cast hn0
    positivity
  have hr1 : (round_even (q / ulp32 q) : ℚ) * ulp32 q ≤ (2 : ℚ) ^ k := by
    rw [← hu, mul_comm]
    apply mul_le_mul_of_nonneg_left _ hupos.le
    have : (round_even (q / ulp32 q) : ℚ) ≤ (((2 : ℤ) ^ m : ℤ) : ℚ) := by exact_mod_cast hn1
    push_cast at this
    rw [zpow_natCast]
    exact this
  have h127 : (2 : ℚ) ^ k < (2 : ℚ) ^ (128 : ℕ) := by
    rw [← zpow_natCast]
    exact zpow_lt_zpow_right₀ (by norm_num) (by omega)
  refine ⟨_, ?_, hr0, hr1⟩
  unfold round32
  simp only
  rw [if_neg (by linarith), if_neg (by
    have : (0 : ℚ) < (2 : ℚ) ^ 128 := by positivity
    linarith)]

theorem log2_eq (q : ℚ) (e : ℤ) (h0 : 0 < q) (h1 : (2 : ℚ) ^ e ≤ q)
    (h2 : q < (2 : ℚ) ^ (e + 1)) : Int.log 2 q = e := by
  apply le_antisymm
  · have := (Int.lt_zpow_iff_log_lt (b := 2) (by norm_num) (x := e + 1) h0).1
      (by push_cast; exact h2)
    omega
  · exact (Int.zpow_le_iff_le_log (b := 2) (by norm_num) h0).1 (by push_cast; exact h1)

/-- How a value in the normal range rounds: `n` is the integer nearest to
`q / 2^(e - 23)`, where `2^e <= |q| < 2^(e + 1)`. -/
theorem round32_eq (q : ℚ) (e n : ℤ) (h1 : (2 : ℚ) ^ e ≤ |q|)
    (h2 : |q| < (2 : ℚ) ^ (e + 1)) (he : -126 ≤ e)
    (hn : |q / (2 : ℚ) ^ (e - 23) - n| < 1 / 2)
    (hb : |(n : ℚ) * (2 : ℚ) ^ (e - 23)| < (2 : ℚ) ^ 128) :
    round32 q = F32.fin ((n : ℚ) * (2 : ℚ) ^ (e - 23)) := by
  have hpos : 0 < |q| := lt_of_lt_of_le (by positivity) h1
  have hlog := log2_eq |q| e hpos h1 h2
  have hu : ulp32 q = (2 : ℚ) ^ (e - 23) := by
    unfold ulp32
    rw [hlog, max_eq_left he]
  have hr : round_even (q / ulp32 q) = n := by
    rw [hu]
    exact round_even_of_near _ _ hn
  rw [abs_lt] at hb
  rw [hu] at hr
  unfold round32
  simp only [hu, hr]
  rw [if_neg (by linarith), if_neg (by linarith)]

/-- An integer below `2^24` in magnitude is a binary32 number. -/
theorem round32_int (n : ℤ) (h : |n| < 2 ^ 24) : round32 n = F32.fin n := by
  rcases eq_or_ne n 0 with h0 | h0
  · subst h0
    simpa using round32_zero
  have hq1 : (1 : ℚ) ≤ |(n : ℚ)| := by
    have : (1 : ℤ) ≤ |n| := Int.one_le_abs h0
    exact_mod_cast this
  have hq2 : |(n : ℚ)| < (2 : ℚ) ^ (24 : ℤ) := by
    have : ((|n| : ℤ) : ℚ) < ((2 ^ 24 : ℤ) : ℚ) := by exact_mod_cast h
    push_cast at this
    rw [zpow_ofNat]
    exact this
  have hpos : 0 < |(n : ℚ)| := by linarith
  have hlo : 0 ≤ Int.log 2 |(n : ℚ)| :=
    (Int.zpow_le_iff_le_log (b := 2) (by norm_num) hpos).1 (by simpa using hq1)
  have hhi : Int.log 2 |(n : ℚ)| < 24 :=
    (Int.lt_zpow_iff_log_lt (b := 2) (by norm_num) hpos).1 (by push_cast; exact hq2)
  have hle := Int.zpow_log_le_self (b := 2) (r := |(n : ℚ)|) (by norm_num) hpos
  have hlt := Int.lt_zpow_succ_log_self (b := 2) (by norm_num) |(n : ℚ)|
  push_cast at hle hlt
  obtain ⟨m, hm⟩ : ∃ m : ℕ, 23 - Int.log 2 |(n : ℚ)| = m :=
    ⟨(23 - Int.log 2 |(n : ℚ)|).toNat, by omega⟩
  have hpow : (2 : ℚ) ^ (Int.log 2 |(n : ℚ)| - 23) * (2 : ℚ) ^ (m : ℤ) = 1 := by
    rw [← zpow_add₀ (by norm_num : (2 : ℚ) ≠ 0), ← hm]
    simp
  have hpp : (0 : ℚ) < (2 : ℚ) ^ (Int.log 2 |(n : ℚ)| - 23) := by positivity
  have hdiv : (n : ℚ) / (2 : ℚ) ^ (Int.log 2 |(n : ℚ)| - 23) = ((n * 2 ^ m : ℤ) : ℚ) := by
    rw [div_eq_iff hpp.ne']
    push_cast
    rw [← zpow_natCast, mul_assoc, mul_comm ((2 : ℚ) ^ (m : ℤ)), hpow, mul_one]
  have hval : ((n * 2 ^ m : ℤ) : ℚ) * (2 : ℚ) ^ (Int.log 2 |(n : ℚ)| - 23) = n := by
    rw [← hdiv, div_mul_cancel₀ _ hpp.ne']
  have key := round32_eq (n : ℚ) (Int.log 2 |(n : ℚ)|) (n * 2 ^ m) hle hlt (by omega)
    (by rw [hdiv]; simp) (by
      rw [hval]
      calc |(n : ℚ)| < (2 : ℚ) ^ (24 : ℤ) := hq2
        _ ≤ (2 : ℚ) ^ 128 := by norm_num)
  rw [key, hval]

/-- A value of `2^128` or more overflows to `+inf`. -/
theorem round32_overflow (q : ℚ) (h : (2 : ℚ) ^ 128 ≤ q) : round32 q = F32.pinf := by
  have hpos : 0 < q := lt_of_lt_of_le (by positivity) h
  have habs : |q| = q := abs_of_pos hpos
  have hlog : (128 : ℤ) ≤ Int.log 2 |q| := by
    rw [habs]
    exact (Int.zpow_le_iff_le_log (b := 2) (by norm_num) hpos).1 (by push_cast; exact_mod_cast h)
  have hle := Int.zpow_log_le_self (b := 2) (r := |q|) (by norm_num) (by rw [habs]; exact hpos)
  push_cast at hle
  rw [habs] at hle
  have hu : ulp32 q = (2 : ℚ) ^ (Int.log 2 |q| - 23) := by
    unfold ulp32
    rw [max_eq_left (by omega)]
  have hupos := ulp32_pos q
  have key : (8388608 : ℚ) * (2 : ℚ) ^ (Int.log 2 |q| - 23) = (2 : ℚ) ^ (Int.log 2 |q|) := by
    have c23 : (8388608 : ℚ) = (2 : ℚ) ^ (23 : ℤ) := by norm_num
    rw [c23, ← zpow_add₀ (by norm_num : (2 : ℚ) ≠ 0)]
    congr 1
    ring
  have h23 : ((8388608 : ℤ) : ℚ) ≤ q / ulp32 q := by
    rw [le_div_iff₀ hupos, hu]
    push_cast
    rw [key, habs]
    exact hle
  have hn := le_round_even _ _ h23
  have hr : (2 : ℚ) ^ 128 ≤ (round_even (q / ulp32 q) : ℚ) * ulp32 q := by
    have h1 : (8388608 : ℚ) ≤ (round_even (q / ulp32 q) : ℚ) := by exact_mod_cast hn
    have h2 : (8388608 : ℚ) * ulp32 q ≤ (round_even (q / ulp32 q) : ℚ) * ulp32 q :=
      mul_le_mul_of_nonneg_right h1 hupos.le
    have h4 : (2 : ℚ) ^ (128 : ℕ) ≤ (2 : ℚ) ^ (Int.log 2 |q|) := by
      rw [← zpow_natCast]
      exact zpow_le_zpow_right₀ (by norm_num) (by exact_mod_cast hlog)
    rw [hu, key] at h2
    rw [hu]
    linarith
  unfold round32
  simp only
  rw [if_pos hr]

/-! ## The partition pass in binary32 -/

theorem compute32_of_cells (sqrtf : F32 → F32) (image : FloatImage32)
    (stipples : List StipplePoint32) (garbage : Nat → Int) (cells : List VoronoiCell32)
    (h : voronoi_cells32 sqrtf image stipples garbage = some cells) :
    ∃ vd, compute_voronoi_with_edges32 sqrtf image stipples garbage = some vd ∧
      vd.cells = cells := by
  unfold compute_voronoi_with_edges32
  rw [h]
  obtain ⟨r, hr⟩ := Option.isSome_iff_exists.1
    (trace_all_isSome image.width image.height (mark_edges32 sqrtf image stipples).1)
  rw [hr]
  exact ⟨_, rfl, rfl⟩

theorem cells_of_compute32 (sqrtf : F32 → F32) (image : FloatImage32)
    (stipples : List StipplePoint32) (garbage : Nat → Int) (vd : VoronoiDiagram32)
    (h : compute_voronoi_with_edges32 sqrtf image stipples garbage = some vd) :
    voronoi_cells32 sqrtf image stipples garbage = some vd.cells := by
  unfold compute_voronoi_with_edges32 at h
  cases hc : voronoi_cells32 sqrtf image stipples garbage with
  | none => rw [hc] at h; cases h
  | some cells =>
    rw [hc] at h
    cases ht : trace_all image.width image.height (mark_edges32 sqrtf image stipples).1 with
    | none => rw [ht] at h; cases h
    | some r =>
      rw [ht] at h
      simp only [Option.some.injEq] at h
      subst h
      rfl

theorem compute32_none_of_cells (sqrtf : F32 → F32) (image : FloatImage32)
    (stipples : List StipplePoint32) (garbage : Nat → Int)
    (h : voronoi_cells32 sqrtf image stipples garbage = none) :
    compute_voronoi_with_edges32 sqrtf image stipples garbage = none := by
  unfold compute_voronoi_with_edges32
  rw [h]

theorem sqrt32_bound (a : ℚ) (h0 : 0 ≤ a) (h1 : a ≤ (2 : ℚ) ^ (48 : ℤ)) :
    ∃ b, sqrt32 (F32.fin a) = F32.fin b ∧ 0 ≤ b ∧ b ≤ (2 : ℚ) ^ (72 : ℤ) := by
  have hs : sqrt32 (F32.fin a) = round32 (sqrtQ a) := by
    show (if a < 0 then F32.nan else round32 (sqrtQ a)) = _
    rw [if_neg (not_lt.2 h0)]
  rw [hs]
  apply round32_bound _ 72 (by norm_num) (sqrtQ_nonneg a) _ (by norm_num)
  calc sqrtQ a ≤ a * 2 ^ 24 := sqrtQ_le a h0
    _ ≤ (2 : ℚ) ^ (48 : ℤ) * 2 ^ 24 := by
        apply mul_le_mul_of_nonneg_right h1 (by positivity)
    _ = (2 : ℚ) ^ (72 : ℤ) := by norm_num

/-- The scan for a pixel `(x, 0)` with `0 <= x < 2^24` of a density in `[0, 1]`
and the one stipple `(0, 0)` ends with index 0: the weighted distance is finite
and below `FLT_MAX`. -/
theorem closest32_origin (sqrtf : F32 → F32)
    (hsq : ∀ a : ℚ, 0 ≤ a → a ≤ (2 : ℚ) ^ (48 : ℤ) →
      ∃ b, sqrtf (F32.fin a) = F32.fin b ∧ 0 ≤ b ∧ b ≤ (2 : ℚ) ^ (72 : ℤ))
    (image : FloatImage32) (x : Int) (hx0 : 0 ≤ x) (hx1 : x < 2 ^ 24) (d : ℚ)
    (hd : image.data (0 * image.width + x) = F32.fin d) (hd0 : 0 ≤ d) (hd1 : d ≤ 1) :
    closest_stipple32 sqrtf image [⟨F32.fin 0, F32.fin 0⟩] x 0 = 0 := by
  have hxa : |x| < 2 ^ 24 := by rw [abs_of_nonneg hx0]; exact hx1
  have hox : F32.ofInt x = F32.fin x := round32_int x hxa
  have ho0 : F32.ofInt 0 = F32.fin 0 := by simpa using round32_int 0 (by norm_num)
  have hxq0 : (0 : ℚ) ≤ x := by exact_mod_cast hx0
  have hxq1 : (x : ℚ) ≤ 2 ^ 24 := by exact_mod_cast hx1.le
  obtain ⟨a, ha, ha0, ha1⟩ := round32_bound ((x : ℚ) * x) 48 (by norm_num)
    (by positivity) (by
      calc (x : ℚ) * x ≤ 2 ^ 24 * 2 ^ 24 := mul_le_mul hxq1 hxq1 hxq0 (by positivity)
        _ = (2 : ℚ) ^ (48 : ℤ) := by norm_num) (by norm_num)
  obtain ⟨a1, ha1e, ha10, ha11⟩ := round32_bound (a + 0) 48 (by norm_num)
    (by linarith) (by linarith) (by norm_num)
  obtain ⟨b, hb, hb0, hb1⟩ := hsq a1 ha10 ha11
  obtain ⟨c, hc, hc0, hc1⟩ := round32_bound (b * d) 72 (by norm_num)
    (by positivity) (by
      calc b * d ≤ b * 1 := mul_le_mul_of_nonneg_left hd1 hb0
        _ ≤ (2 : ℚ) ^ (72 : ℤ) := by linarith) (by norm_num)
  have hsubx : (F32.fin (x : ℚ)).sub (F32.fin 0) = F32.fin x := by
    show round32 ((x : ℚ) + -0) = _
    rw [neg_zero, add_zero]
    exact round32_int x hxa
  have hsub0 : (F32.fin 0).sub (F32.fin 0) = F32.fin 0 := by
    show round32 ((0 : ℚ) + -0) = _
    rw [neg_zero, add_zero]
    exact round32_zero
  have hmul0 : (F32.fin 0).mul (F32.fin 0) = F32.fin 0 := by
    show round32 ((0 : ℚ) * 0) = _
    rw [mul_zero]
    exact round32_zero
  have hdist : weighted_distance32 sqrtf image ⟨F32.ofInt x, F32.ofInt 0⟩
      ⟨F32.fin 0, F32.fin 0⟩ = F32.fin c := by
    unfold weighted_distance32 euclidean_distance32
    simp only [hox, ho0, hsubx, hsub0, hmul0]
    have hti : (F32.fin (x : ℚ)).toInt = x := toInt_intCast x
    have ht0 : (F32.fin 0).toInt = 0 := by simpa using toInt_intCast 0
    rw [hti, ht0, hd]
    have hm : (F32.fin (x : ℚ)).mul (F32.fin x) = F32.fin a := ha
    rw [hm]
    have had : (F32.fin a).add (F32.fin 0) = F32.fin a1 := ha1e
    rw [had, hb]
    exact hc
  have hlt : (F32.fin c).lt (F32.fin FLT_MAX) = true := by
    show decide (c < FLT_MAX) = true
    rw [decide_eq_true_eq]
    calc c ≤ (2 : ℚ) ^ (72 : ℤ) := hc1
      _ < FLT_MAX := by norm_num [FLT_MAX]
  unfold closest_stipple32
  simp only [closest_scan32, hdist, hlt, if_true]

theorem add32_zero_zero : (F32.fin 0).add (F32.fin 0) = F32.fin 0 := by
  show round32 ((0 : ℚ) + 0) = _
  rw [add_zero]
  exact round32_zero

theorem mul32_zero_right (a : ℚ) : (F32.fin a).mul (F32.fin 0) = F32.fin 0 := by
  show round32 (a * 0) = _
  rw [mul_zero]
  exact round32_zero

theorem mul32_zero_left (a : ℚ) : (F32.fin 0).mul (F32.fin a) = F32.fin 0 := by
  show round32 (0 * a) = _
  rw [zero_mul]
  exact round32_zero

/-- A pixel of density 0 in row 0 adds one to `pixelCount` of a cell whose sums
are 0 and leaves the sums at 0. -/
theorem accumulate32_zero (image : FloatImage32) (x : Int) (hx : |x| < 2 ^ 24)
    (hd : image.data (0 * image.width + x) = F32.fin 0) (n : Int) :
    accumulate32 image [⟨n, F32.fin 0, ⟨F32.fin 0, F32.fin 0⟩⟩] x 0 0 =
      some [⟨n + 1, F32.fin 0, ⟨F32.fin 0, F32.fin 0⟩⟩] := by
  have hox : F32.ofInt x = F32.fin x := round32_int x hx
  have ho0 : F32.ofInt 0 = F32.fin 0 := by simpa using round32_int 0 (by norm_num)
  unfold accumulate32
  simp only [lt_irrefl, if_false, Int.toNat_zero, List.getElem?_cons_zero, hd, hox, ho0,
    mul32_zero_right, add32_zero_zero, List.set_cons_zero]

/-- The loop over the first `n` pixels of a row of height 0 whose densities
are 0, with the one stipple `(0, 0)`. -/
theorem row32_zeros (sqrtf : F32 → F32)
    (hsq : ∀ a : ℚ, 0 ≤ a → a ≤ (2 : ℚ) ^ (48 : ℤ) →
      ∃ b, sqrtf (F32.fin a) = F32.fin b ∧ 0 ≤ b ∧ b ≤ (2 : ℚ) ^ (72 : ℤ))
    (image : FloatImage32) (g : Int) (n : Nat) (hn : (n : Int) ≤ 2 ^ 24)
    (hz : ∀ x : Int, 0 ≤ x → x < n → image.data (0 * image.width + x) = F32.fin 0) :
    (List.range n).foldlM
        (fun cs (x : Nat) =>
          accumulate32 image cs x ((0 : Nat) : Int)
            (closest_stipple32 sqrtf image [⟨F32.fin 0, F32.fin 0⟩] x ((0 : Nat) : Int)))
        [⟨g, F32.fin 0, ⟨F32.fin 0, F32.fin 0⟩⟩] =
      some [⟨g + n, F32.fin 0, ⟨F32.fin 0, F32.fin 0⟩⟩] := by
  induction n with
  | zero => simp
  | succ k ih =>
    have hk : (k : Int) < 2 ^ 24 := by push_cast at hn; omega
    rw [List.range_succ, List.foldlM_append, ih (by omega) (fun x h0 h1 => hz x h0 (by
      push_cast; omega))]
    have hd := hz k (by omega) (by push_cast; omega)
    have hc := closest32_origin sqrtf hsq image k (by omega) hk 0 hd (le_refl _) (by norm_num)
    simp only [Nat.cast_zero, List.foldlM_cons, List.foldlM_nil, Option.some_bind,
      Option.bind_eq_bind] at hc ⊢
    rw [hc, accumulate32_zero image k (by rw [abs_of_nonneg (by omega)]; exact hk) hd]
    simp only [Option.some_bind, Option.bind_eq_bind, Option.pure_def, Nat.cast_succ,
      Option.some.injEq, List.cons.injEq, VoronoiCell32.mk.injEq, and_true]
    ring

/-- The cells of a one-row image whose only non-zero density `d` is at the last
pixel `(n, 0)`, with the one stipple `(0, 0)`: `p` is the rounded product
`n * d`, and the centroid is the rounded quotient `p / d`. -/
theorem cells32_row (sqrtf : F32 → F32)
    (hsq : ∀ a : ℚ, 0 ≤ a → a ≤ (2 : ℚ) ^ (48 : ℤ) →
      ∃ b, sqrtf (F32.fin a) = F32.fin b ∧ 0 ≤ b ∧ b ≤ (2 : ℚ) ^ (72 : ℤ))
    (image : FloatImage32) (n : Nat) (hn : (n : Int) < 2 ^ 24)
    (hw : image.width = n + 1) (hh : image.height = 1)
    (hz : ∀ x : Int, 0 ≤ x → x < n → image.data (0 * image.width + x) = F32.fin 0)
    (d p : ℚ) (hd : image.data (0 * image.width + n) = F32.fin d) (hd0 : 0 < d)
    (hd1 : d ≤ 1) (hdr : round32 d = F32.fin d) (hp : round32 ((n : ℚ) * d) = F32.fin p)
    (hpp : round32 p = F32.fin p) (g : Nat → Int) :
    voronoi_cells32 sqrtf image [⟨F32.fin 0, F32.fin 0⟩] g =
      some [⟨g 0 + n + 1, F32.fin d, ⟨round32 (p / d), F32.fin 0⟩⟩] := by
  have hwn : image.width.toNat = n + 1 := by rw [hw]; omega
  have hhn : image.height.toNat = 1 := by rw [hh]; rfl
  have hna : |(n : Int)| < 2 ^ 24 := by rw [abs_of_nonneg (by omega)]; exact hn
  have hox : F32.ofInt n = F32.fin n := by
    have := round32_int n hna
    simpa [F32.ofInt] using this
  have ho0 : F32.ofInt 0 = F32.fin 0 := by simpa using round32_int 0 (by norm_num)
  have hc := closest32_origin sqrtf hsq image n (by omega) hn d hd hd0.le hd1
  have hpre := row32_zeros sqrtf hsq image (g 0) n hn.le hz
  have hmul : (F32.fin (n : ℚ)).mul (F32.fin d) = F32.fin p := hp
  have haddp : (F32.fin 0).add (F32.fin p) = F32.fin p := by
    show round32 ((0 : ℚ) + p) = _
    rw [zero_add]
    exact hpp
  have haddd : (F32.fin 0).add (F32.fin d) = F32.fin d := by
    show round32 ((0 : ℚ) + d) = _
    rw [zero_add]
    exact hdr
  have hlast : accumulate32 image [⟨g 0 + n, F32.fin 0, ⟨F32.fin 0, F32.fin 0⟩⟩] n 0 0 =
      some [⟨g 0 + n + 1, F32.fin d, ⟨F32.fin p, F32.fin 0⟩⟩] := by
    unfold accumulate32
    simp only [lt_irrefl, if_false, Int.toNat_zero, List.getElem?_cons_zero, hd, hox, ho0,
      hmul, haddp, haddd, mul32_zero_left, add32_zero_zero, List.set_cons_zero]
  have hrow : first_pass_row32 sqrtf image [⟨F32.fin 0, F32.fin 0⟩] 0
      [⟨g 0, F32.fin 0, ⟨F32.fin 0, F32.fin 0⟩⟩] =
      some [⟨g 0 + n + 1, F32.fin d, ⟨F32.fin p, F32.fin 0⟩⟩] := by
    unfold first_pass_row32
    rw [hwn, List.range_succ, List.foldlM_append, hpre]
    simp only [Nat.cast_zero, List.foldlM_cons, List.foldlM_nil, Option.some_bind,
      Option.bind_eq_bind] at hc ⊢
    rw [hc, hlast]
    rfl
  have hnorm : normalize_cell32 ⟨g 0 + n + 1, F32.fin d, ⟨F32.fin p, F32.fin 0⟩⟩ =
      ⟨g 0 + n + 1, F32.fin d, ⟨round32 (p / d), F32.fin 0⟩⟩ := by
    have hlt : (F32.fin 0).lt (F32.fin d) = true := by
      show decide ((0 : ℚ) < d) = true
      rw [decide_eq_true_eq]
      exact hd0
    have hdivp : (F32.fin p).div (F32.fin d) = round32 (p / d) := by
      show (if d = 0 then _ else round32 (p / d)) = _
      rw [if_neg hd0.ne']
    have hdiv0 : (F32.fin 0).div (F32.fin d) = F32.fin 0 := by
      show (if d = 0 then _ else round32 (0 / d)) = _
      rw [if_neg hd0.ne', zero_div]
      exact round32_zero
    unfold normalize_cell32
    simp only [hlt, if_true, hdivp, hdiv0]
  unfold voronoi_cells32 first_pass32
  rw [hhn]
  have hinit : init_cells32 g ([⟨F32.fin 0, F32.fin 0⟩] : List StipplePoint32).length =
      [⟨g 0, F32.fin 0, ⟨F32.fin 0, F32.fin 0⟩⟩] := rfl
  rw [hinit]
  have hr1 : List.range 1 = [0] := rfl
  rw [hr1]
  simp only [List.foldlM_cons, List.foldlM_nil, hrow, Option.some_bind, Option.bind_eq_bind,
    Option.pure_def, Option.map_some', List.map_cons, List.map_nil, hnorm]

theorem div32_fin (a b : ℚ) (hb : b ≠ 0) :
    (F32.fin a).div (F32.fin b) = round32 (a / b) := by
  show (if b = 0 then (if 0 < a then F32.pinf else if a < 0 then F32.ninf else F32.nan)
    else round32 (a / b)) = _
  rw [if_neg hb]

theorem loadImage_density_white : loadImage_density 255 = F32.fin 0 := by
  have h1 : F32.ofInt 1 = F32.fin 1 := by simpa using round32_int 1 (by norm_num)
  have h255 : F32.ofInt 255 = F32.fin 255 := by simpa using round32_int 255 (by norm_num)
  have hdiv : (F32.fin 255).div (F32.fin 255) = F32.fin 1 := by
    rw [div32_fin 255 255 (by norm_num), div_self (by norm_num)]
    simpa using round32_int 1 (by norm_num)
  have hsub : (F32.fin 1).sub (F32.fin 1) = F32.fin 0 := by
    show round32 ((1 : ℚ) + -1) = _
    rw [add_neg_cancel]
    exact round32_zero
  unfold loadImage_density
  rw [h1, h255, hdiv, hsub]

theorem loadImage_density_one : loadImage_density 1 = F32.fin (16711423 / 16777216) := by
  have h1 : F32.ofInt 1 = F32.fin 1 := by simpa using round32_int 1 (by norm_num)
  have hdiv : (F32.fin 1).div (F32.fin 255) = F32.fin (8421505 / 2147483648) := by
    rw [div32_fin 1 255 (by norm_num)]
    have h := round32_eq (1 / 255) (-8) 8421505 (by norm_num [abs_of_pos])
      (by norm_num [abs_of_pos]) (by norm_num) (by norm_num [abs_lt])
      (by norm_num [abs_of_pos])
    rw [h]
    norm_num
  have hsub : (F32.fin 1).sub (F32.fin (8421505 / 2147483648)) =
      F32.fin (16711423 / 16777216) := by
    show round32 ((1 : ℚ) + -(8421505 / 2147483648)) = _
    have h := round32_eq ((1 : ℚ) + -(8421505 / 2147483648)) (-1) 16711423
      (by norm_num [abs_of_pos]) (by norm_num [abs_of_pos]) (by norm_num)
      (by norm_num [abs_lt]) (by norm_num [abs_of_pos])
    rw [h]
    norm_num
  unfold loadImage_density
  rw [h1, hdiv, hsub]

theorem round32_density_row :
    round32 (16711423 / 16777216) = F32.fin (16711423 / 16777216) := by
  have h := round32_eq (16711423 / 16777216) (-1) 16711423 (by norm_num [abs_of_pos])
    (by norm_num [abs_of_pos]) (by norm_num) (by norm_num) (by norm_num [abs_of_pos])
  rw [h]
  norm_num

theorem round32_product_row :
    round32 (((8421758 : Nat) : ℚ) * (16711423 / 16777216)) = F32.fin 8388732 := by
  have h := round32_eq (((8421758 : Nat) : ℚ) * (16711423 / 16777216)) 23 8388732
    (by norm_num [abs_of_pos]) (by norm_num [abs_of_pos]) (by norm_num)
    (by norm_num [abs_lt]) (by norm_num [abs_of_pos])
  rw [h]
  norm_num

theorem round32_quotient_row :
    round32 (8388732 / (16711423 / 16777216)) = F32.fin 8421759 := by
  have h := round32_eq (8388732 / (16711423 / 16777216)) 23 8421759
    (by norm_num [abs_of_pos]) (by norm_num [abs_of_pos]) (by norm_num)
    (by norm_num [abs_lt]) (by norm_num [abs_of_pos])
  rw [h]
  norm_num

theorem image32_row_data (i : Int) :
    image32_row.data i = if i = 8421758 then F32.fin (16711423 / 16777216) else F32.fin 0 := by
  show (if i = 8421758 then loadImage_density 1 else loadImage_density 255) = _
  rw [loadImage_density_one, loadImage_density_white]

/-- The cells of `image32_row` with the one stipple `(0, 0)`: the centroid of
the one cell is `(8421759, 0)`. -/
theorem cells32_image_row (g : Nat → Int) :
    voronoi_cells32 sqrt32 image32_row [⟨F32.fin 0, F32.fin 0⟩] g =
      some [⟨g 0 + 8421759, F32.fin (16711423 / 16777216),
        ⟨F32.fin 8421759, F32.fin 0⟩⟩] := by
  have hwid : image32_row.width = 8421759 := rfl
  have hz : ∀ x : Int, 0 ≤ x → x < ((8421758 : Nat) : Int) →
      image32_row.data (0 * image32_row.width + x) = F32.fin 0 := by
    intro x h0 h1
    have hne : ¬ (0 * image32_row.width + x = 8421758) := by
      rw [hwid]
      push_cast at h1
      omega
    rw [image32_row_data, if_neg hne]
  have hd : image32_row.data (0 * image32_row.width + ((8421758 : Nat) : Int)) =
      F32.fin (16711423 / 16777216) := by
    have he : 0 * image32_row.width + ((8421758 : Nat) : Int) = 8421758 := by
      rw [hwid]
      norm_num
    rw [image32_row_data, if_pos he]
  have hw : image32_row.width = ((8421758 : Nat) : Int) + 1 := by
    rw [hwid]
    norm_num
  have hp9 : round32 (8388732 : ℚ) = F32.fin 8388732 := by
    simpa using round32_int 8388732 (by norm_num)
  have h := cells32_row sqrt32 sqrt32_bound image32_row 8421758 (by norm_num) hw rfl hz
    (16711423 / 16777216) 8388732 hd (by norm_num) (by norm_num) round32_density_row
    round32_product_row hp9 g
  rw [round32_quotient_row] at h
  rw [h]
  have hg : g 0 + ((8421758 : Nat) : Int) + 1 = g 0 + 8421759 := by
    push_cast
    ring
  rw [hg]

/-! ## Sums of non-negative floats -/

theorem round32_not_neg (q : ℚ) (h : 0 ≤ q) : (round32 q).lt (F32.fin 0) = false := by
  have hn : (0 : ℤ) ≤ round_even (q / ulp32 q) := by
    apply le_round_even
    push_cast
    exact div_nonneg h (ulp32_pos q).le
  have hr : (0 : ℚ) ≤ (round_even (q / ulp32 q) : ℚ) * ulp32 q :=
    mul_nonneg (by exact_mod_cast hn) (ulp32_pos q).le
  unfold round32
  simp only
  split
  · rfl
  · split
    · have : (0 : ℚ) < (2 : ℚ) ^ 128 := by positivity
      linarith
    · show decide (_ < (0 : ℚ)) = false
      rw [decide_eq_false_iff_not]
      exact not_lt.2 hr

theorem not_neg_cases (v : F32) (h : v.lt (F32.fin 0) = false) :
    (∃ a : ℚ, v = F32.fin a ∧ 0 ≤ a) ∨ v = F32.pinf ∨ v = F32.nan := by
  cases v with
  | fin a =>
    left
    refine ⟨a, rfl, ?_⟩
    have h1 : decide (a < 0) = false := h
    rw [decide_eq_false_iff_not] at h1
    exact not_lt.1 h1
  | pinf => right; left; rfl
  | ninf => cases h
  | nan => right; right; rfl

theorem add32_not_neg (a b : F32) (ha : a.lt (F32.fin 0) = false)
    (hb : b.lt (F32.fin 0) = false) : (a.add b).lt (F32.fin 0) = false := by
  rcases not_neg_cases a ha with ⟨x, rfl, hx⟩ | rfl | rfl <;>
    rcases not_neg_cases b hb with ⟨y, rfl, hy⟩ | rfl | rfl
  · exact round32_not_neg _ (add_nonneg hx hy)
  all_goals rfl

theorem mul32_not_neg (a b : F32) (ha : a.lt (F32.fin 0) = false)
    (hb : b.lt (F32.fin 0) = false) : (a.mul b).lt (F32.fin 0) = false := by
  rcases not_neg_cases a ha with ⟨x, rfl, hx⟩ | rfl | rfl <;>
    rcases not_neg_cases b hb with ⟨y, rfl, hy⟩ | rfl | rfl
  · exact round32_not_neg _ (mul_nonneg hx hy)
  · show (if 0 < x then F32.pinf else if x < 0 then F32.ninf else F32.nan).lt _ = false
    split
    · rfl
    · rw [if_neg (not_lt.2 hx)]
      rfl
  · rfl
  · show (if 0 < y then F32.pinf else if y < 0 then F32.ninf else F32.nan).lt _ = false
    split
    · rfl
    · rw [if_neg (not_lt.2 hy)]
      rfl
  all_goals rfl

theorem div32_not_neg (a b : F32) (ha : a.lt (F32.fin 0) = false)
    (hb : b.lt (F32.fin 0) = false) : (a.div b).lt (F32.fin 0) = false := by
  rcases not_neg_cases a ha with ⟨x, rfl, hx⟩ | rfl | rfl <;>
    rcases not_neg_cases b hb with ⟨y, rfl, hy⟩ | rfl | rfl
  · show (if y = 0 then (if 0 < x then F32.pinf else if x < 0 then F32.ninf else F32.nan)
      else round32 (x / y)).lt _ = false
    split
    · split
      · rfl
      · rw [if_neg (not_lt.2 hx)]
        rfl
    · exact round32_not_neg _ (div_nonneg hx hy)
  · show (F32.fin 0).lt (F32.fin 0) = false
    decide
  · rfl
  · show (if 0 ≤ y then F32.pinf else F32.ninf).lt _ = false
    rw [if_pos hy]
    rfl
  all_goals rfl

theorem ofInt_not_neg (n : Int) (h : 0 ≤ n) : (F32.ofInt n).lt (F32.fin 0) = false :=
  round32_not_neg _ (by exact_mod_cast h)

theorem accumulate32_not_neg (image : FloatImage32) (cells : List VoronoiCell32)
    (x y closest : Int) (hx : 0 ≤ x) (hy : 0 ≤ y)
    (hd : (image.data (y * image.width + x)).lt (F32.fin 0) = false)
    (h : cells_not_neg cells) (r : List VoronoiCell32)
    (hr : accumulate32 image cells x y closest = some r) : cells_not_neg r := by
  unfold accumulate32 at hr
  split at hr
  · cases hr
  · cases hget : cells[closest.toNat]? with
    | none => rw [hget] at hr; cases hr
    | some cell =>
      rw [hget] at hr
      simp only [Option.some.injEq] at hr
      subst hr
      have hcell := h cell (List.getElem?_mem hget)
      intro c hc
      rcases List.mem_or_eq_of_mem_set hc with hc | rfl
      · exact h c hc
      · exact ⟨add32_not_neg _ _ hcell.1 hd,
          add32_not_neg _ _ hcell.2.1 (mul32_not_neg _ _ (ofInt_not_neg x hx) hd),
          add32_not_neg _ _ hcell.2.2 (mul32_not_neg _ _ (ofInt_not_neg y hy) hd)⟩

theorem normalize32_not_neg (c : VoronoiCell32)
    (h : c.sumDensity.lt (F32.fin 0) = false ∧
      c.centroid.x.lt (F32.fin 0) = false ∧ c.centroid.y.lt (F32.fin 0) = false) :
    (normalize_cell32 c).centroid.x.lt (F32.fin 0) = false ∧
      (normalize_cell32 c).centroid.y.lt (F32.fin 0) = false := by
  unfold normalize_cell32
  split
  · exact ⟨div32_not_neg _ _ h.2.1 h.1, div32_not_neg _ _ h.2.2 h.1⟩
  · exact h.2

/-- In the cells that the pass returns for an image without negative
densities, no centroid coordinate compares below zero. -/
theorem voronoi_cells32_not_neg (sqrtf : F32 → F32) (image : FloatImage32)
    (stipples : List StipplePoint32) (garbage : Nat → Int)
    (hdens : ∀ x y : Int, 0 ≤ x → x < image.width → 0 ≤ y → y < image.height →
      (image.data (y * image.width + x)).lt (F32.fin 0) = false)
    (cells : List VoronoiCell32)
    (h : voronoi_cells32 sqrtf image stipples garbage = some cells) :
    ∀ c ∈ cells, c.centroid.x.lt (F32.fin 0) = false ∧ c.centroid.y.lt (F32.fin 0) = false := by
  unfold voronoi_cells32 at h
  cases hf : first_pass32 sqrtf image stipples (init_cells32 garbage stipples.length) with
  | none => rw [hf] at h; cases h
  | some cs =>
    rw [hf] at h
    simp only [Option.map_some', Option.some.injEq] at h
    subst h
    have hinit : cells_not_neg (init_cells32 garbage stipples.length) := by
      intro c hc
      simp only [init_cells32, List.mem_map, List.mem_range] at hc
      obtain ⟨i, _, rfl⟩ := hc
      have h0 : (F32.fin 0).lt (F32.fin 0) = false := by decide
      exact ⟨h0, h0, h0⟩
    have hcs : cells_not_neg cs := by
      unfold first_pass32 at hf
      refine foldlM_invariant cells_not_neg _ _ _ hinit ?_ cs hf
      intro s y s1 hy hs hrow
      unfold first_pass_row32 at hrow
      refine foldlM_invariant cells_not_neg _ _ _ hs ?_ s1 hrow
      intro t x t1 hx ht hacc
      rw [List.mem_range] at hx hy
      exact accumulate32_not_neg image t x y _ (by omega) (by omega)
        (hdens x y (by omega) (by omega) (by omega) (by omega)) ht t1 hacc
    intro c hc
    rw [List.mem_map] at hc
    obtain ⟨c0, hc0, rfl⟩ := hc
    exact normalize32_not_neg c0 (hcs c0 hc0)

/-! ## A stipple whose distance overflows -/

theorem round32_two_pow_64 :
    round32 18446744073709551616 = F32.fin 18446744073709551616 := by
  have h := round32_eq 18446744073709551616 64 8388608 (by norm_num [abs_of_pos])
    (by norm_num [abs_of_pos]) (by norm_num) (by norm_num) (by norm_num [abs_of_pos])
  rw [h]
  norm_num

theorem round32_neg_two_pow_64 :
    round32 (0 + -18446744073709551616) = F32.fin (-18446744073709551616) := by
  have h := round32_eq ((0 : ℚ) + -18446744073709551616) 64 (-8388608)
    (by norm_num [abs_of_neg]) (by norm_num [abs_of_neg]) (by norm_num) (by norm_num)
    (by norm_num [abs_of_neg])
  rw [h]
  norm_num

theorem round32_FLT_MAX : round32 FLT_MAX = F32.fin FLT_MAX := by
  have h := round32_eq FLT_MAX 127 16777215 (by norm_num [FLT_MAX, abs_of_pos])
    (by norm_num [FLT_MAX, abs_of_pos]) (by norm_num) (by norm_num [FLT_MAX])
    (by norm_num [abs_of_pos])
  rw [h]
  norm_num [FLT_MAX]

theorem round32_neg_FLT_MAX : round32 (0 + -FLT_MAX) = F32.fin (-FLT_MAX) := by
  have h := round32_eq ((0 : ℚ) + -FLT_MAX) 127 (-16777215)
    (by norm_num [FLT_MAX, abs_of_neg]) (by norm_num [FLT_MAX, abs_of_neg]) (by norm_num)
    (by norm_num [FLT_MAX]) (by norm_num [abs_of_neg])
  rw [h]
  norm_num [FLT_MAX]

/-- The weighted distance of the pixel `(0, 0)` of density 1 to a stipple
`(s, 0)` with `s * s >= 2^128` is `+inf`: the square overflows. -/
theorem wd32_overflow (sqrtf : F32 → F32) (hsq : sqrtf F32.pinf = F32.pinf) (s : ℚ)
    (hsub : round32 (0 + -s) = F32.fin (-s)) (hs : (2 : ℚ) ^ 128 ≤ s * s) :
    weighted_distance32 sqrtf image32_1x1 ⟨F32.ofInt 0, F32.ofInt 0⟩
      ⟨F32.fin s, F32.fin 0⟩ = F32.pinf := by
  have ho0 : F32.ofInt 0 = F32.fin 0 := by simpa using round32_int 0 (by norm_num)
  have hsub0 : (F32.fin 0).sub (F32.fin 0) = F32.fin 0 := by
    show round32 ((0 : ℚ) + -0) = _
    rw [neg_zero, add_zero]
    exact round32_zero
  have hsubs : (F32.fin 0).sub (F32.fin s) = F32.fin (-s) := hsub
  have hmul : (F32.fin (-s)).mul (F32.fin (-s)) = F32.pinf := by
    show round32 (-s * -s) = _
    exact round32_overflow _ (by rw [neg_mul_neg]; exact hs)
  unfold weighted_distance32 euclidean_distance32
  simp only [ho0, hsubs, hmul, hsub0, mul32_zero_right]
  have hadd : F32.pinf.add (F32.fin 0) = F32.pinf := rfl
  rw [hadd, hsq]
  show F32.pinf.mul (F32.fin 1) = F32.pinf
  show (if (0 : ℚ) < 1 then F32.pinf else if (1 : ℚ) < 0 then F32.ninf else F32.nan) = _
  rw [if_pos (by norm_num)]

theorem closest32_overflow (sqrtf : F32 → F32) (hsq : sqrtf F32.pinf = F32.pinf) (s : ℚ)
    (hsub : round32 (0 + -s) = F32.fin (-s)) (hs : (2 : ℚ) ^ 128 ≤ s * s) :
    closest_stipple32 sqrtf image32_1x1 [⟨F32.fin s, F32.fin 0⟩] 0 0 = -1 := by
  have hlt : F32.pinf.lt (F32.fin FLT_MAX) = false := rfl
  unfold closest_stipple32
  simp only [closest_scan32, wd32_overflow sqrtf hsq s hsub hs, hlt, Bool.false_eq_true,
    if_false]

theorem voronoi_cells32_overflow (sqrtf : F32 → F32) (hsq : sqrtf F32.pinf = F32.pinf)
    (s : ℚ) (hsub : round32 (0 + -s) = F32.fin (-s)) (hs : (2 : ℚ) ^ 128 ≤ s * s)
    (garbage : Nat → Int) :
    voronoi_cells32 sqrtf image32_1x1 [⟨F32.fin s, F32.fin 0⟩] garbage = none := by
  have hw : image32_1x1.width.toNat = 1 := rfl
  have hh : image32_1x1.height.toNat = 1 := rfl
  have hr1 : List.range 1 = [0] := rfl
  have hacc : ∀ cells : List VoronoiCell32, accumulate32 image32_1x1 cells 0 0 (-1) = none := by
    intro cells
    unfold accumulate32
    rw [if_pos (by norm_num)]
  unfold voronoi_cells32 first_pass32 first_pass_row32
  rw [hw, hh, hr1]
  simp only [List.foldlM_cons, List.foldlM_nil, Nat.cast_zero,
    closest32_overflow sqrtf hsq s hsub hs, hacc, Option.bind_eq_bind, Option.none_bind,
    Option.map_none']

theorem closest32_far : closest_stipple32 sqrt32 image32_1x1 stipples32_far 0 0 = -1 :=
  closest32_overflow sqrt32 rfl 18446744073709551616 round32_neg_two_pow_64 (by norm_num)

theorem voronoi_cells32_far (garbage : Nat → Int) :
    voronoi_cells32 sqrt32 image32_1x1 stipples32_far garbage = none :=
  voronoi_cells32_overflow sqrt32 rfl 18446744073709551616 round32_neg_two_pow_64
    (by norm_num) garbage

theorem closest32_FLT_MAX :
    closest_stipple32 sqrt32 image32_1x1 [⟨F32.fin FLT_MAX, F32.fin 0⟩] 0 0 = -1 :=
  closest32_overflow sqrt32 rfl FLT_MAX round32_neg_FLT_MAX (by norm_num [FLT_MAX])

theorem voronoi_cells32_FLT_MAX (garbage : Nat → Int) :
    voronoi_cells32 sqrt32 image32_1x1 [⟨F32.fin FLT_MAX, F32.fin 0⟩] garbage = none :=
  voronoi_cells32_overflow sqrt32 rfl FLT_MAX round32_neg_FLT_MAX (by norm_num [FLT_MAX])
    garbage

/-! ## The claims -/

/-- C1.  The 2x2 image with rows `[0, 0]`, `[1, 1]` and the stipples `(0, 0)`,
`(0, 1)`, on a `cells` block that `malloc` returns with the content 3 in each
`pixelCount`: width and height are positive, the list is not empty and every
pixel gets an index in `[0, 2)`, as the claim says, but the `pixelCount` fields
of the two returned cells are 5 and 5 and add up to 10, not to `2 * 2`. -/
theorem C1_pixelCount_sum_on_used_heap :
    0 < image_2x2.width ∧ 0 < image_2x2.height ∧ stipples_2x2 ≠ [] ∧
    (∀ p ∈ pixel_list image_2x2,
      0 ≤ closest_stipple sqrtQ image_2x2 stipples_2x2 p.1 p.2 ∧
      closest_stipple sqrtQ image_2x2 stipples_2x2 p.1 p.2 < stipples_2x2.length) ∧
    ∃ vd, compute_voronoi_with_edges sqrtQ image_2x2 stipples_2x2 (fun _ => 3) = some vd ∧
      vd.cells.map VoronoiCell.pixelCount = [5, 5] ∧
      (vd.cells.map VoronoiCell.pixelCount).sum = 10 ∧
      image_2x2.width * image_2x2.height = 4 := by
  obtain ⟨c00, c10, c01, c11⟩ := closest_2x2 sqrtQ sqrtQ_zero sqrtQ_one sqrtQ_two
  obtain ⟨vd, hvd, hcells⟩ := compute_of_cells sqrtQ image_2x2 stipples_2x2 (fun _ => 3) _
    (cells_2x2 sqrtQ sqrtQ_zero sqrtQ_one sqrtQ_two (fun _ => 3))
  have hpl : pixel_list image_2x2 = [(0, 0), (1, 0), (0, 1), (1, 1)] := by decide
  have hlen : (stipples_2x2.length : Int) = 2 := rfl
  refine ⟨by decide, by decide, by simp [stipples_2x2], ?_, vd, hvd, ?_, ?_, by decide⟩
  · intro p hp
    rw [hpl] at hp
    rw [hlen]
    simp only [List.mem_cons, List.mem_singleton, List.not_mem_nil, or_false] at hp
    rcases hp with rfl | rfl | rfl | rfl
    · rw [c00]; exact ⟨by decide, by decide⟩
    · rw [c10]; exact ⟨by decide, by decide⟩
    · rw [c01]; exact ⟨by decide, by decide⟩
    · rw [c11]; exact ⟨by decide, by decide⟩
  · rw [hcells]
    rfl
  · rw [hcells]
    rfl


/-- C2, counterexample.  In binary32, the image that `loadImage` builds from a
picture of width 8421759 and height 1 whose pixels are white but for the last
one, of value 1, with the stipple `(0, 0)`: every density is a float in
`[0, 1]`, the one cell has `sumDensity > 0`, and its centroid is
`(8421759, 0)`, because the product `8421758 * density` rounds up to 8388732
and the quotient by `sumDensity` rounds up to 8421759.  So `centroid.x < width`
is false. -/
theorem C2_counterexample_centroid_at_width :
    image32_row.width = 8421759 ∧ image32_row.height = 1 ∧
    (∀ i : Int, image32_row.data i =
      if i = 8421758 then F32.fin (16711423 / 16777216) else F32.fin 0) ∧
    (∀ i : Int, ∃ d : ℚ, image32_row.data i = F32.fin d ∧ round32 d = F32.fin d ∧
      0 ≤ d ∧ d ≤ 1) ∧
    ∃ vd, compute_voronoi_with_edges32 sqrt32 image32_row [⟨F32.fin 0, F32.fin 0⟩]
        (fun _ => 0) = some vd ∧
      vd.cells = [⟨8421759, F32.fin (16711423 / 16777216),
        ⟨F32.fin 8421759, F32.fin 0⟩⟩] ∧
      (F32.fin 0).lt (F32.fin (16711423 / 16777216)) = true ∧
      (F32.fin 8421759).lt (F32.ofInt image32_row.width) = false := by
  obtain ⟨vd, hvd, hcells⟩ := compute32_of_cells sqrt32 image32_row
    [⟨F32.fin 0, F32.fin 0⟩] (fun _ => 0) _ (cells32_image_row (fun _ => 0))
  have hw : F32.ofInt image32_row.width = F32.fin 8421759 := by
    have h := round32_int 8421759 (by norm_num)
    have hwid : image32_row.width = 8421759 := rfl
    rw [hwid]
    simpa [F32.ofInt] using h
  refine ⟨rfl, rfl, image32_row_data, ?_, vd, hvd, ?_, ?_, ?_⟩
  · intro i
    rw [image32_row_data]
    by_cases hi : i = 8421758
    · rw [if_pos hi]
      exact ⟨16711423 / 16777216, rfl, round32_density_row, by norm_num, by norm_num⟩
    · rw [if_neg hi]
      exact ⟨0, rfl, round32_zero, le_refl _, by norm_num⟩
  · rw [hcells]
    simp
  · show decide ((0 : ℚ) < 16711423 / 16777216) = true
    rw [decide_eq_true_eq]
    norm_num
  · rw [hw]
    show decide ((8421759 : ℚ) < 8421759) = false
    rw [decide_eq_false_iff_not]
    norm_num

/-- C2, as amended.  In binary32, for an image whose densities are floats in
`[0, 1]` and every stipple list: in every cell of a diagram returned by
`compute_voronoi_with_edges` whose `sumDensity` is positive, the comparisons
`centroid.x < 0` and `centroid.y < 0` are false. -/
theorem C2_centroid_not_negative (sqrtf : F32 → F32) (image : FloatImage32)
    (stipples : List StipplePoint32) (garbage : Nat → Int)
    (hdens : ∀ x y : Int, 0 ≤ x → x < image.width → 0 ≤ y → y < image.height →
      ∃ d : ℚ, image.data (y * image.width + x) = F32.fin d ∧ 0 ≤ d ∧ d ≤ 1)
    (vd : VoronoiDiagram32)
    (hvd : compute_voronoi_with_edges32 sqrtf image stipples garbage = some vd) :
    ∀ c ∈ vd.cells, (F32.fin 0).lt c.sumDensity = true →
      c.centroid.x.lt (F32.fin 0) = false ∧ c.centroid.y.lt (F32.fin 0) = false := by
  intro c hc _
  have hcells := cells_of_compute32 sqrtf image stipples garbage vd hvd
  refine voronoi_cells32_not_neg sqrtf image stipples garbage ?_ vd.cells hcells c hc
  intro x y hx0 hx1 hy0 hy1
  obtain ⟨d, hd, hd0, _⟩ := hdens x y hx0 hx1 hy0 hy1
  rw [hd]
  show decide (d < 0) = false
  rw [decide_eq_false_iff_not]
  exact not_lt.2 hd0

/-- C2, witness: the image of width 8421759 and height 1 with the stipple
`(0, 0)`, whose one cell has `sumDensity > 0` and the centroid
`(8421759, 0)`. -/
theorem C2_centroid_not_negative_witness :
    (∀ x y : Int, 0 ≤ x → x < image32_row.width → 0 ≤ y → y < image32_row.height →
      ∃ d : ℚ, image32_row.data (y * image32_row.width + x) = F32.fin d ∧ 0 ≤ d ∧ d ≤ 1) ∧
    ∃ vd, compute_voronoi_with_edges32 sqrt32 image32_row [⟨F32.fin 0, F32.fin 0⟩]
        (fun _ => 0) = some vd ∧
      (∃ c ∈ vd.cells, (F32.fin 0).lt c.sumDensity = true) ∧
      ∀ c ∈ vd.cells, (F32.fin 0).lt c.sumDensity = true →
        c.centroid.x.lt (F32.fin 0) = false ∧ c.centroid.y.lt (F32.fin 0) = false := by
  have hdens : ∀ x y : Int, 0 ≤ x → x < image32_row.width → 0 ≤ y →
      y < image32_row.height →
      ∃ d : ℚ, image32_row.data (y * image32_row.width + x) = F32.fin d ∧ 0 ≤ d ∧ d ≤ 1 := by
    intro x y _ _ _ _
    rw [image32_row_data]
    by_cases hi : y * image32_row.width + x = 8421758
    · rw [if_pos hi]
      exact ⟨16711423 / 16777216, rfl, by norm_num, by norm_num⟩
    · rw [if_neg hi]
      exact ⟨0, rfl, le_refl _, by norm_num⟩
  obtain ⟨vd, hvd, hcells⟩ := compute32_of_cells sqrt32 image32_row
    [⟨F32.fin 0, F32.fin 0⟩] (fun _ => 0) _ (cells32_image_row (fun _ => 0))
  refine ⟨hdens, vd, hvd, ?_, ?_⟩
  · rw [hcells]
    refine ⟨_, List.mem_singleton_self _, ?_⟩
    show decide ((0 : ℚ) < 16711423 / 16777216) = true
    rw [decide_eq_true_eq]
    norm_num
  · exact C2_centroid_not_negative sqrt32 image32_row [⟨F32.fin 0, F32.fin 0⟩] (fun _ => 0)
      hdens vd hvd


/-- C3, counterexample.  The 1x1 image with a black pixel and the stipple
`(0, 0)`: the only cell has mass 1, below 1000, and the iteration with both
thresholds at 1000 drops it: the new list is empty, `changed` is 1, and the
loop does not return after one iteration. -/
theorem C3_counterexample_cell_dropped :
    (∃ vd, compute_voronoi_with_edges sqrtQ image_1x1 [⟨0, 0⟩] (fun _ => 0) = some vd ∧
      ∀ c ∈ vd.cells, c.sumDensity < 1000) ∧
    LBG_iteration sqrtQ 1000 1000 image_1x1 [⟨0, 0⟩] (fun _ => 0) = some ([], 1) ∧
    ¬ ∃ (fuel : Nat) (S : StippleList),
      LBG_loop sqrtQ 1000 1000 image_1x1 (fun _ _ => 0) fuel [⟨0, 0⟩] 0 = some (S, 1) := by
  have hcells := cells_1x1 sqrtQ sqrtQ_zero (fun _ => 0)
  have hit : LBG_iteration sqrtQ 1000 1000 image_1x1 [⟨0, 0⟩] (fun _ => 0) = some ([], 1) := by
    rw [LBG_iteration_eq, hcells]
    simp [LBG_policy]
  refine ⟨?_, hit, ?_⟩
  · obtain ⟨vd, hvd, hc⟩ := compute_of_cells sqrtQ image_1x1 [⟨0, 0⟩] (fun _ => 0) _ hcells
    refine ⟨vd, hvd, ?_⟩
    rw [hc]
    intro c hcm
    rw [List.mem_singleton] at hcm
    subst hcm
    norm_num
  · rintro ⟨fuel, S, hS⟩
    exact LBG_loop_not_after_one sqrtQ 1000 1000 image_1x1 (fun _ _ => 0) [⟨0, 0⟩] [] 1 hit
      (by norm_num) fuel S hS

/-- C3, as amended.  Let `compute_voronoi_with_edges` return the diagram `vd` in
the first iteration.  If every cell mass is below 1000 then, with both thresholds
at 1000, the iteration drops every cell: the new list is empty, `changed` is the
number of cells, and for a non-empty list the loop does not return after one
iteration.  If instead every cell mass `m` has `Tl <= m <= Tu`, the iteration
keeps every cell (the new list is the list of centroids), `changed` is 0 and the
loop returns after exactly one iteration. -/
theorem C3_equal_thresholds_drop_every_cell (sqrtf : ℚ → ℚ) (image : FloatImage)
    (stipples : StippleList) (garbage : Nat → Nat → Int) (vd : VoronoiDiagram)
    (hvd : compute_voronoi_with_edges sqrtf image stipples (garbage 0) = some vd) :
    ((∀ c ∈ vd.cells, c.sumDensity < 1000) →
      LBG_iteration sqrtf 1000 1000 image stipples (garbage 0) =
        some ([], (stipples.length : Int)) ∧
      (stipples ≠ [] → ∀ (fuel : Nat) (S : StippleList),
        LBG_loop sqrtf 1000 1000 image garbage fuel stipples 0 ≠ some (S, 1))) ∧
    ∀ Tl Tu : ℚ, (∀ c ∈ vd.cells, Tl ≤ c.sumDensity ∧ c.sumDensity ≤ Tu) →
      LBG_iteration sqrtf Tl Tu image stipples (garbage 0) =
        some (vd.cells.map VoronoiCell.centroid, 0) ∧
      ∀ fuel : Nat, LBG_loop sqrtf Tl Tu image garbage (fuel + 1) stipples 0 =
        some (vd.cells.map VoronoiCell.centroid, 1) := by
  have hcells := cells_of_compute sqrtf image stipples (garbage 0) vd hvd
  have hlen := (voronoi_cells_spec sqrtf image stipples (garbage 0) vd.cells hcells).1
  constructor
  · intro hlow
    have hit : LBG_iteration sqrtf 1000 1000 image stipples (garbage 0) =
        some ([], (stipples.length : Int)) := by
      rw [LBG_iteration_eq, hcells]
      simp only [Option.map_some']
      rw [LBG_policy_all_dropped 1000 1000 vd.cells hlow, hlen]
      simp
    refine ⟨hit, fun hne => ?_⟩
    have hpos : (stipples.length : Int) > 0 := by
      have := List.length_pos.2 hne
      omega
    exact LBG_loop_not_after_one sqrtf 1000 1000 image garbage stipples [] _ hit hpos
  · intro Tl Tu hmid
    have hit : LBG_iteration sqrtf Tl Tu image stipples (garbage 0) =
        some (vd.cells.map VoronoiCell.centroid, 0) := by
      rw [LBG_iteration_eq, hcells]
      simp only [Option.map_some']
      rw [LBG_policy_all_kept Tl Tu vd.cells hmid]
      simp
    exact ⟨hit, fun fuel => LBG_loop_stop sqrtf Tl Tu image garbage fuel stipples _ 0 hit⟩

/-- C3, witness: the 1x1 image with a black pixel and the stipple `(0, 0)`, whose
cell has mass 1; it is dropped with thresholds 1000 and 1000, and kept with
thresholds 0 and 1000. -/
theorem C3_equal_thresholds_drop_every_cell_witness :
    ∃ vd, compute_voronoi_with_edges sqrtQ image_1x1 [⟨0, 0⟩] (fun _ => 0) = some vd ∧
      (∀ c ∈ vd.cells, c.sumDensity < 1000) ∧
      (∀ c ∈ vd.cells, (0 : ℚ) ≤ c.sumDensity ∧ c.sumDensity ≤ 1000) ∧
      LBG_iteration sqrtQ 1000 1000 image_1x1 [⟨0, 0⟩] (fun _ => 0) = some ([], 1) ∧
      LBG_iteration sqrtQ 0 1000 image_1x1 [⟨0, 0⟩] (fun _ => 0) = some ([⟨0, 0⟩], 0) ∧
      LBG_loop sqrtQ 0 1000 image_1x1 (fun _ _ => 0) 1 [⟨0, 0⟩] 0 = some ([⟨0, 0⟩], 1) := by
  obtain ⟨vd, hvd, hc⟩ := compute_of_cells sqrtQ image_1x1 [⟨0, 0⟩] (fun _ => 0) _
    (cells_1x1 sqrtQ sqrtQ_zero (fun _ => 0))
  have hlow : ∀ c ∈ vd.cells, c.sumDensity < 1000 := by
    rw [hc]; intro c hcm; rw [List.mem_singleton] at hcm; subst hcm; norm_num
  have hmid : ∀ c ∈ vd.cells, (0 : ℚ) ≤ c.sumDensity ∧ c.sumDensity ≤ 1000 := by
    rw [hc]; intro c hcm; rw [List.mem_singleton] at hcm; subst hcm; norm_num
  have h := C3_equal_thresholds_drop_every_cell sqrtQ image_1x1 [⟨0, 0⟩] (fun _ _ => 0) vd hvd
  have hA := (h.1 hlow).1
  have hB := h.2 0 1000 hmid
  rw [hc] at hB
  exact ⟨vd, hvd, hlow, hmid, hA, hB.1, hB.2 0⟩

/-- C4, counterexample.  The 4x1 image with the row `[3/4, 1/4, 1/4, 1/4]`, the
stipples `(0, 0)`, `(1, 0)` and the thresholds 5/8 and 7/8.  The first iteration
changes nothing (both cells have mass 3/4) and moves the stipples to `(0, 0)`,
`(2, 0)`; on these, pixel 1 goes over to stipple 0, the masses become 1 and 1/2,
and the second iteration splits one cell and drops the other: `changed == 2`. -/
theorem C4_counterexample_converged_then_changes :
    LBG_iteration sqrtQ (5 / 8) (7 / 8) image_4x1 [⟨0, 0⟩, ⟨1, 0⟩] (fun _ => 0) =
      some ([⟨0, 0⟩, ⟨2, 0⟩], 0) ∧
    LBG_iteration sqrtQ (5 / 8) (7 / 8) image_4x1 [⟨0, 0⟩, ⟨2, 0⟩] (fun _ => 0) =
      some ([⟨13 / 50, 0⟩, ⟨6 / 25, 0⟩], 2) := by
  constructor
  · rw [LBG_iteration_eq,
      cells_4x1_first sqrtQ sqrtQ_zero sqrtQ_one sqrtQ_four sqrtQ_nine (fun _ => 0)]
    simp only [Option.map_some']
    rw [LBG_policy_all_kept (5 / 8) (7 / 8) _ (by
      intro c hc
      simp only [List.mem_cons, List.mem_singleton, List.not_mem_nil, or_false] at hc
      rcases hc with rfl | rfl <;> norm_num)]
    rfl
  · rw [LBG_iteration_eq,
      cells_4x1_second sqrtQ sqrtQ_zero sqrtQ_one sqrtQ_four sqrtQ_nine (fun _ => 0)]
    simp only [Option.map_some']
    rw [LBG_policy_split (5 / 8) (7 / 8) _ _ _ _ (by norm_num) (by norm_num),
      LBG_policy_dropped (5 / 8) (7 / 8) _ _ _ _ (by norm_num)]
    simp only [LBG_policy, splitCell, List.nil_append]
    norm_num

/-- C4, as amended.  If one iteration on `S` yields zero changes and the list
`T`, then `T` has as many stipples as `S`: it is the list of the centroids of the
cells, all of which have a mass in `[Tl, Tu]`.  A further iteration on `T` yields
zero changes again whenever `T` gives every pixel to the same index as `S` did. -/
theorem C4_zero_changes_when_partition_unchanged (sqrtf : ℚ → ℚ) (Tl Tu : ℚ)
    (image : FloatImage) (S T : StippleList) (g g1 : Nat → Int)
    (h : LBG_iteration sqrtf Tl Tu image S g = some (T, 0)) :
    T.length = S.length ∧
    (∃ vd, compute_voronoi_with_edges sqrtf image S g = some vd ∧
      T = vd.cells.map VoronoiCell.centroid ∧
      ∀ c ∈ vd.cells, Tl ≤ c.sumDensity ∧ c.sumDensity ≤ Tu) ∧
    ((∀ x y : Int, 0 ≤ x → x < image.width → 0 ≤ y → y < image.height →
        closest_stipple sqrtf image T x y = closest_stipple sqrtf image S x y) →
      ∃ U, LBG_iteration sqrtf Tl Tu image T g1 = some (U, 0)) := by
  rw [LBG_iteration_eq] at h
  cases hc : voronoi_cells sqrtf image S g with
  | none => rw [hc] at h; cases h
  | some cells =>
    rw [hc] at h
    simp only [Option.map_some', Option.some.injEq] at h
    have hkept := LBG_policy_unchanged Tl Tu cells [] 0 (by rw [h])
    rw [LBG_policy_all_kept Tl Tu cells hkept] at h
    have hT : T = cells.map VoronoiCell.centroid := by
      have := congrArg Prod.fst h
      simpa using this.symm
    obtain ⟨hlen, hrange, hget⟩ := voronoi_cells_spec sqrtf image S g cells hc
    have hTlen : T.length = S.length := by rw [hT, List.length_map, hlen]
    obtain ⟨vd, hvd, hvc⟩ := compute_of_cells sqrtf image S g cells hc
    refine ⟨hTlen, ⟨vd, hvd, by rw [hvc]; exact hT, by rw [hvc]; exact hkept⟩, ?_⟩
    intro hsame
    have hsame1 : ∀ p ∈ pixel_list image,
        closest_stipple sqrtf image T p.1 p.2 = closest_stipple sqrtf image S p.1 p.2 := by
      intro p hp
      rw [mem_pixel_list] at hp
      exact hsame p.1 p.2 hp.1.1 hp.1.2 hp.2.1 hp.2.2
    have hrangeT : ∀ p ∈ pixel_list image,
        0 ≤ closest_stipple sqrtf image T p.1 p.2 ∧
          closest_stipple sqrtf image T p.1 p.2 < T.length := by
      intro p hp
      rw [hsame1 p hp, hTlen]
      exact hrange p hp
    obtain ⟨cellsT, hcT⟩ := voronoi_cells_total sqrtf image T g1 hrangeT
    obtain ⟨hlenT, _, hgetT⟩ := voronoi_cells_spec sqrtf image T g1 cellsT hcT
    have hkeptT : ∀ c ∈ cellsT, Tl ≤ c.sumDensity ∧ c.sumDensity ≤ Tu := by
      intro c hcm
      obtain ⟨i, hi, hci⟩ := List.getElem_of_mem hcm
      obtain ⟨c1, hc1, _, hm1, _, _⟩ := hgetT i (by omega)
      rw [List.getElem?_eq_getElem hi, hci] at hc1
      cases hc1
      obtain ⟨c2, hc2, _, hm2, _, _⟩ := hget i (by omega)
      rw [hm1, assigned_congr sqrtf image S T i hsame1, ← hm2]
      exact hkept c2 (List.getElem?_mem hc2)
    refine ⟨cellsT.map VoronoiCell.centroid, ?_⟩
    rw [LBG_iteration_eq, hcT]
    simp only [Option.map_some']
    rw [LBG_policy_all_kept Tl Tu cellsT hkeptT]
    rfl

/-- C4, witness: the 2x2 example with the thresholds 0 and 2.  The iteration
changes nothing and moves the stipples to `(0, 0)`, `(1/2, 1)`, which give every
pixel to the same index as before. -/
theorem C4_zero_changes_when_partition_unchanged_witness :
    LBG_iteration sqrtQ 0 2 image_2x2 stipples_2x2 (fun _ => 0) =
      some ([⟨0, 0⟩, ⟨1 / 2, 1⟩], 0) ∧
    (∀ x y : Int, 0 ≤ x → x < image_2x2.width → 0 ≤ y → y < image_2x2.height →
      closest_stipple sqrtQ image_2x2 [⟨0, 0⟩, ⟨1 / 2, 1⟩] x y =
        closest_stipple sqrtQ image_2x2 stipples_2x2 x y) ∧
    ∃ U, LBG_iteration sqrtQ 0 2 image_2x2 [⟨0, 0⟩, ⟨1 / 2, 1⟩] (fun _ => 0) =
      some (U, 0) := by
  have h1 : LBG_iteration sqrtQ 0 2 image_2x2 stipples_2x2 (fun _ => 0) =
      some ([⟨0, 0⟩, ⟨1 / 2, 1⟩], 0) := by
    rw [LBG_iteration_eq, cells_2x2 sqrtQ sqrtQ_zero sqrtQ_one sqrtQ_two (fun _ => 0)]
    simp only [Option.map_some']
    rw [LBG_policy_all_kept 0 2 _ (by
      intro c hc
      simp only [List.mem_cons, List.mem_singleton, List.not_mem_nil, or_false] at hc
      rcases hc with rfl | rfl <;> norm_num)]
    rfl
  have hsame := same_closest_2x2 sqrtQ sqrtQ_zero sqrtQ_quarter sqrtQ_one sqrtQ_two
  exact ⟨h1, hsame,
    (C4_zero_changes_when_partition_unchanged sqrtQ 0 2 image_2x2 stipples_2x2
      [⟨0, 0⟩, ⟨1 / 2, 1⟩] (fun _ => 0) (fun _ => 0) h1).2.2 hsame⟩

/-- C5.  One run of the policy loop over the cells produces
`#kept + 2 * #split` stipples, where `#dropped + #split + #kept` is the number of
cells: strictly more than the number of cells when none is dropped and one at
least is split, strictly fewer when none is split and one at least is dropped. -/
theorem C5_site_count_after_policy (Tl Tu : ℚ) (cells : List VoronoiCell) :
    (LBG_policy Tl Tu cells (createEmptyStippleList, 0)).1.length =
      n_kept Tl Tu cells + 2 * n_split Tl Tu cells ∧
    cells.length = n_dropped Tl cells + n_split Tl Tu cells + n_kept Tl Tu cells ∧
    (n_dropped Tl cells = 0 → 0 < n_split Tl Tu cells →
      cells.length < (LBG_policy Tl Tu cells (createEmptyStippleList, 0)).1.length) ∧
    (n_split Tl Tu cells = 0 → 0 < n_dropped Tl cells →
      (LBG_policy Tl Tu cells (createEmptyStippleList, 0)).1.length < cells.length) := by
  have h1 := (LBG_policy_counts Tl Tu cells createEmptyStippleList 0).1
  have h2 := counts_total Tl Tu cells
  simp only [createEmptyStippleList, List.length_nil, zero_add] at h1
  simp only [createEmptyStippleList]
  refine ⟨h1, h2, ?_, ?_⟩
  · intro hd hs; omega
  · intro hs hd; omega

/-- C5, witness: cells of mass 5 and 2.  With thresholds 1 and 3 the first is
split and the second kept (3 stipples from 2 cells); with thresholds 3 and 10 the
first is kept and the second dropped (1 stipple from 2 cells). -/
theorem C5_site_count_after_policy_witness :
    (n_dropped 1 cells_5_2 = 0 ∧ 0 < n_split 1 3 cells_5_2 ∧
      cells_5_2.length < (LBG_policy 1 3 cells_5_2 (createEmptyStippleList, 0)).1.length) ∧
    (n_split 3 10 cells_5_2 = 0 ∧ 0 < n_dropped 3 cells_5_2 ∧
      (LBG_policy 3 10 cells_5_2 (createEmptyStippleList, 0)).1.length < cells_5_2.length) := by
  have a1 : n_dropped 1 cells_5_2 = 0 := by
    simp only [n_dropped, cells_5_2, List.filter_cons]; norm_num
  have a2 : 0 < n_split 1 3 cells_5_2 := by
    simp only [n_split, cells_5_2, List.filter_cons]; norm_num
  have b1 : n_split 3 10 cells_5_2 = 0 := by
    simp only [n_split, cells_5_2, List.filter_cons]; norm_num
  have b2 : 0 < n_dropped 3 cells_5_2 := by
    simp only [n_dropped, cells_5_2, List.filter_cons]; norm_num
  exact ⟨⟨a1, a2, (C5_site_count_after_policy 1 3 cells_5_2).2.2.1 a1 a2⟩,
    b1, b2, (C5_site_count_after_policy 3 10 cells_5_2).2.2.2 b1 b2⟩

/-- C6.  For every mask, every start pixel inside `[0, width) x [0, height)` and
every `paths`, `max_paths` and `max_path_length`: `trace_edge_path` returns
whenever `max_path_length >= 1`, and it either leaves `paths` as it is and
returns 0, or appends one path and returns 1.  The appended path has
`length >= 5` points, any two consecutive ones are 8-neighbours, and every point
is a pixel position inside `[0, width) x [0, height)`. -/
theorem C6_stored_path_shape (edge_map : Int → Int → Bool) (x y width height : Int)
    (paths : List VoronoiEdge) (max_paths max_path_length : Int)
    (hx : 0 ≤ x ∧ x < width) (hy : 0 ≤ y ∧ y < height) :
    (1 ≤ max_path_length →
      (trace_edge_path edge_map x y width height paths max_paths max_path_length).isSome) ∧
    ∀ r, trace_edge_path edge_map x y width height paths max_paths max_path_length = some r →
      (r.2.1 = paths ∧ r.2.2 = 0) ∨
      ∃ e : VoronoiEdge, r.2.1 = paths ++ [e] ∧ r.2.2 = 1 ∧
        5 ≤ e.length ∧ (e.points.length : Int) = e.length ∧
        List.Chain' neighbour8 e.points ∧
        ∀ p ∈ e.points, in_image width height p := by
  refine ⟨trace_edge_path_isSome edge_map x y width height paths max_paths max_path_length, ?_⟩
  intro r hr
  rw [trace_edge_path] at hr
  split at hr
  · cases hr
    left
    exact ⟨rfl, rfl⟩
  · split at hr
    · cases hr
    · have hinv0 : trace_inv width height
          { edge_map := mask_set edge_map y x false
            path := [⟨x, y⟩]
            length := 1
            current_x := x
            current_y := y
            last_dx := 0
            last_dy := 0 } := by
        refine ⟨rfl, rfl, List.chain'_singleton _, ?_⟩
        intro p hp
        rw [List.mem_singleton] at hp
        exact ⟨x, y, hp, hx, hy⟩
      have hinv := trace_loop_inv width height max_path_length (max_path_length - 1).toNat _ hinv0
      obtain ⟨_, hlen, hchain, hin⟩ := hinv
      simp only at hr
      split at hr
      · rename_i h5
        cases hr
        right
        exact ⟨_, rfl, rfl, h5, hlen, hchain, hin⟩
      · cases hr
        left
        exact ⟨rfl, rfl⟩

/-- C6, witness: a mask of width 6 and height 1 with every pixel set, traced
from `(0, 0)` with the arguments of the call in `compute_voronoi_with_edges`;
the path of all 6 pixels is stored. -/
theorem C6_stored_path_shape_witness :
    ((0 : Int) ≤ 0 ∧ (0 : Int) < 6) ∧ ((0 : Int) ≤ 0 ∧ (0 : Int) < 1) ∧
    (trace_edge_path mask_row6 0 0 6 1 [] 100000 100000).map (fun r => (r.2.1, r.2.2)) =
      some ([⟨[⟨0, 0⟩, ⟨1, 0⟩, ⟨2, 0⟩, ⟨3, 0⟩, ⟨4, 0⟩, ⟨5, 0⟩], 6⟩], 1) ∧
    ∀ r, trace_edge_path mask_row6 0 0 6 1 [] 100000 100000 = some r →
      (r.2.1 = [] ∧ r.2.2 = 0) ∨
      ∃ e : VoronoiEdge, r.2.1 = [] ++ [e] ∧ r.2.2 = 1 ∧
        5 ≤ e.length ∧ (e.points.length : Int) = e.length ∧
        List.Chain' neighbour8 e.points ∧
        ∀ p ∈ e.points, in_image 6 1 p :=
  ⟨by decide, by decide, by decide,
    (C6_stored_path_shape mask_row6 0 0 6 1 [] 100000 100000 (by decide) (by decide)).2⟩

/-- C7.  The 2x2 image with rows `[0, 0]`, `[1, 1]` and the stipples `(0, 0)`,
`(0, 1)`, on a `cells` block that `malloc` returns with the content 5 in each
`pixelCount`: pixels `(0,0)`, `(1,0)` go to stipple 0 and `(0,1)`, `(1,1)` to
stipple 1, as the claim says, but each cell ends with `pixelCount == 7`, not 2. -/
theorem C7_pixelCount_on_used_heap :
    closest_stipple sqrtQ image_2x2 stipples_2x2 0 0 = 0 ∧
    closest_stipple sqrtQ image_2x2 stipples_2x2 1 0 = 0 ∧
    closest_stipple sqrtQ image_2x2 stipples_2x2 0 1 = 1 ∧
    closest_stipple sqrtQ image_2x2 stipples_2x2 1 1 = 1 ∧
    ∃ vd, compute_voronoi_with_edges sqrtQ image_2x2 stipples_2x2 (fun _ => 5) = some vd ∧
      vd.cells = [⟨7, 0, ⟨0, 0⟩⟩, ⟨7, 2, ⟨1 / 2, 1⟩⟩] :=
  have hc := closest_2x2 sqrtQ sqrtQ_zero sqrtQ_one sqrtQ_two
  ⟨hc.1, hc.2.1, hc.2.2.1, hc.2.2.2,
    compute_of_cells sqrtQ image_2x2 stipples_2x2 (fun _ => 5) _
      (cells_2x2 sqrtQ sqrtQ_zero sqrtQ_one sqrtQ_two (fun _ => 5))⟩

/-- C8.  The uniform 10x10 image of density 0.5 with the single stipple `(0, 0)`,
on a `cells` block that `malloc` returns with the content 7 in `pixelCount`: the
one cell has `sumDensity == 50` and centroid `(4.5, 4.5)`, as the claim says, but
`pixelCount == 107`, not 100. -/
theorem C8_pixelCount_on_used_heap :
    ∃ vd, compute_voronoi_with_edges sqrtQ image_10x10 [⟨0, 0⟩] (fun _ => 7) = some vd ∧
      vd.cells = [⟨107, 50, ⟨9 / 2, 9 / 2⟩⟩] :=
  compute_of_cells sqrtQ image_10x10 [⟨0, 0⟩] (fun _ => 7) _
    (cells_10x10_origin sqrtQ sqrtQ_le (fun _ => 7))

/-- C9.  In binary32, a 1x1 image whose pixel has density 1 and the one stipple
`(2^64, 0)`: the list is not empty and index 0 is its only index, hence the
smallest index of least weighted distance, yet the scan ends with
`closest_stipple == -1`, which is no index of the list, because the square
`2^128` overflows to `+inf` and `+inf < FLT_MAX` is false; the pass then
accumulates the pixel into `cells[-1]`. -/
theorem C9_far_stipple_not_chosen :
    stipples32_far ≠ [] ∧ stipples32_far.length = 1 ∧
    round32 18446744073709551616 = F32.fin 18446744073709551616 ∧
    closest_stipple32 sqrt32 image32_1x1 stipples32_far 0 0 = -1 ∧
    (¬ ∃ k : Nat, k < stipples32_far.length ∧
      closest_stipple32 sqrt32 image32_1x1 stipples32_far 0 0 = k) ∧
    compute_voronoi_with_edges32 sqrt32 image32_1x1 stipples32_far (fun _ => 0) = none :=
  ⟨by simp [stipples32_far], rfl, round32_two_pow_64, closest32_far, by
    rw [closest32_far]
    rintro ⟨k, _, hk⟩
    omega,
   compute32_none_of_cells _ _ _ _ (voronoi_cells32_far _)⟩


/-- C10.  The 1x1 image with a black pixel and the single stipple `(0, 0)`, on a
`cells` block that `malloc` returns with the content 7 in `pixelCount`: one
pixel is assigned to stipple 0 and `sumDensity == 1`, but `pixelCount == 8`. -/
theorem C10_pixelCount_on_used_heap :
    (assigned sqrtQ image_1x1 [⟨0, 0⟩] 0).length = 1 ∧
    ∃ vd, compute_voronoi_with_edges sqrtQ image_1x1 [⟨0, 0⟩] (fun _ => 7) = some vd ∧
      vd.cells = [⟨8, 1, ⟨0, 0⟩⟩] :=
  ⟨by
    rw [assigned_single sqrtQ image_1x1 ⟨0, 0⟩ (near_1x1_origin sqrtQ sqrtQ_zero),
      pixel_list_1x1]
    rfl,
   compute_of_cells sqrtQ image_1x1 [⟨0, 0⟩] (fun _ => 7) _
    (cells_1x1 sqrtQ sqrtQ_zero (fun _ => 7))⟩


/-- C12.  In an iteration whose call of `compute_voronoi_with_edges` returns
`vd`, `changed` is the number of dropped cells plus the number of split cells;
it is 0 exactly when every cell has `Tl <= sumDensity <= Tu`; and the loop
returns after this iteration exactly when `changed` is 0, going on with the new
list otherwise. -/
theorem C12_change_count_and_stop (sqrtf : ℚ → ℚ) (Tl Tu : ℚ) (image : FloatImage)
    (stipples : StippleList) (garbage : Nat → Nat → Int) (iter : Nat) (vd : VoronoiDiagram)
    (hvd : compute_voronoi_with_edges sqrtf image stipples (garbage iter) = some vd) :
    ∃ (new : StippleList) (changed : Int),
      LBG_iteration sqrtf Tl Tu image stipples (garbage iter) = some (new, changed) ∧
      changed = n_dropped Tl vd.cells + n_split Tl Tu vd.cells ∧
      (changed = 0 ↔ ∀ c ∈ vd.cells, Tl ≤ c.sumDensity ∧ c.sumDensity ≤ Tu) ∧
      ∀ fuel : Nat,
        (changed = 0 →
          LBG_loop sqrtf Tl Tu image garbage (fuel + 1) stipples iter = some (new, iter + 1)) ∧
        (changed ≠ 0 →
          LBG_loop sqrtf Tl Tu image garbage (fuel + 1) stipples iter =
            LBG_loop sqrtf Tl Tu image garbage fuel new (iter + 1)) ∧
        ((∃ S, LBG_loop sqrtf Tl Tu image garbage (fuel + 1) stipples iter =
            some (S, iter + 1)) ↔ changed = 0) := by
  have hcells := cells_of_compute sqrtf image stipples (garbage iter) vd hvd
  have hit : LBG_iteration sqrtf Tl Tu image stipples (garbage iter) =
      some (LBG_policy Tl Tu vd.cells ([], 0)) := by
    rw [LBG_iteration_eq, hcells]
    rfl
  have hcount := (LBG_policy_counts Tl Tu vd.cells [] 0).2
  rw [zero_add] at hcount
  have hnn : 0 ≤ (LBG_policy Tl Tu vd.cells ([], 0)).2 := by rw [hcount]; omega
  have hzero : (LBG_policy Tl Tu vd.cells ([], 0)).2 = 0 ↔
      ∀ c ∈ vd.cells, Tl ≤ c.sumDensity ∧ c.sumDensity ≤ Tu := by
    constructor
    · intro h0
      exact LBG_policy_unchanged Tl Tu vd.cells [] 0 h0
    · intro hall
      rw [LBG_policy_all_kept Tl Tu vd.cells hall]
  have hstop : ∀ fuel : Nat, (LBG_policy Tl Tu vd.cells ([], 0)).2 = 0 →
      LBG_loop sqrtf Tl Tu image garbage (fuel + 1) stipples iter =
        some ((LBG_policy Tl Tu vd.cells ([], 0)).1, iter + 1) := by
    intro fuel h0
    apply LBG_loop_stop
    rw [hit]
    congr 1
    exact Prod.ext rfl h0
  have hgo : ∀ fuel : Nat, (LBG_policy Tl Tu vd.cells ([], 0)).2 ≠ 0 →
      LBG_loop sqrtf Tl Tu image garbage (fuel + 1) stipples iter =
        LBG_loop sqrtf Tl Tu image garbage fuel (LBG_policy Tl Tu vd.cells ([], 0)).1
          (iter + 1) := by
    intro fuel hne
    exact LBG_loop_continue sqrtf Tl Tu image garbage fuel stipples _ iter _ hit
      (lt_of_le_of_ne hnn (Ne.symm hne))
  refine ⟨(LBG_policy Tl Tu vd.cells ([], 0)).1, (LBG_policy Tl Tu vd.cells ([], 0)).2,
    hit, hcount, hzero, fun fuel => ⟨hstop fuel, hgo fuel, ?_⟩⟩
  constructor
  · rintro ⟨S, hS⟩
    by_contra hne
    rw [hgo fuel hne] at hS
    have := LBG_loop_iter_lt sqrtf Tl Tu image garbage fuel _ (iter + 1) (S, iter + 1) hS
    simp at this
  · intro h0
    exact ⟨_, hstop fuel h0⟩

/-- C12, witness: the 1x1 image with a black pixel and the stipple `(0, 0)` with
the thresholds 0 and 1000, where the only cell is kept. -/
theorem C12_change_count_and_stop_witness :
    ∃ vd, compute_voronoi_with_edges sqrtQ image_1x1 [⟨0, 0⟩] (fun _ => 0) = some vd ∧
      ∃ (new : StippleList) (changed : Int),
        LBG_iteration sqrtQ 0 1000 image_1x1 [⟨0, 0⟩] (fun _ => 0) = some (new, changed) ∧
        changed = n_dropped 0 vd.cells + n_split 0 1000 vd.cells ∧
        (changed = 0 ↔ ∀ c ∈ vd.cells, (0 : ℚ) ≤ c.sumDensity ∧ c.sumDensity ≤ 1000) ∧
        ∀ fuel : Nat,
          (changed = 0 →
            LBG_loop sqrtQ 0 1000 image_1x1 (fun _ _ => 0) (fuel + 1) [⟨0, 0⟩] 0 =
              some (new, 0 + 1)) ∧
          (changed ≠ 0 →
            LBG_loop sqrtQ 0 1000 image_1x1 (fun _ _ => 0) (fuel + 1) [⟨0, 0⟩] 0 =
              LBG_loop sqrtQ 0 1000 image_1x1 (fun _ _ => 0) fuel new (0 + 1)) ∧
          ((∃ S, LBG_loop sqrtQ 0 1000 image_1x1 (fun _ _ => 0) (fuel + 1) [⟨0, 0⟩] 0 =
              some (S, 0 + 1)) ↔ changed = 0) := by
  obtain ⟨vd, hvd, _⟩ := compute_of_cells sqrtQ image_1x1 [⟨0, 0⟩] (fun _ => 0) _
    (cells_1x1 sqrtQ sqrtQ_zero (fun _ => 0))
  exact ⟨vd, hvd,
    C12_change_count_and_stop sqrtQ 0 1000 image_1x1 [⟨0, 0⟩] (fun _ _ => 0) 0 vd hvd⟩



/-- C13, counterexample.  An image of width 0 and height 3.  With an empty
stipple list, and with the one stipple `(0, 0)`, `compute_voronoi_with_edges`
returns a diagram (with no cell, and with one zero cell), not an error. -/
theorem C13_counterexample_diagram_for_invalid_input :
    image_0x3.width ≤ 0 ∧
    compute_voronoi_with_edges sqrtQ image_0x3 [] (fun _ => 0) =
      some { cells := [], count := 0, edges := [], edgeCount := 0 } ∧
    compute_voronoi_with_edges sqrtQ image_0x3 [⟨0, 0⟩] (fun _ => 0) =
      some { cells := [⟨0, 0, ⟨0, 0⟩⟩], count := 1, edges := [], edgeCount := 0 } :=
  ⟨by decide,
   compute_no_pixels sqrtQ image_0x3 [] (fun _ => 0) (Or.inl (by decide)),
   compute_no_pixels sqrtQ image_0x3 [⟨0, 0⟩] (fun _ => 0) (Or.inl (by decide))⟩

/-- C13, as amended.  `compute_voronoi_with_edges` does not check its input.
When the width or the height of the image is not positive it returns a diagram
with one cell per stipple, of mass 0 and centroid `(0, 0)`, and with no path;
for an empty list the diagram has no cell. -/
theorem C13_no_input_validation (sqrtf : ℚ → ℚ) (image : FloatImage)
    (stipples : StippleList) (garbage : Nat → Int)
    (hdim : image.width ≤ 0 ∨ image.height ≤ 0) :
    ∃ vd, compute_voronoi_with_edges sqrtf image stipples garbage = some vd ∧
      vd.count = stipples.length ∧ vd.cells.length = stipples.length ∧
      (∀ c ∈ vd.cells, c.sumDensity = 0 ∧ c.centroid = ⟨0, 0⟩) ∧
      vd.edges = [] ∧ vd.edgeCount = 0 ∧
      (stipples = [] → vd.cells = []) := by
  refine ⟨_, compute_no_pixels sqrtf image stipples garbage hdim, rfl, ?_, ?_, rfl, rfl, ?_⟩
  · exact length_init_cells garbage stipples.length
  · intro c hc
    simp only [init_cells, List.mem_map, List.mem_range] at hc
    obtain ⟨i, _, rfl⟩ := hc
    exact ⟨rfl, rfl⟩
  · intro he
    rw [he]
    rfl

/-- C13, witness: the image of width 0 and height 3 with the stipple `(0, 0)`. -/
theorem C13_no_input_validation_witness :
    (image_0x3.width ≤ 0 ∨ image_0x3.height ≤ 0) ∧
    ∃ vd, compute_voronoi_with_edges sqrtQ image_0x3 [⟨0, 0⟩] (fun _ => 0) = some vd ∧
      vd.count = ([⟨0, 0⟩] : StippleList).length ∧
      vd.cells.length = ([⟨0, 0⟩] : StippleList).length ∧
      (∀ c ∈ vd.cells, c.sumDensity = 0 ∧ c.centroid = ⟨0, 0⟩) ∧
      vd.edges = [] ∧ vd.edgeCount = 0 ∧
      (([⟨0, 0⟩] : StippleList) = [] → vd.cells = []) :=
  ⟨Or.inl (by decide),
   C13_no_input_validation sqrtQ image_0x3 [⟨0, 0⟩] (fun _ => 0) (Or.inl (by decide))⟩



/-- C14.  `is_voronoi_edge(x, y)`, which scans the stipples again for the pixel
and for each neighbour, returns true exactly when `(x, y)` is a boundary pixel of
the assignment map of the partition pass, the map that gives every pixel the
index `closest_stipple` its scan ends with. -/
theorem C14_edge_test_matches_assignment_map (sqrtf : ℚ → ℚ) (image : FloatImage)
    (stipples : StippleList) (x y : Int) :
    is_voronoi_edge sqrtf x y image stipples = true ↔
      boundary_in_map (fun px py => closest_stipple sqrtf image stipples px py)
        image.width image.height x y := by
  unfold is_voronoi_edge boundary_in_map
  simp only [List.any_eq_true, List.mem_range]
  constructor
  · rintro ⟨d, hd, hcond⟩
    obtain ⟨hx3, hy3, hne⟩ := dir_step d hd
    by_cases hout : x + dx.getD d 0 < 0 ∨ x + dx.getD d 0 ≥ image.width ∨
        y + dy.getD d 0 < 0 ∨ y + dy.getD d 0 ≥ image.height
    · rw [if_pos hout] at hcond
      cases hcond
    · rw [if_neg hout] at hcond
      refine ⟨x + dx.getD d 0, y + dy.getD d 0, ⟨?_, ?_, ?_⟩, ?_, ?_, ?_⟩
      · rw [abs_le]; omega
      · rw [abs_le]; omega
      · omega
      · omega
      · omega
      · simpa using hcond
  · rintro ⟨nx, ny, ⟨hax, hay, hne⟩, hx, hy, hdiff⟩
    rw [abs_le] at hax hay
    obtain ⟨d, hd, hdx, hdy⟩ := dir_of_offset (nx - x) (ny - y) (by omega) (by omega)
      (by omega)
    refine ⟨d, hd, ?_⟩
    have hnx : x + dx.getD d 0 = nx := by omega
    have hny : y + dy.getD d 0 = ny := by omega
    rw [hnx, hny]
    rw [if_neg (by omega)]
    simpa using hdiff



/-- C15, counterexample.  In the mask with `(1, 2)`, `(1, 1)`, `(1, 0)`, `(0, 0)`
set, a trace from `(1, 2)` first moves north to `(1, 1)`.  There the neighbours
to the north, `(1, 0)`, and to the north-west, `(0, 0)`, are both set and have the
same dot product 1 with the last move; the code takes direction 0, the
north-west one, although north comes first in the order N, NE, E, SE, S, SW, W,
NW. -/
theorem C15_counterexample_north_west_before_north :
    (trace_loop 2 3 100000 1 (trace_start mask_turn 1 2)).current_x = 1 ∧
    (trace_loop 2 3 100000 1 (trace_start mask_turn 1 2)).current_y = 1 ∧
    (trace_loop 2 3 100000 1 (trace_start mask_turn 1 2)).last_dx = 0 ∧
    (trace_loop 2 3 100000 1 (trace_start mask_turn 1 2)).last_dy = -1 ∧
    (trace_loop 2 3 100000 1 (trace_start mask_turn 1 2)).length = 2 ∧
    (best_dir_scan 2 3 (trace_loop 2 3 100000 1 (trace_start mask_turn 1 2))).2 = 0 ∧
    (dx.getD 0 0 = -1 ∧ dy.getD 0 0 = -1) ∧ (dx.getD 1 0 = 0 ∧ dy.getD 1 0 = -1) ∧
    (trace_loop 2 3 100000 1 (trace_start mask_turn 1 2)).edge_map (1 + -1) (1 + 0) = true ∧
    step_score (trace_loop 2 3 100000 1 (trace_start mask_turn 1 2)) 1 =
      step_score (trace_loop 2 3 100000 1 (trace_start mask_turn 1 2)) 0 ∧
    (trace_loop 2 3 100000 99999 (trace_start mask_turn 1 2)).path =
      [⟨1, 2⟩, ⟨1, 1⟩, ⟨0, 0⟩] := by
  refine ⟨by decide, by decide, by decide, by decide, by decide, by decide,
    by decide, by decide, by decide, by decide, by decide⟩

/-- C15, as amended.  At an extension step after the first (`length > 1`, below
`max_path_length`) at which the direction `d` is found, the loop moves to the
neighbour in direction `d`.  That neighbour is inside the mask and still set; its
direction has the largest dot product with the last move among such neighbours;
and every such neighbour earlier in the enumeration has a strictly smaller dot
product, the enumeration being NW, N, NE, W, E, SW, S, SE. -/
theorem C15_next_pixel_first_of_greatest_dot (width height max_path_length : Int)
    (fuel : Nat) (s : TraceState) (hlen : s.length > 1)
    (hroom : s.length < max_path_length) (d : Nat)
    (hd : (best_dir_scan width height s).2 = (d : Int)) :
    d < 8 ∧
    trace_loop width height max_path_length (fuel + 1) s =
      trace_loop width height max_path_length fuel (trace_step s d) ∧
    (trace_step s d).current_x = s.current_x + dx.getD d 0 ∧
    (trace_step s d).current_y = s.current_y + dy.getD d 0 ∧
    candidate width height s d ∧
    (∀ e : Nat, e < 8 → candidate width height s e →
      dx.getD e 0 * s.last_dx + dy.getD e 0 * s.last_dy ≤
        dx.getD d 0 * s.last_dx + dy.getD d 0 * s.last_dy) ∧
    (∀ e : Nat, e < d → candidate width height s e →
      dx.getD e 0 * s.last_dx + dy.getD e 0 * s.last_dy <
        dx.getD d 0 * s.last_dx + dy.getD d 0 * s.last_dy) ∧
    List.zip dx dy =
      [(-1, -1), (0, -1), (1, -1), (-1, 0), (1, 0), (-1, 1), (0, 1), (1, 1)] := by
  have hscore : ∀ e : Nat, step_score s e =
      dx.getD e 0 * s.last_dx + dy.getD e 0 * s.last_dy := by
    intro e
    rw [step_score, if_pos hlen]
  have hstep : trace_loop width height max_path_length (fuel + 1) s =
      trace_loop width height max_path_length fuel (trace_step s d) := by
    rw [trace_loop, if_pos hroom]
    simp only
    rw [if_neg (by rw [hd]; omega), hd]
  rcases best_dir_scan_max width height s with ⟨hm, _⟩ | ⟨d1, hd1, heq, hc, _, hmax, hfirst⟩
  · rw [hd] at hm
    omega
  · have hdd : d1 = d := by
      rw [hd] at heq
      omega
    subst hdd
    refine ⟨hd1, hstep, ?_, ?_, hc, ?_, ?_, by decide⟩
    · simp [trace_step]
    · simp [trace_step]
    · intro e he hce
      have := hmax e he hce
      rw [hscore, hscore] at this
      exact this
    · intro e he hce
      have := hfirst e he hce
      rw [hscore, hscore] at this
      exact this

/-- C15, witness: the second step of the trace from `(1, 2)` in the mask with
`(1, 2)`, `(1, 1)`, `(1, 0)`, `(0, 0)` set, where direction 0 is found. -/
theorem C15_next_pixel_first_of_greatest_dot_witness :
    ((trace_loop 2 3 100000 1 (trace_start mask_turn 1 2)).length > 1 ∧
      (trace_loop 2 3 100000 1 (trace_start mask_turn 1 2)).length < 100000 ∧
      (best_dir_scan 2 3 (trace_loop 2 3 100000 1 (trace_start mask_turn 1 2))).2 =
        ((0 : Nat) : Int)) ∧
    candidate 2 3 (trace_loop 2 3 100000 1 (trace_start mask_turn 1 2)) 0 ∧
    (trace_step (trace_loop 2 3 100000 1 (trace_start mask_turn 1 2)) (0 : Nat)).current_x =
      (trace_loop 2 3 100000 1 (trace_start mask_turn 1 2)).current_x + dx.getD 0 0 :=
  have h := C15_next_pixel_first_of_greatest_dot 2 3 100000 0
    (trace_loop 2 3 100000 1 (trace_start mask_turn 1 2)) (by decide) (by decide) 0
    (by decide)
  ⟨⟨by decide, by decide, by decide⟩, h.2.2.2.2.1, h.2.2.1⟩

/-- C16.  The mask of width 2 and height 2 with `(0, 0)`, `(1, 0)` and `(0, 1)`
set, traced from `(0, 0)`: the trace moves east to `(1, 0)` and stops there with
length 2, far below `max_path_length`, although the neighbour `(0, 1)` to the
south-west (direction 5) is inside the mask and still set: its dot product with
the last move is -1, which is not above the initial `best_score`, -1.  The path
is then discarded and `(0, 1)` stays set in the mask. -/
theorem C16_trace_stops_beside_active_neighbour :
    (trace_loop 2 2 100000 99999 (trace_start mask_corner 0 0)).path = [⟨0, 0⟩, ⟨1, 0⟩] ∧
    (trace_loop 2 2 100000 99999 (trace_start mask_corner 0 0)).length = 2 ∧
    (best_dir_scan 2 2 (trace_loop 2 2 100000 99999 (trace_start mask_corner 0 0))).2 = -1 ∧
    (trace_loop 2 2 100000 99999 (trace_start mask_corner 0 0)).current_x + dx.getD 5 0 = 0 ∧
    (trace_loop 2 2 100000 99999 (trace_start mask_corner 0 0)).current_y + dy.getD 5 0 = 1 ∧
    (trace_loop 2 2 100000 99999 (trace_start mask_corner 0 0)).edge_map 1 0 = true ∧
    step_score (trace_loop 2 2 100000 99999 (trace_start mask_corner 0 0)) 5 = -1 ∧
    (trace_edge_path mask_corner 0 0 2 2 [] 100000 100000).map
      (fun r => (r.1 1 0, r.2.1, r.2.2)) = some (true, [], 0) := by
  refine ⟨by decide, by decide, by decide, by decide, by decide, by decide, by decide,
    by decide⟩



/-- C17.  For every mask `edge_map` and every `width`, `height`, the row-major
tracing scan returns, and in the paths it stored no point occurs twice within
one path, no point occurs in two paths, and every point is a pixel position
inside `[0, width) x [0, height)` that was set in `edge_map` before the scan.
The same holds of the `edges` of every diagram that
`compute_voronoi_with_edges` returns, whose points are pixels for which
`is_voronoi_edge` is true. -/
theorem C17_traced_paths_disjoint (sqrtf : ℚ → ℚ) (image : FloatImage)
    (stipples : StippleList) (garbage : Nat → Int)
    (width height : Int) (edge_map : Int → Int → Bool) :
    (∃ r, trace_all width height edge_map = some r ∧
      (∀ e ∈ r.2, e.points.Nodup) ∧
      List.Pairwise (fun e1 e2 => List.Disjoint e1.points e2.points) r.2 ∧
      (r.2.flatMap VoronoiEdge.points).Nodup ∧
      ∀ e ∈ r.2, ∀ p ∈ e.points, ∃ x y : Int, p = ⟨x, y⟩ ∧
        (0 ≤ x ∧ x < width) ∧ (0 ≤ y ∧ y < height) ∧ edge_map y x = true) ∧
    ∀ vd, compute_voronoi_with_edges sqrtf image stipples garbage = some vd →
      (∀ e ∈ vd.edges, e.points.Nodup) ∧
      List.Pairwise (fun e1 e2 => List.Disjoint e1.points e2.points) vd.edges ∧
      (vd.edges.flatMap VoronoiEdge.points).Nodup ∧
      ∀ e ∈ vd.edges, ∀ p ∈ e.points, ∃ x y : Int, p = ⟨x, y⟩ ∧
        (0 ≤ x ∧ x < image.width) ∧ (0 ≤ y ∧ y < image.height) ∧
        (mark_edges sqrtf image stipples).1 y x = true ∧
        is_voronoi_edge sqrtf x y image stipples = true := by
  constructor
  · have hsome := trace_all_isSome width height edge_map
    obtain ⟨r, hr⟩ := Option.isSome_iff_exists.1 hsome
    exact ⟨r, hr, scan_inv_paths edge_map width height r
      (trace_all_inv width height edge_map r hr)⟩
  · intro vd hvd
    obtain ⟨⟨m, hm⟩, _⟩ := compute_edges sqrtf image stipples garbage vd hvd
    obtain ⟨h1, h2, h3, h4⟩ := scan_inv_paths _ image.width image.height _
      (trace_all_inv image.width image.height _ _ hm)
    refine ⟨h1, h2, h3, ?_⟩
    intro e he p hp
    obtain ⟨x, y, hxy, hx, hy, hmask⟩ := h4 e he p hp
    exact ⟨x, y, hxy, hx, hy, hmask,
      (((mark_edges_spec sqrtf image stipples).1 y x).1 hmask).2⟩

/-- C17, witness: the mask of width 6 and height 1 with every pixel set, whose
scan stores the one path of all 6 pixels, and the diagram of the 1x1 image with
the stipple `(0, 0)`. -/
theorem C17_traced_paths_disjoint_witness :
    (trace_all 6 1 mask_row6).map (fun r => r.2) =
      some [⟨[⟨0, 0⟩, ⟨1, 0⟩, ⟨2, 0⟩, ⟨3, 0⟩, ⟨4, 0⟩, ⟨5, 0⟩], 6⟩] ∧
    (∃ r, trace_all 6 1 mask_row6 = some r ∧
      (∀ e ∈ r.2, e.points.Nodup) ∧
      List.Pairwise (fun e1 e2 => List.Disjoint e1.points e2.points) r.2 ∧
      (r.2.flatMap VoronoiEdge.points).Nodup ∧
      ∀ e ∈ r.2, ∀ p ∈ e.points, ∃ x y : Int, p = ⟨x, y⟩ ∧
        (0 ≤ x ∧ x < 6) ∧ (0 ≤ y ∧ y < 1) ∧ mask_row6 y x = true) ∧
    ∃ vd, compute_voronoi_with_edges sqrtQ image_1x1 [⟨0, 0⟩] (fun _ => 0) = some vd ∧
      (vd.edges.flatMap VoronoiEdge.points).Nodup := by
  obtain ⟨vd, hvd, _⟩ := compute_of_cells sqrtQ image_1x1 [⟨0, 0⟩] (fun _ => 0) _
    (cells_1x1 sqrtQ sqrtQ_zero (fun _ => 0))
  have h := C17_traced_paths_disjoint sqrtQ image_1x1 [⟨0, 0⟩] (fun _ => 0) 6 1 mask_row6
  exact ⟨trace_all_row6, h.1, vd, hvd, (h.2 vd hvd).2.2.1⟩

/-- C18.  The 1x1 image with a black pixel and the stipples `(0, 0)`, `(1, 0)`, on
a `cells` block that `malloc` returns with the content 7 in each `pixelCount`:
stipple 1 gets no pixel, its cell has `sumDensity == 0` and centroid `(0, 0)` and
is dropped for the lower threshold 1/2, as the claim says, but its `pixelCount`
is 7, not 0. -/
theorem C18_empty_cell_on_used_heap :
    (assigned sqrtQ image_1x1 [⟨0, 0⟩, ⟨1, 0⟩] 1).length = 0 ∧
    (∃ vd, compute_voronoi_with_edges sqrtQ image_1x1 [⟨0, 0⟩, ⟨1, 0⟩] (fun _ => 7) =
        some vd ∧
      vd.cells = [⟨8, 1, ⟨0, 0⟩⟩, ⟨7, 0, ⟨0, 0⟩⟩]) ∧
    LBG_policy (1 / 2) 1 [⟨7, 0, ⟨0, 0⟩⟩] (createEmptyStippleList, 0) = ([], 1) :=
  ⟨by rw [assigned_1x1_two sqrtQ sqrtQ_zero sqrtQ_one]; rfl,
   compute_of_cells sqrtQ image_1x1 [⟨0, 0⟩, ⟨1, 0⟩] (fun _ => 7) _
    (cells_1x1_two sqrtQ sqrtQ_zero sqrtQ_one (fun _ => 7)),
   by
    rw [createEmptyStippleList, LBG_policy_dropped (1 / 2) 1 _ _ _ _ (by norm_num)]
    rfl⟩

/-- C19.  A 1x1 image whose pixel has the positive density 1 and the one stipple
`(FLT_MAX, 0)`: the only stipple is the one of least Euclidean distance, so the
claim assigns the pixel to index 0.  Under exact arithmetic the weighted
distance is `FLT_MAX`, in binary32 the square overflows and it is `+inf`; in
both the test `dist < FLT_MAX` fails, the scan ends with `closest_stipple == -1`
and `compute_voronoi_with_edges` accumulates the pixel into `cells[-1]`. -/
theorem C19_far_stipple_not_assigned :
    0 < image_1x1.data (0 * image_1x1.width + 0) ∧
    (∀ i : Int, 0 ≤ image_1x1.data i) ∧
    stipples_far ≠ [] ∧ stipples_far.length = 1 ∧
    closest_stipple sqrtQ image_1x1 stipples_far 0 0 = -1 ∧
    compute_voronoi_with_edges sqrtQ image_1x1 stipples_far (fun _ => 0) = none ∧
    round32 FLT_MAX = F32.fin FLT_MAX ∧
    closest_stipple32 sqrt32 image32_1x1 [⟨F32.fin FLT_MAX, F32.fin 0⟩] 0 0 = -1 ∧
    compute_voronoi_with_edges32 sqrt32 image32_1x1 [⟨F32.fin FLT_MAX, F32.fin 0⟩]
      (fun _ => 0) = none :=
  ⟨by norm_num [image_1x1], fun i => by norm_num [image_1x1], by simp [stipples_far], rfl,
    closest_far sqrtQ sqrtQ_FLT_MAX,
    compute_none_of_cells _ _ _ _ (voronoi_cells_far sqrtQ sqrtQ_FLT_MAX _),
    round32_FLT_MAX, closest32_FLT_MAX,
    compute32_none_of_cells _ _ _ _ (voronoi_cells32_FLT_MAX _)⟩


/-- C20.  For every mask `edge_map` and every `width`, `height`, the row-major
tracing scan returns, and the number of paths it stored is at most a fifth
(integer division) of the number of pixels of `[0, width) x [0, height)` set in
`edge_map`, hence at most `max_edges` of that number; the scan calls
`trace_edge_path` with `max_paths = 100000`.  The `edge_pixel_count` of the
second pass is the number of pixels set in the mask it built, so every diagram
that `compute_voronoi_with_edges` returns has
`edgeCount <= edge_pixel_count / 5 <= max_edges`. -/
theorem C20_stored_paths_within_capacity (sqrtf : ℚ → ℚ) (image : FloatImage)
    (stipples : StippleList) (garbage : Nat → Int)
    (width height : Int) (edge_map : Int → Int → Bool) :
    (∃ r, trace_all width height edge_map = some r ∧
      (r.2.length : Int) ≤ (active_count width height edge_map : Int) / 5 ∧
      (r.2.length : Int) ≤ max_edges (active_count width height edge_map)) ∧
    (mark_edges sqrtf image stipples).2 =
      active_count image.width image.height (mark_edges sqrtf image stipples).1 ∧
    ∀ vd, compute_voronoi_with_edges sqrtf image stipples garbage = some vd →
      vd.edgeCount = vd.edges.length ∧
      vd.edgeCount ≤ (mark_edges sqrtf image stipples).2 / 5 ∧
      vd.edgeCount ≤ max_edges (mark_edges sqrtf image stipples).2 := by
  have key : ∀ (w h : Int) (m : Int → Int → Bool)
      (r : (Int → Int → Bool) × List VoronoiEdge), trace_all w h m = some r →
      (r.2.length : Int) ≤ (active_count w h m : Int) / 5 ∧
      (r.2.length : Int) ≤ max_edges (active_count w h m) := by
    intro w h m r hr
    have h5 := scan_inv_count m w h r (trace_all_inv w h m r hr)
    have h1 : (r.2.length : Int) ≤ (active_count w h m : Int) / 5 := by omega
    refine ⟨h1, ?_⟩
    unfold max_edges
    split <;> omega
  refine ⟨?_, (mark_edges_spec sqrtf image stipples).2, ?_⟩
  · have hsome := trace_all_isSome width height edge_map
    obtain ⟨r, hr⟩ := Option.isSome_iff_exists.1 hsome
    exact ⟨r, hr, key width height edge_map r hr⟩
  · intro vd hvd
    obtain ⟨⟨m, hm⟩, hcount⟩ := compute_edges sqrtf image stipples garbage vd hvd
    have hk := key image.width image.height _ _ hm
    rw [← (mark_edges_spec sqrtf image stipples).2] at hk
    rw [hcount]
    exact ⟨rfl, hk.1, hk.2⟩

/-- C20, witness: the mask of width 6 and height 1 with every pixel set, whose
6 pixels give the one stored path and `6 / 5 = 1`, and the diagram of the 1x1
image with the stipple `(0, 0)`. -/
theorem C20_stored_paths_within_capacity_witness :
    active_count 6 1 mask_row6 = 6 ∧
    ((trace_all 6 1 mask_row6).map fun r => r.2.length) = some 1 ∧
    (∃ r, trace_all 6 1 mask_row6 = some r ∧
      (r.2.length : Int) ≤ (active_count 6 1 mask_row6 : Int) / 5 ∧
      (r.2.length : Int) ≤ max_edges (active_count 6 1 mask_row6)) ∧
    ∃ vd, compute_voronoi_with_edges sqrtQ image_1x1 [⟨0, 0⟩] (fun _ => 0) = some vd ∧
      vd.edgeCount ≤ max_edges (mark_edges sqrtQ image_1x1 [⟨0, 0⟩]).2 := by
  obtain ⟨vd, hvd, _⟩ := compute_of_cells sqrtQ image_1x1 [⟨0, 0⟩] (fun _ => 0) _
    (cells_1x1 sqrtQ sqrtQ_zero (fun _ => 0))
  have h := C20_stored_paths_within_capacity sqrtQ image_1x1 [⟨0, 0⟩] (fun _ => 0)
    6 1 mask_row6
  exact ⟨active_count_row6, by decide, h.1, vd, hvd, (h.2.2 vd hvd).2.2⟩


end Stippling
